import Mathlib

/-!
# A verification model of the Purple chain-management engine

This file gives a shallow embedding of the fork-choice / chain-management
engine of the Purple blockchain node (`src/chain/src/chain.rs`) together with
theorems about its behaviour.

Modelling conventions:

* Block hashes are modelled as natural numbers.  The engine treats hashes as
  opaque identities, and the well-known storage keys (`"canonical_tip"`,
  `"canonical_height"`, the height index keys `hash(be_u64 height)`, the
  per-block height keys `hash(hex(hash) ++ ".height")`, …) are hashes of
  pairwise distinct preimages, so the untyped byte store is modelled as a
  typed record with one field per key family (exactly the "storage façade"
  of the engine).
* The engine is generic over a block type `B : Block` with an associated
  `ChainState`.  The model is parameterised by `BParams CS` packaging the
  constants (`MAX_ORPHANS`, `SWITCH_OFFSET`, …) and the trait operations
  (`genesis`, `genesis_state`, `append_condition`).  `ChainState::duplicate`
  is a value clone and is modelled as the identity; checkpoints held by the
  external `Checkpointable` implementation are modelled by an id-indexed
  store threaded through the chain value.
* Rust panics (failed `assert!`/`unwrap`/`unimplemented!`, and `u64`
  subtraction overflow, which panics under the debug profile the repository
  tests run under) are modelled by `Option.none`.  `u64` overflow by
  *addition* is not modelled: reaching it needs ≈ 2^64 appended blocks.
* Source loops whose bound is not structural are given explicit fuel;
  running out of fuel also yields `none`, so every `some` result of the
  model corresponds to a real terminating execution of the code.
* Hash maps are modelled as association lists (insertion order when iterated,
  which the source leaves unspecified); hash sets as duplicate-free lists.
-/

set_option maxHeartbeats 1000000

deriving instance DecidableEq for Except

namespace Purple

/-- The errors returned by the chain (`ChainErr` in `chain.rs`). -/
inductive ChainErr where
  | alreadyInChain
  | invalidParent
  | noParentHash
  | badHeight
  | noSuchBlock
  | tooManyOrphans
  | badAppendCondition
  | noCheckpointFound
deriving DecidableEq, Repr

/-- Orphan validation statuses (`OrphanType` in `orphan_type.rs`). -/
inductive OrphanType where
  | disconnectedTip
  | belongsToDisconnected
  | validChainTip
  | belongsToValidChain
deriving DecidableEq, Repr

/-- Abstract block: a hash identity, an optional parent hash and a height.
The engine reads nothing else from a block (timestamps, miner addresses and
payloads are opaque to it).  `block_hash()` returns `Some` for every block
the engine handles, so the hash is modelled as total. -/
structure Block where
  hash : Nat
  parentHash : Option Nat
  height : Nat
deriving DecidableEq, Repr

/-! ## Association-list maps and list sets -/

/-- Lookup in an association list (model of `HashMap::get`). -/
def alGet {α : Type} (l : List (Nat × α)) (k : Nat) : Option α :=
  match l with
  | [] => none
  | (k', v) :: t => if k' = k then some v else alGet t k

/-- Insertion in an association list, overwriting in place
(model of `HashMap::insert`). -/
def alInsert {α : Type} (l : List (Nat × α)) (k : Nat) (v : α) : List (Nat × α) :=
  match l with
  | [] => [(k, v)]
  | (k', v') :: t => if k' = k then (k, v) :: t else (k', v') :: alInsert t k v

/-- Removal from an association list (model of `HashMap::remove`). -/
def alRemove {α : Type} (l : List (Nat × α)) (k : Nat) : List (Nat × α) :=
  match l with
  | [] => []
  | (k', v') :: t => if k' = k then t else (k', v') :: alRemove t k

/-- Membership in a list set (model of `HashSet::contains`). -/
def sMem (l : List Nat) (k : Nat) : Bool :=
  match l with
  | [] => false
  | k' :: t => if k' = k then true else sMem t k

/-- Insertion in a list set (model of `HashSet::insert`). -/
def sInsert (l : List Nat) (k : Nat) : List Nat :=
  if sMem l k then l else l ++ [k]

/-- Removal from a list set (model of `HashSet::remove`). -/
def sRemove (l : List Nat) (k : Nat) : List Nat :=
  match l with
  | [] => []
  | k' :: t => if k' = k then t else k' :: sRemove t k

/-- Checked `u64` subtraction: Rust subtraction panics on underflow under the
debug profile, modelled as `none`. -/
def checkedSub (a b : Nat) : Option Nat :=
  if b ≤ a then some (a - b) else none

/-! ## The chain state -/

/-- The state of a `Chain<B>` value, including the backing persistent store
(as the typed storage façade) and the external checkpoint store.

Store fields: `dbBlocks` is the hash → serialized-block family, `dbHeightIndex`
the `hash(be_u64 height)` → block-hash family, `dbBlockHeights` the
`hash(hex(block_hash) ++ ".height")` → be_u64 height family (written by
`write_block`, never read back), `dbCanonicalHeight` the value stored under
`CANONICAL_HEIGHT_KEY`.  The `TIP_KEY` entry is read only at startup and never
written by the engine, so it is not carried. -/
structure Chain (CS : Type) where
  dbBlocks : List (Nat × Block)
  dbHeightIndex : List (Nat × Nat)
  dbBlockHeights : List (Nat × Nat)
  dbCanonicalHeight : Nat
  height : Nat
  canonicalTip : Block
  canonicalTipState : CS
  orphanPool : List (Nat × Block)
  maxOrphanHeight : Option Nat
  heightsMapping : List (Nat × List (Nat × Nat))
  diskHeightsCheckpoints : List (Nat × Nat)
  lastCheckpointHeight : Option Nat
  earliestCheckpointHeight : Option Nat
  validationsMapping : List (Nat × OrphanType)
  disconnectedHeadsMapping : List (Nat × List Nat)
  disconnectedHeadsHeights : List (Nat × (Nat × Nat))
  disconnectedTipsMapping : List (Nat × Nat)
  validTips : List Nat
  validTipsStates : List (Nat × CS)
  archivalMode : Bool
  checkpointStore : List (Nat × CS)
  nextCheckpointId : Nat
deriving DecidableEq

/-- The engine's compile-time block parameters and consumed trait operations
(the constants of the `Block` trait and `append_condition`/`genesis`/
`genesis_state`). -/
structure BParams (CS : Type) where
  genesis : Block
  genesisState : CS
  appendCondition : Block → CS → Except ChainErr CS
  maxOrphans : Nat
  switchOffset : Nat
  minHeight : Nat
  maxHeight : Nat
  checkpointInterval : Nat

/-- `Chain::new` on an empty backing store: the canonical tip starts at
genesis with height 0 and all in-memory indices empty. -/
def freshChain {CS : Type} (P : BParams CS) : Chain CS where
  dbBlocks := []
  dbHeightIndex := []
  dbBlockHeights := []
  dbCanonicalHeight := 0
  height := 0
  canonicalTip := P.genesis
  canonicalTipState := P.genesisState
  orphanPool := []
  maxOrphanHeight := none
  heightsMapping := []
  diskHeightsCheckpoints := []
  lastCheckpointHeight := none
  earliestCheckpointHeight := none
  validationsMapping := []
  disconnectedHeadsMapping := []
  disconnectedHeadsHeights := []
  disconnectedTipsMapping := []
  validTips := []
  validTipsStates := []
  archivalMode := true
  checkpointStore := []
  nextCheckpointId := 0

variable {CS : Type}

/-- `ChainState::checkpoint()`: store the state snapshot externally and
return its fresh id. -/
def doCheckpoint (c : Chain CS) (s : CS) : Nat × Chain CS :=
  (c.nextCheckpointId,
   { c with checkpointStore := alInsert c.checkpointStore c.nextCheckpointId s
            nextCheckpointId := c.nextCheckpointId + 1 })

/-- `ChainState::load_from_disk(id)`. -/
def loadCheckpoint (c : Chain CS) (id : Nat) : Option CS :=
  alGet c.checkpointStore id

/-- `ChainState::delete_checkpoint(id)`: removes the snapshot. -/
def deleteCheckpoint (c : Chain CS) (id : Nat) : Chain CS :=
  { c with checkpointStore := alRemove c.checkpointStore id }

/-- `Chain::update_max_orphan_height`. -/
def updateMaxOrphanHeight (c : Chain CS) (newHeight : Nat) : Chain CS :=
  match c.maxOrphanHeight with
  | none => { c with maxOrphanHeight := some newHeight }
  | some cur =>
      if newHeight > cur then { c with maxOrphanHeight := some newHeight } else c

/-- `Chain::query`: fetch a block from the canonical store by hash. -/
def query (c : Chain CS) (hash : Nat) : Option Block :=
  alGet c.dbBlocks hash

/-- `Chain::query_by_height` is `unimplemented!()` in the source: calling it
always panics. -/
def queryByHeight (_c : Chain CS) (_height : Nat) : Option Block :=
  none

/-- The scan in `write_block` that recomputes `max_orphan_height` after the
written block vacates the maximal orphan height: walk heights downward from
`maxHeight - 1` until a height with a `heights_mapping` entry is found
(`None` if we reach 0). -/
def findMaxOrphanBelow (hm : List (Nat × List (Nat × Nat))) :
    Nat → Option Nat
  | 0 => none
  | (n+1) =>
      if (alGet hm (n+1)).isSome then some (n+1)
      else findMaxOrphanBelow hm n

/-- `Chain::write_block`: append a block on top of the canonical tip.
Panics (`none`) if the block is registered in the disconnected maps or its
parent hash is not the canonical tip's hash (the `assert!`s). -/
def writeBlock (c : Chain CS) (block : Block) : Option (Chain CS) := do
  let blockHash := block.hash
  -- assert!(disconnected_heads_mapping / disconnected_tips_mapping miss)
  if (alGet c.disconnectedHeadsMapping blockHash).isSome then none else
  if (alGet c.disconnectedTipsMapping blockHash).isSome then none else
  -- assert_eq!(block.parent_hash(), canonical_tip hash)
  match block.parentHash with
  | none => none
  | some parentHash =>
    if parentHash ≠ c.canonicalTip.hash then none else
    let c := { c with dbBlocks := alInsert c.dbBlocks blockHash block }
    let c := { c with canonicalTip := block }
    -- height := decode(db[CANONICAL_HEIGHT_KEY]) + 1
    let height := c.dbCanonicalHeight + 1
    let c := { c with height := height, dbCanonicalHeight := height }
    -- block-height key and height-index entries
    let c := { c with dbBlockHeights := alInsert c.dbBlockHeights blockHash height }
    let c := { c with dbHeightIndex := alInsert c.dbHeightIndex height blockHash }
    let c := { c with orphanPool := alRemove c.orphanPool blockHash
                      validationsMapping := alRemove c.validationsMapping blockHash }
    let c :=
      match alGet c.heightsMapping block.height with
      | some orphans =>
          { c with heightsMapping :=
              alInsert c.heightsMapping block.height (alRemove orphans blockHash) }
      | none => c
    let c := { c with validTips := sRemove c.validTips blockHash
                      validTipsStates := alRemove c.validTipsStates blockHash }
    match c.maxOrphanHeight with
    | some maxHeight =>
        if block.height = maxHeight then do
          let start ← checkedSub maxHeight 1
          some { c with maxOrphanHeight := findMaxOrphanBelow c.heightsMapping start }
        else some c
    | none => some c

/-- `Chain::write_orphan`: insert a block into the orphan pool with the given
status and inverse height, maintaining the height mapping and
`max_orphan_height`. -/
def writeOrphan (c : Chain CS) (orphan : Block) (orphanType : OrphanType)
    (inverseHeight : Nat) : Chain CS :=
  let orphanHash := orphan.hash
  let height := orphan.height
  let c :=
    match orphanType with
    | OrphanType.validChainTip => { c with validTips := sInsert c.validTips orphanHash }
    | _ => c
  let c :=
    match alGet c.heightsMapping height with
    | some heightEntry =>
        if (alGet heightEntry orphanHash).isNone then
          { c with heightsMapping :=
              alInsert c.heightsMapping height (alInsert heightEntry orphanHash inverseHeight) }
        else c
    | none =>
        { c with heightsMapping :=
            alInsert c.heightsMapping height [(orphanHash, inverseHeight)] }
  let c := { c with orphanPool := alInsert c.orphanPool orphanHash orphan }
  let c := updateMaxOrphanHeight c height
  { c with validationsMapping := alInsert c.validationsMapping orphanHash orphanType }

/-- Shared pattern for `heights_mapping` insertion with overwrite
(`entries.insert(hash, inv)` on the existing entry, or a fresh singleton
map). -/
def hmInsert (hm : List (Nat × List (Nat × Nat))) (height hash inv : Nat) :
    List (Nat × List (Nat × Nat)) :=
  match alGet hm height with
  | some entries => alInsert hm height (alInsert entries hash inv)
  | none => alInsert hm height [(hash, inv)]

/-! ## State replay (`fetch_next_state` / `search_fetch_next_state`) -/

/-- The replay loop of `fetch_next_state`: for `cur = height+1 …
target`, look the canonical block up through the height index and apply
`append_condition` (whose failure on a canonical block is a fatal panic). -/
def fetchReplay (P : BParams CS) (c : Chain CS) :
    CS → Nat → Nat → Nat → Option CS
  | _, _, _, 0 => none
  | state, cur, target, fuel + 1 => do
      let blockHash ← alGet c.dbHeightIndex cur
      let block ← alGet c.dbBlocks blockHash
      match P.appendCondition block state with
      | Except.error _ => none
      | Except.ok state =>
          if cur = target then some state
          else fetchReplay P c state (cur + 1) target fuel

/-- `Chain::fetch_next_state(height, target_height)`.  Note the source
returns the genesis state immediately when `height == 0`, without replaying
up to `target_height`. -/
def fetchNextState (P : BParams CS) (c : Chain CS) (height target fuel : Nat) :
    Option CS :=
  -- assert!(target_height <= self.height); assert!(height <= target_height)
  if ¬ target ≤ c.height then none
  else if ¬ height ≤ target then none
  else if height = 0 then some P.genesisState
  else do
    let (height, state) ←
      if height < P.checkpointInterval then
        some (0, P.genesisState)
      else do
        let id ← alGet c.diskHeightsCheckpoints height
        let st ← loadCheckpoint c id
        some (height, st)
    if height = target then some state
    else fetchReplay P c state (height + 1) target fuel

/-- The checkpoint-search loop of `search_fetch_next_state`: walk down from
the last checkpoint height in steps of `CHECKPOINT_INTERVAL` while
`current - interval` is still at least the target (the `u64` subtraction
panics when `current < interval`). -/
def searchCheckpointLoop (target interval : Nat) : Nat → Nat → Option Nat
  | _, 0 => none
  | current, fuel + 1 => do
      let d ← checkedSub current interval
      if d < target then some current
      else searchCheckpointLoop target interval (current - interval) fuel

/-- `Chain::search_fetch_next_state(target_height)`. -/
def searchFetchNextState (P : BParams CS) (c : Chain CS) (target fuel : Nat) :
    Option CS := do
  let height ←
    match c.lastCheckpointHeight with
    | some l => searchCheckpointLoop target P.checkpointInterval l fuel
    | none => some target
  fetchNextState P c height target fuel

/-! ## `rewind` -/

/-- The strip loop of `rewind`: walk parents from the old canonical tip,
removing each block from the store and the height index and reinserting it
into the orphan pool as `BelongsToValidChain`, until the parent hash equals
the rewind target. -/
def rewindLoop (c : Chain CS) :
    Block → Nat → Nat → Nat → Option (Chain CS)
  | _, _, _, 0 => none
  | current, blockHash, inverseHeight, fuel + 1 => do
      let parentHash ← current.parentHash
      if parentHash = blockHash then some c
      else do
        -- Remove past checkpoints when we reach their height.
        let c ←
          match c.lastCheckpointHeight, c.earliestCheckpointHeight with
          | some l, some e => do
              let hm1 ← checkedSub current.height 1
              let c ←
                if hm1 = l then do
                  let id ← alGet c.diskHeightsCheckpoints l
                  let c := { c with diskHeightsCheckpoints :=
                    (alRemove c.diskHeightsCheckpoints l) }
                  some (deleteCheckpoint c id)
                else some c
              -- Remove checkpoint markers if we only have one checkpoint
              if l = e then
                some { c with earliestCheckpointHeight := none,
                              lastCheckpointHeight := none }
              else some c
          | _, _ => some c
        let parent ← alGet c.dbBlocks parentHash
        let curHeight := parent.height
        let c := { c with dbBlocks := alRemove c.dbBlocks parentHash }
        let c := { c with dbHeightIndex := alRemove c.dbHeightIndex curHeight }
        let c := { c with orphanPool := alInsert c.orphanPool parent.hash parent }
        let c := { c with validationsMapping :=
          (alInsert c.validationsMapping parent.hash OrphanType.belongsToValidChain) }
        let c := { c with heightsMapping :=
          (hmInsert c.heightsMapping curHeight parent.hash inverseHeight) }
        let c := updateMaxOrphanHeight c parent.height
        rewindLoop c parent blockHash (inverseHeight + 1) fuel

/-- `Chain::rewind(block_hash)`. -/
def rewind (P : BParams CS) (c : Chain CS) (blockHash fuel : Nat) :
    Option (Except ChainErr Unit × Chain CS) :=
  let genesis := P.genesis
  let newTipOpt : Option Block :=
    if blockHash = genesis.hash then some genesis
    else alGet c.dbBlocks blockHash
  match newTipOpt with
  | none => some (Except.error ChainErr.noSuchBlock, c)
  | some newTip => do
      let canonicalState := c.canonicalTipState
      let current := c.canonicalTip
      -- Remove canonical tip from the chain and mark it as a valid chain tip.
      let c := { c with dbBlocks := alRemove c.dbBlocks current.hash }
      let c := { c with dbHeightIndex := alRemove c.dbHeightIndex current.height }
      let c := { c with orphanPool := alInsert c.orphanPool current.hash current }
      let c := { c with validationsMapping :=
        (alInsert c.validationsMapping current.hash OrphanType.validChainTip) }
      let c := { c with validTips := sInsert c.validTips current.hash }
      let c := { c with validTipsStates :=
        (alInsert c.validTipsStates current.hash canonicalState) }
      let c := { c with heightsMapping :=
        (hmInsert c.heightsMapping current.height current.hash 0) }
      let c := updateMaxOrphanHeight c current.height
      let c ← rewindLoop c current blockHash 1 fuel
      let c := { c with height := newTip.height, dbCanonicalHeight := newTip.height }
      let st ← searchFetchNextState P c newTip.height fuel
      let c := { c with canonicalTipState := st, canonicalTip := newTip }
      some (Except.ok (), c)

/-! ## `traverse_inverse` -/

/-- The parent walk of `traverse_inverse`: while the parent is in the orphan
pool, raise its recorded inverse height to at least `cur_inverse + 1` (and
mark it `BelongsToValidChain` when `make_valid` is set).  The source also
pushes each parent on a `branch_stack` that is never read; it is omitted. -/
def traverseInverseLoop (c : Chain CS) :
    Block → Nat → Bool → Nat → Option (Chain CS)
  | _, _, _, 0 => none
  | current, curInverse, makeValid, fuel + 1 => do
      let parentHash ← current.parentHash
      match alGet c.orphanPool parentHash with
      | none => some c
      | some parent => do
          let orphans ← alGet c.heightsMapping parent.height
          let inv ← alGet orphans parent.hash
          let orphans := if inv < curInverse + 1 then alInsert orphans parent.hash (curInverse + 1) else orphans
          let c := { c with heightsMapping :=
            (alInsert c.heightsMapping parent.height orphans) }
          let c :=
            if makeValid then
              { c with validationsMapping :=
                  (alInsert c.validationsMapping parent.hash OrphanType.belongsToValidChain) }
            else c
          traverseInverseLoop c parent (curInverse + 1) makeValid fuel

/-- `Chain::traverse_inverse(orphan, start_height, make_valid)`. -/
def traverseInverse (c : Chain CS) (orphan : Block) (startHeight : Nat)
    (makeValid : Bool) (fuel : Nat) : Option (Chain CS) :=
  if makeValid then
    -- assert_eq!(start_height, 0); mark the starting orphan as a valid tip
    if startHeight ≠ 0 then none
    else
      let c := { c with validationsMapping :=
        (alInsert c.validationsMapping orphan.hash OrphanType.validChainTip) }
      traverseInverseLoop c orphan startHeight makeValid fuel
  else traverseInverseLoop c orphan startHeight makeValid fuel

/-! ## `attempt_attach` -/

/-- The head scan of `attempt_attach`: collect, in iteration order, the
disconnected heads (other than the tip's own head and the tip itself) whose
parent hash is the tip. -/
def attachScan (c : Chain CS) (tipHash ourHead : Nat) :
    List (Nat × List Nat) → Option (List Nat)
  | [] => some []
  | (headHash, _) :: rest =>
      if headHash = ourHead ∨ headHash = tipHash then attachScan c tipHash ourHead rest
      else do
        let head ← alGet c.orphanPool headHash
        let hp ← head.parentHash
        let l ← attachScan c tipHash ourHead rest
        if hp = tipHash then some (headHash :: l) else some l

/-- The tip-merge loop of `attempt_attach`: re-point each merged tip at
`cur_head`, keep `disconnected_heads_heights` at the deepest tip, and record
the tip for a later `traverse_inverse` pass. -/
def attachMergeTips (c : Chain CS) (curHead : Nat) :
    List Nat → Option (Chain CS × List Block)
  | [] => some (c, [])
  | tipHash :: rest => do
      let tip ← alGet c.orphanPool tipHash
      let (largestHeight, _) ← alGet c.disconnectedHeadsHeights curHead
      let c := { c with disconnectedTipsMapping :=
        (alInsert c.disconnectedTipsMapping tipHash curHead) }
      let c :=
        if tip.height > largestHeight then
          { c with disconnectedHeadsHeights :=
              (alInsert c.disconnectedHeadsHeights curHead (tip.height, tip.hash)) }
        else c
      let curTips := (alGet c.disconnectedHeadsMapping curHead).getD []
      let c := { c with disconnectedHeadsMapping :=
        (alInsert c.disconnectedHeadsMapping curHead (sInsert curTips tipHash)) }
      let (c, blocks) ← attachMergeTips c curHead rest
      some (c, tip :: blocks)

/-- Run `traverse_inverse(tip, 0, false)` for each merged tip. -/
def attachTraverseAll (c : Chain CS) (fuel : Nat) :
    List Block → Option (Chain CS)
  | [] => some c
  | tip :: rest => do
      let c ← traverseInverse c tip 0 false fuel
      attachTraverseAll c fuel rest

/-- Attach one matched head into `cur_head`'s fragment. -/
def attachOne (c : Chain CS) (curHead headToAttach fuel : Nat) :
    Option (Chain CS) := do
  let tips ← alGet c.disconnectedHeadsMapping headToAttach
  let c := { c with disconnectedHeadsMapping :=
    (alRemove c.disconnectedHeadsMapping headToAttach) }
  -- disconnected_heads_heights.remove(head).unwrap()
  let _ ← alGet c.disconnectedHeadsHeights headToAttach
  let c := { c with disconnectedHeadsHeights :=
    (alRemove c.disconnectedHeadsHeights headToAttach) }
  -- cur_tips entry: get_mut or insert empty set
  let c :=
    match alGet c.disconnectedHeadsMapping curHead with
    | some _ => c
    | none => { c with disconnectedHeadsMapping :=
        (alInsert c.disconnectedHeadsMapping curHead []) }
  -- clear the head itself out of its tip set and the tips mapping
  let curTips := (alGet c.disconnectedHeadsMapping curHead).getD []
  let c := { c with disconnectedHeadsMapping :=
    (alInsert c.disconnectedHeadsMapping curHead (sRemove curTips curHead)) }
  let c := { c with disconnectedTipsMapping :=
    (alRemove c.disconnectedTipsMapping curHead) }
  let (c, toTraverse) ← attachMergeTips c curHead tips
  attachTraverseAll c fuel toTraverse

/-- Fold `attachOne` over the matched heads. -/
def attachAll (c : Chain CS) (curHead fuel : Nat) :
    List Nat → Option (Chain CS)
  | [] => some c
  | head :: rest => do
      let c ← attachOne c curHead head fuel
      attachAll c curHead fuel rest

/-- `Chain::attempt_attach(tip_hash, initial_status)`. -/
def attemptAttach (c : Chain CS) (tipHash : Nat) (initialStatus : OrphanType)
    (fuel : Nat) : Option (OrphanType × Chain CS) := do
  let ourHeadHash ← alGet c.disconnectedTipsMapping tipHash
  let toAttach ← attachScan c tipHash ourHeadHash c.disconnectedHeadsMapping
  let status := if toAttach.isEmpty then initialStatus
                else OrphanType.belongsToDisconnected
  let curHead ← alGet c.disconnectedTipsMapping tipHash
  let c ← attachAll c curHead fuel toAttach
  some (status, c)

/-! ## `make_valid_tips` -/

/-- One height-level scan of the `make_valid_tips` BFS: for each orphan at
the current height whose parent is in the `previous` frontier and whose
`append_condition` succeeds, reclassify it `BelongsToValidChain` and put it
in the next frontier; parents that found a child go into `matched`. -/
def mvtScan (P : BParams CS) (head : Nat) :
    Chain CS → List Nat → List Nat → List (Nat × CS) → List (Nat × CS) →
    Option (Chain CS × List Nat × List (Nat × CS))
  | c, [], matched, _, newPrevious => some (c, matched, newPrevious)
  | c, m :: rest, matched, previous, newPrevious => do
      let e ← alGet c.orphanPool m
      let parentHash ← e.parentHash
      match alGet previous parentHash with
      | none => mvtScan P head c rest matched previous newPrevious
      | some state =>
          match P.appendCondition e state with
          | Except.error _ =>
              -- TODO: Maybe cleanup here? Issue #109 (orphan left unchanged)
              mvtScan P head c rest matched previous newPrevious
          | Except.ok state => do
              let _ ← alGet c.validationsMapping head
              let c := { c with validationsMapping :=
                (alInsert c.validationsMapping head OrphanType.belongsToValidChain) }
              let blockHash := e.hash
              let c := { c with validTipsStates := alRemove c.validTipsStates parentHash }
              let c := { c with validTips := sRemove c.validTips parentHash }
              let c := { c with disconnectedHeadsMapping :=
                (alRemove c.disconnectedHeadsMapping parentHash) }
              let c := { c with disconnectedTipsMapping :=
                (alRemove c.disconnectedTipsMapping parentHash) }
              let newPrevious := alInsert newPrevious blockHash state
              let matched := sInsert matched parentHash
              let _ ← alGet c.validationsMapping m
              let c := { c with validationsMapping :=
                (alInsert c.validationsMapping m OrphanType.belongsToValidChain) }
              mvtScan P head c rest matched previous newPrevious

/-- Mark the frontier members that found no valid child as valid chain tips
(the `previous_keys.difference(&matched_set)` pass). -/
def mvtMakeTips (c : Chain CS) :
    List (Nat × CS) → Option (Chain CS)
  | [] => some c
  | (tipHash, state) :: rest => do
      let _ ← alGet c.validationsMapping tipHash
      let c := { c with validationsMapping :=
        (alInsert c.validationsMapping tipHash OrphanType.validChainTip) }
      let c := { c with disconnectedTipsMapping :=
        (alRemove c.disconnectedTipsMapping tipHash) }
      let c := { c with disconnectedHeadsMapping :=
        (alRemove c.disconnectedHeadsMapping tipHash) }
      let c := { c with validTips := sInsert c.validTips tipHash }
      let c := { c with validTipsStates := alInsert c.validTipsStates tipHash state }
      mvtMakeTips c rest

/-- The height loop of `make_valid_tips`. -/
def mvtLoop (P : BParams CS) (head : Nat) :
    Chain CS → List (Nat × CS) → Nat → Nat → Option (Chain CS)
  | _, _, _, 0 => none
  | c, previous, curHeight, fuel + 1 =>
      match alGet c.heightsMapping curHeight with
      | some heightsEntry => do
          let keys := heightsEntry.map (fun p => p.1)
          let (c, matched, newPrevious) ← mvtScan P head c keys [] previous []
          let nonMatched := previous.filter (fun p => ¬ sMem matched p.1)
          let c ← mvtMakeTips c nonMatched
          mvtLoop P head c newPrevious (curHeight + 1) fuel
      | none => mvtMakeTips c previous

/-- `Chain::make_valid_tips(head, head_state)`. -/
def makeValidTips (P : BParams CS) (c : Chain CS) (head : Nat) (headState : CS)
    (fuel : Nat) : Option (Chain CS) :=
  match alGet c.disconnectedHeadsMapping head with
  | none => some c
  | some _ => do
      let c := { c with disconnectedHeadsMapping :=
        (alRemove c.disconnectedHeadsMapping head) }
      let headBlock ← alGet c.orphanPool head
      let curHeight := headBlock.height + 1
      let c := { c with validTips := sInsert c.validTips head }
      let c := { c with validTipsStates := alInsert c.validTipsStates head headState }
      let previous : List (Nat × CS) := [(head, headState)]
      let c := { c with disconnectedHeadsHeights :=
        (alRemove c.disconnectedHeadsHeights head) }
      let c := { c with disconnectedTipsMapping :=
        (alRemove c.disconnectedTipsMapping head) }
      let _ ← alGet c.validationsMapping head
      let c := { c with validationsMapping :=
        (alInsert c.validationsMapping head OrphanType.validChainTip) }
      mvtLoop P head c previous curHeight fuel

/-! ## `attempt_attach_valid` -/

/-- The filtered iteration of `attempt_attach_valid` over
`disconnected_heads_heights`: for each head whose parent is the given tip and
whose `append_condition` against the tip state succeeds, record
`(head, deepest_tip_block, inverse_height, derived_state)`.  The filter
closure's `assert!`s and `unwrap`s are panics. -/
def aavScan (P : BParams CS) (c : Chain CS) (tip : Block) (tipState : CS) :
    List (Nat × (Nat × Nat)) → Option (List (Nat × Block × Nat × CS))
  | [] => some []
  | (headHash, (largestHeight, largestTip)) :: rest => do
      let tips ← alGet c.disconnectedHeadsMapping headHash
      if ¬ sMem tips largestTip then none else do
      let head ← alGet c.orphanPool headHash
      let parentHash ← head.parentHash
      if parentHash = tip.hash then
        match P.appendCondition head tipState with
        | Except.ok newState => do
            let largestTipBlock ← alGet c.orphanPool largestTip
            let inverseH ← checkedSub largestHeight tip.height
            let l ← aavScan P c tip tipState rest
            some ((headHash, largestTipBlock, inverseH, newState) :: l)
        | Except.error _ =>
            -- TODO: Maybe cleanup here? Issue #109
            aavScan P c tip tipState rest
      else aavScan P c tip tipState rest

/-- The write-back loop of `attempt_attach_valid`: demote the old tip, adopt
the deepest merged tip as the candidate, and run `make_valid_tips` on each
matched head. -/
def aavWrite (P : BParams CS) (blockHash : Nat) (fuel : Nat) :
    Chain CS → List (Nat × Block × Nat × CS) → Block → Nat → OrphanType →
    Option (Chain CS × Block × Nat × OrphanType)
  | c, [], tip, inverseHeight, status => some (c, tip, inverseHeight, status)
  | c, (headHash, newTip, inverseH, tipState) :: rest, tip, inverseHeight, _status => do
      let status' := OrphanType.belongsToValidChain
      let (tip, inverseHeight) :=
        if inverseH > inverseHeight then (newTip, inverseH) else (tip, inverseHeight)
      let c := { c with validTips := sRemove c.validTips blockHash }
      let c := { c with validTipsStates := alRemove c.validTipsStates blockHash }
      let _ ← alGet c.validationsMapping blockHash
      let c := { c with validationsMapping :=
        (alInsert c.validationsMapping blockHash OrphanType.belongsToValidChain) }
      let c ← makeValidTips P c headHash tipState fuel
      aavWrite P blockHash fuel c rest tip inverseHeight status'

/-- `Chain::attempt_attach_valid(tip, tip_state, inverse_height, status)`.
The `&mut` out-parameters are returned as a tuple
`(chain, tip, inverse_height, status)`. -/
def attemptAttachValid (P : BParams CS) (c : Chain CS) (tip : Block)
    (tipState : CS) (inverseHeight : Nat) (status : OrphanType) (fuel : Nat) :
    Option (Chain CS × Block × Nat × OrphanType) := do
  let blockHash := tip.hash
  -- assert!s on entry
  if ¬ sMem c.validTips blockHash then none else
  if (alGet c.disconnectedHeadsMapping blockHash).isSome then none else
  if (alGet c.disconnectedTipsMapping blockHash).isSome then none else do
  let c :=
    if (alGet c.validationsMapping blockHash).isNone then
      { c with validationsMapping := alInsert c.validationsMapping blockHash status }
    else c
  let toWrite ← aavScan P c tip tipState c.disconnectedHeadsHeights
  let (c, tip, inverseHeight, status) ←
    aavWrite P blockHash fuel c toWrite tip inverseHeight status
  let c ← traverseInverse c tip 0 true fuel
  some (c, tip, inverseHeight, status)

/-! ## `process_orphans` -/

/-- The per-orphan pass of the multi-orphan branch of `process_orphans`:
orphans following the canonical tip are buffered for writing; orphans
following a previous valid tip extend that valid chain in place.
Arguments: chain, remaining entries, `prev_valid_tips`,
`new_prev_valid_tips`, `obsolete`, `buf`. -/
def poScanOrphans (P : BParams CS) :
    Chain CS → List (Nat × Nat) → List Nat → List Nat → List Nat →
    List (Nat × Nat × CS) →
    Option (Chain CS × List Nat × List Nat × List (Nat × Nat × CS))
  | c, [], _, newPrev, obsolete, buf => some (c, newPrev, obsolete, buf)
  | c, (o, iH) :: rest, prev, newPrev, obsolete, buf => do
      let orphan ← alGet c.orphanPool o
      let orphanParent ← orphan.parentHash
      if orphanParent = c.canonicalTip.hash then
        match P.appendCondition orphan c.canonicalTipState with
        | Except.ok st => poScanOrphans P c rest prev newPrev obsolete (buf ++ [(o, iH, st)])
        | Except.error _ =>
            -- TODO: Maybe cleanup here? Issue #109
            poScanOrphans P c rest prev newPrev obsolete buf
      else if sMem prev orphanParent then do
        let parentState ← alGet c.validTipsStates orphanParent
        match P.appendCondition orphan parentState with
        | Except.ok st => do
            let _ ← alGet c.validationsMapping orphanParent
            let c := { c with validationsMapping :=
              (alInsert c.validationsMapping orphanParent OrphanType.belongsToValidChain) }
            let _ ← alGet c.validationsMapping o
            let c := { c with validationsMapping :=
              (alInsert c.validationsMapping o OrphanType.validChainTip) }
            let obsolete := sInsert obsolete orphanParent
            let c := { c with validTipsStates := alInsert c.validTipsStates o st }
            let c := { c with validTips := sInsert c.validTips o }
            let newPrev := sInsert (sRemove newPrev orphanParent) o
            poScanOrphans P c rest prev newPrev obsolete buf
        | Except.error _ =>
            -- TODO: Maybe cleanup here? Issue #109
            poScanOrphans P c rest prev newPrev obsolete buf
      else poScanOrphans P c rest prev newPrev obsolete buf

/-- Remove the obsolete valid tips collected by `poScanOrphans`. -/
def poRemoveObsolete (c : Chain CS) : List Nat → Chain CS
  | [] => c
  | b :: rest =>
      poRemoveObsolete
        { c with validTips := sRemove c.validTips b
                 validTipsStates := alRemove c.validTipsStates b } rest

/-- Insertion into `buf` sorted ascending by inverse height (model of
`sort_unstable_by` on the middle component; ties keep insertion order,
which the unstable sort of the source leaves unspecified). -/
def bufInsert (x : Nat × Nat × CS) : List (Nat × Nat × CS) → List (Nat × Nat × CS)
  | [] => [x]
  | y :: t => if x.2.1 ≤ y.2.1 then x :: y :: t else y :: bufInsert x t

/-- Sort `buf` ascending by inverse height. -/
def bufSort : List (Nat × Nat × CS) → List (Nat × Nat × CS)
  | [] => []
  | x :: t => bufInsert x (bufSort t)

/-- The trailing pass of the multi-orphan branch: place the remaining
buffered orphans in the valid-tips set and mark them `ValidChainTip`. -/
def poMarkRemaining (c : Chain CS) :
    List (Nat × Nat × CS) → List Nat → Option (Chain CS × List Nat)
  | [], prev => some (c, prev)
  | (o, _, st) :: rest, prev => do
      let _ ← alGet c.validationsMapping o
      let c := { c with validationsMapping :=
        (alInsert c.validationsMapping o OrphanType.validChainTip) }
      let prev := sInsert prev o
      let c := { c with validTips := sInsert c.validTips o }
      let c := { c with validTipsStates := alInsert c.validTipsStates o st }
      poMarkRemaining c rest prev

/-- The checkpoint block shared by the append paths: checkpoint `state` when
`height - last_checkpoint_height == CHECKPOINT_INTERVAL`. -/
def maybeCheckpoint (P : BParams CS) (c : Chain CS) (height : Nat) (state : CS) :
    Option (Chain CS) := do
  let last := c.lastCheckpointHeight.getD 0
  let d ← checkedSub height last
  if d = P.checkpointInterval then do
    let c :=
      if c.earliestCheckpointHeight.isNone then
        { c with earliestCheckpointHeight := some height }
      else c
    let c := { c with lastCheckpointHeight := some height }
    let (id, c) := doCheckpoint c state
    some { c with diskHeightsCheckpoints := alInsert c.diskHeightsCheckpoints height id }
  else some c

/-- The main loop of `process_orphans`, with the captured
`max_orphan_height`, the current height `h`, the `done` flag and
`prev_valid_tips`. -/
def poLoop (P : BParams CS) (maxH : Nat) :
    Chain CS → Nat → Bool → List Nat → Nat → Option (Chain CS)
  | _, _, _, _, 0 => none
  | c, h, done, prev, fuel + 1 =>
      if h > maxH then some c
      else
        match alGet c.heightsMapping h with
        | none => poLoop P maxH c (h + 1) done prev fuel
        | some heightsEntry =>
          match heightsEntry with
          | [(orphanHash, _)] => do
              -- single orphan at this height
              let orphan ← alGet c.orphanPool orphanHash
              let blockHash := orphan.hash
              let pHash ← orphan.parentHash
              if pHash = c.canonicalTip.hash then
                let appendCondition :=
                  match P.appendCondition orphan c.canonicalTipState with
                  | Except.ok st => some st
                  | _ => none
                if ¬ done then
                  match appendCondition with
                  | some newTipState => do
                      let c ← makeValidTips P c blockHash newTipState fuel
                      let c ← writeBlock c orphan
                      let c ← maybeCheckpoint P c c.height newTipState
                      let c := { c with canonicalTipState := newTipState }
                      poLoop P maxH c (h + 1) done prev fuel
                  | none => poLoop P maxH c (h + 1) true prev fuel
                else some c
              else some c
          | [] =>
              if prev.isEmpty then some c
              else if ¬ done then poLoop P maxH c (h + 1) true prev fuel
              else some c
          | _ => do
              -- two or more orphans at this height
              let (c, newPrev, obsolete, buf) ←
                poScanOrphans P c heightsEntry prev prev [] []
              let c := poRemoveObsolete c obsolete
              let prev := newPrev
              if buf.isEmpty then
                if prev.isEmpty then some c
                else if ¬ done then poLoop P maxH c h true prev fuel
                else some c
              else do
                let buf := bufSort buf
                let (c, buf) ←
                  if ¬ done then do
                    match buf.getLast? with
                    | some (toWriteHash, _, state) => do
                        let buf := buf.dropLast
                        let toWrite ← alGet c.orphanPool toWriteHash
                        let blockHash := toWrite.hash
                        let c ← maybeCheckpoint P c toWrite.height state
                        let c ← makeValidTips P c blockHash state fuel
                        let c := { c with canonicalTipState := state }
                        let c ← writeBlock c toWrite
                        some (c, buf)
                    | none => some (c, buf)
                  else some (c, buf)
                let (c, prev) ← poMarkRemaining c buf prev
                poLoop P maxH c (h + 1) done prev fuel

/-- `Chain::process_orphans(start_height)`. -/
def processOrphans (P : BParams CS) (c : Chain CS) (startHeight fuel : Nat) :
    Option (Chain CS) :=
  match c.maxOrphanHeight with
  | none => some c
  | some maxH => poLoop P maxH c startHeight false [] fuel

/-! ## `attempt_switch` -/

/-- The horizon walk of `attempt_switch`: traverse parents through the
orphan pool until a block present in the canonical store is found, pushing
each traversed block on the front of the write queue. -/
def horizonWalk (c : Chain CS) :
    Nat → List Block → Nat → Option (Nat × List Block)
  | _, _, 0 => none
  | current, acc, fuel + 1 =>
      if (alGet c.dbBlocks current).isSome then some (current, acc)
      else do
        let cur ← alGet c.orphanPool current
        let ph ← cur.parentHash
        horizonWalk c ph (cur :: acc) fuel

/-- The write loop of `attempt_switch`: write the candidate branch in
ascending order (skipping the horizon), clearing each block out of the
disconnected maps first. -/
def switchWriteAll (c : Chain CS) (horizon : Nat) :
    List Block → Option (Chain CS)
  | [] => some c
  | block :: rest =>
      if block.hash = horizon then switchWriteAll c horizon rest
      else do
        let c := { c with disconnectedHeadsMapping :=
          (alRemove c.disconnectedHeadsMapping block.hash) }
        let c := { c with disconnectedTipsMapping :=
          (alRemove c.disconnectedTipsMapping block.hash) }
        let c := { c with disconnectedHeadsHeights :=
          (alRemove c.disconnectedHeadsHeights block.hash) }
        let c ← writeBlock c block
        switchWriteAll c horizon rest

/-- `Chain::attempt_switch(candidate_tip)`. -/
def attemptSwitch (P : BParams CS) (c : Chain CS) (candidateTip : Block)
    (fuel : Nat) : Option (Chain CS) :=
  let candidateHash := candidateTip.hash
  -- assert!s on entry
  if ¬ sMem c.validTips candidateHash then none
  else if (alGet c.disconnectedHeadsMapping candidateHash).isSome then none
  else if (alGet c.disconnectedTipsMapping candidateHash).isSome then none
  else if candidateTip.height > c.height + P.switchOffset then do
    let ph ← candidateTip.parentHash
    let (horizon, toWrite) ← horizonWalk c ph [candidateTip] fuel
    let (r, c) ← rewind P c horizon fuel
    match r with
    | Except.error _ => none
    | Except.ok _ => do
        let st ← alGet c.validTipsStates candidateHash
        let c := { c with validTipsStates := alRemove c.validTipsStates candidateHash }
        let c := { c with canonicalTipState := st }
        switchWriteAll c horizon toWrite
  else some c

/-! ## `append_block` -/

/-- Case (a) of `append_block`: the parent is the canonical tip. -/
def appendExtendTip (P : BParams CS) (c : Chain CS) (block : Block) (fuel : Nat) :
    Option (Except ChainErr Unit × Chain CS) :=
  let height := block.height
  if height ≠ c.height + 1 then some (Except.error ChainErr.badHeight, c)
  else
    match P.appendCondition block c.canonicalTipState with
    | Except.error _ => some (Except.error ChainErr.badAppendCondition, c)
    | Except.ok newTipState => do
        let c ← writeBlock c block
        let c ← maybeCheckpoint P c c.height newTipState
        let c := { c with canonicalTipState := newTipState }
        let c ← processOrphans P c (height + 1) fuel
        some (Except.ok (), c)

/-- The tail of case (b) of `append_block` once the parent state has been
obtained: validate, insert the block as a `ValidChainTip` orphan, try to
attach disconnected fragments, and possibly switch chains. -/
def appendCanonicalForkCont (P : BParams CS) (c : Chain CS) (block : Block)
    (parentState : CS) (fuel : Nat) :
    Option (Except ChainErr Unit × Chain CS) :=
  match P.appendCondition block parentState with
  | Except.error _ => some (Except.error ChainErr.badAppendCondition, c)
  | Except.ok tipState => do
      let c := { c with validTipsStates := alInsert c.validTipsStates block.hash tipState }
      let c := writeOrphan c block OrphanType.validChainTip 0
      let (c, tip, _inv, status) ←
        attemptAttachValid P c block tipState 0 OrphanType.validChainTip fuel
      match status with
      | OrphanType.validChainTip => some (Except.ok (), c)
      | _ => do
          let c ← attemptSwitch P c tip fuel
          some (Except.ok (), c)

/-- Case (b) of `append_block`: the parent is canonical but not the tip
(a fork rooted on the canonical chain).  The parent state is loaded from a
checkpoint or replayed, depending on the checkpoint markers. -/
def appendCanonicalFork (P : BParams CS) (c : Chain CS) (block parentBlock : Block)
    (fuel : Nat) : Option (Except ChainErr Unit × Chain CS) :=
  let height := block.height
  let parentHeight := parentBlock.height
  if height ≠ parentHeight + 1 then some (Except.error ChainErr.badHeight, c)
  else
    match c.earliestCheckpointHeight, c.lastCheckpointHeight with
    | some e, some l =>
        if parentHeight < e then some (Except.error ChainErr.noCheckpointFound, c)
        else if parentHeight = l then do
          let id ← alGet c.diskHeightsCheckpoints parentHeight
          let st ← loadCheckpoint c id
          appendCanonicalForkCont P c block st fuel
        else if parentHeight > l then do
          let st ← fetchNextState P c l parentHeight fuel
          appendCanonicalForkCont P c block st fuel
        else do
          let st ← searchFetchNextState P c parentHeight fuel
          appendCanonicalForkCont P c block st fuel
    | _, _ => do
        let st ← searchFetchNextState P c parentHeight fuel
        appendCanonicalForkCont P c block st fuel

/-- Case (c) of `append_block`: the parent is an orphan classified
`DisconnectedTip`. -/
def appendDisconnectedTipParent (c : Chain CS) (block : Block)
    (parentHash fuel : Nat) : Option (Except ChainErr Unit × Chain CS) := do
  let blockHash := block.hash
  let head ← alGet c.disconnectedTipsMapping parentHash
  let tips ← alGet c.disconnectedHeadsMapping head
  let (largestHeight, _) ← alGet c.disconnectedHeadsHeights head
  -- change the status of the old tip
  let c := { c with validationsMapping :=
    (alInsert c.validationsMapping parentHash OrphanType.belongsToDisconnected) }
  -- replace old tip in mappings
  let tips := sInsert (sRemove tips parentHash) blockHash
  let c := { c with disconnectedHeadsMapping :=
    (alInsert c.disconnectedHeadsMapping head tips) }
  let c := { c with disconnectedTipsMapping :=
    (alRemove c.disconnectedTipsMapping parentHash) }
  let c :=
    if block.height > largestHeight then
      { c with disconnectedHeadsHeights :=
          (alInsert c.disconnectedHeadsHeights head (block.height, blockHash)) }
    else c
  let c := writeOrphan c block OrphanType.disconnectedTip 0
  let c := { c with disconnectedTipsMapping :=
    (alInsert c.disconnectedTipsMapping blockHash head) }
  let (status, c) ← attemptAttach c blockHash OrphanType.disconnectedTip fuel
  match status with
  | OrphanType.disconnectedTip => do
      let c ← traverseInverse c block 0 false fuel
      some (Except.ok (), c)
  | _ => do
      let c := { c with validationsMapping :=
        (alInsert c.validationsMapping blockHash status) }
      let tips ← alGet c.disconnectedHeadsMapping head
      let c := { c with disconnectedHeadsMapping :=
        (alInsert c.disconnectedHeadsMapping head (sRemove tips blockHash)) }
      let c := { c with disconnectedTipsMapping :=
        (alRemove c.disconnectedTipsMapping blockHash) }
      some (Except.ok (), c)

/-- Case (d) of `append_block`: the parent is an orphan classified
`ValidChainTip`.  On success the parent's `valid_tips_states` entry is
overwritten with the new state (`*tip_state = new_tip_state.duplicate()`),
the parent is demoted and removed from `valid_tips`, and the new block
becomes the tip of that valid chain. -/
def appendValidTipParent (P : BParams CS) (c : Chain CS) (block : Block)
    (parentHash fuel : Nat) : Option (Except ChainErr Unit × Chain CS) := do
  let tipStateOld ← alGet c.validTipsStates parentHash
  match P.appendCondition block tipStateOld with
  | Except.error _ => some (Except.error ChainErr.badAppendCondition, c)
  | Except.ok newTipState => do
      let c := { c with validTipsStates :=
        (alInsert c.validTipsStates parentHash newTipState) }
      let c := { c with validationsMapping :=
        (alInsert c.validationsMapping parentHash OrphanType.belongsToValidChain) }
      let c := writeOrphan c block OrphanType.validChainTip 0
      let (c, tip, inverseHeight, status) ←
        attemptAttachValid P c block newTipState 0 OrphanType.validChainTip fuel
      let c ← traverseInverse c block inverseHeight (inverseHeight = 0) fuel
      let c := { c with validTips := sRemove c.validTips parentHash }
      let c :=
        match status with
        | OrphanType.validChainTip =>
            { c with validTips := sInsert c.validTips tip.hash
                     validTipsStates := alInsert c.validTipsStates tip.hash newTipState }
        | _ => c
      let c ← attemptSwitch P c tip fuel
      some (Except.ok (), c)

/-- The head-finding walk of case (e): traverse parents in the orphan pool
until a block registered in `disconnected_heads_mapping` is found
(`unreachable!()` if the pool runs out). -/
def findHead (c : Chain CS) : Nat → Nat → Option Nat
  | _, 0 => none
  | current, fuel + 1 =>
      if (alGet c.disconnectedHeadsMapping current).isSome then some current
      else
        match alGet c.orphanPool current with
        | some orphan => do
            let ph ← orphan.parentHash
            findHead c ph fuel
        | none => none

/-- Case (e), disconnected flavour: the parent is an orphan classified
`BelongsToDisconnected`. -/
def appendBelongsDisconnectedParent (c : Chain CS) (block : Block)
    (parentHash fuel : Nat) : Option (Except ChainErr Unit × Chain CS) := do
  let blockHash := block.hash
  let c := writeOrphan c block OrphanType.disconnectedTip 0
  let head ← findHead c parentHash fuel
  let tips ← alGet c.disconnectedHeadsMapping head
  let c := { c with disconnectedHeadsMapping :=
    (alInsert c.disconnectedHeadsMapping head (sInsert tips blockHash)) }
  let c := { c with disconnectedTipsMapping :=
    (alInsert c.disconnectedTipsMapping blockHash head) }
  let (status, c) ← attemptAttach c blockHash OrphanType.disconnectedTip fuel
  match status with
  | OrphanType.disconnectedTip => do
      let c := { c with disconnectedTipsMapping :=
        (alInsert c.disconnectedTipsMapping blockHash head) }
      let c ← traverseInverse c block 0 false fuel
      some (Except.ok (), c)
  | _ => do
      let c := { c with validationsMapping :=
        (alInsert c.validationsMapping blockHash status) }
      let tips ← alGet c.disconnectedHeadsMapping head
      let c := { c with disconnectedHeadsMapping :=
        (alInsert c.disconnectedHeadsMapping head (sRemove tips blockHash)) }
      let c := { c with disconnectedTipsMapping :=
        (alRemove c.disconnectedTipsMapping blockHash) }
      some (Except.ok (), c)

/-- The canonical-root walk of case (e), valid flavour: traverse orphan
parents, stacking the visited blocks, until a parent in the canonical store
is reached. -/
def walkToCanonical (c : Chain CS) : Nat → List Block → Nat → Option (List Block × Nat)
  | _, _, 0 => none
  | current, visited, fuel + 1 => do
      let cur ← alGet c.orphanPool current
      let ph ← cur.parentHash
      let visited := visited ++ [cur]
      if (alGet c.dbBlocks ph).isSome then some (visited, ph)
      else walkToCanonical c ph visited fuel

/-- Replay of the visited stack in pop (reverse-push) order, propagating
`append_condition` errors. -/
def replayStack (P : BParams CS) : CS → List Block → Except ChainErr CS
  | state, [] => Except.ok state
  | state, b :: rest =>
      match P.appendCondition b state with
      | Except.ok st => replayStack P st rest
      | Except.error e => Except.error e

/-- Case (e), valid flavour: the parent is an orphan classified
`BelongsToValidChain`.  The tip state is recomputed from the nearest
canonical ancestor; `append_condition` failures propagate as the returned
error (the `?` operator). -/
def appendBelongsValidParent (P : BParams CS) (c : Chain CS) (block : Block)
    (parentHash fuel : Nat) : Option (Except ChainErr Unit × Chain CS) := do
  let (visited, rootHash) ← walkToCanonical c parentHash [] fuel
  let head ← alGet c.dbBlocks rootHash
  let hm1 ← checkedSub head.height 1
  let state0 ← searchFetchNextState P c hm1 fuel
  let tipStateE : Except ChainErr CS :=
    match P.appendCondition head state0 with
    | Except.error e => Except.error e
    | Except.ok st =>
        match replayStack P st visited.reverse with
        | Except.error e => Except.error e
        | Except.ok st => P.appendCondition block st
  match tipStateE with
  | Except.error e => some (Except.error e, c)
  | Except.ok tipState => do
      let tipHash := block.hash
      let c := { c with validTips := sInsert c.validTips tipHash }
      let c := { c with validTipsStates := alInsert c.validTipsStates tipHash tipState }
      let (c, tip, inverseHeight, status) ←
        attemptAttachValid P c block tipState 0 OrphanType.validChainTip fuel
      let c := writeOrphan c block status inverseHeight
      let c ← traverseInverse c tip inverseHeight (inverseHeight = 0) fuel
      let c ← attemptSwitch P c tip fuel
      some (Except.ok (), c)

/-- The valid-tip scan of case (f): find the first valid tip whose hash is
the new block's parent hash. -/
def vtFind (c : Chain CS) : List Nat → Nat → Option (Option Block)
  | [], _ => some none
  | tipHash :: rest, parentHash => do
      let tip ← alGet c.orphanPool tipHash
      if parentHash = tip.hash then some (some tip)
      else vtFind c rest parentHash

/-- Case (f) of `append_block`: the parent is neither canonical nor in the
orphan pool.  The block becomes its own disconnected fragment. -/
def appendUnknownParent (P : BParams CS) (c : Chain CS) (block : Block)
    (parentHash fuel : Nat) : Option (Except ChainErr Unit × Chain CS) := do
  let blockHash := block.hash
  let c := { c with disconnectedHeadsMapping :=
    (alInsert c.disconnectedHeadsMapping blockHash [blockHash]) }
  let c := { c with disconnectedTipsMapping :=
    (alInsert c.disconnectedTipsMapping blockHash blockHash) }
  let c := { c with disconnectedHeadsHeights :=
    (alInsert c.disconnectedHeadsHeights blockHash (block.height, blockHash)) }
  let c := { c with heightsMapping :=
    (hmInsert c.heightsMapping block.height blockHash 0) }
  let c := { c with orphanPool := alInsert c.orphanPool blockHash block }
  let (status, c) ← attemptAttach c blockHash OrphanType.disconnectedTip fuel
  let foundMatch ← vtFind c c.validTips parentHash
  match foundMatch with
  | some tipBlock => do
      let tipState ← alGet c.validTipsStates tipBlock.hash
      let c := writeOrphan c block status 0
      let (c, _, _, _) ←
        attemptAttachValid P c tipBlock tipState 0 OrphanType.validChainTip fuel
      some (Except.ok (), c)
  | none => do
      let c := writeOrphan c block status 0
      some (Except.ok (), c)

/-- `Chain::append_block(block)`. -/
def appendBlock (P : BParams CS) (c : Chain CS) (block : Block) (fuel : Nat) :
    Option (Except ChainErr Unit × Chain CS) :=
  let minHeight := if c.height > P.minHeight then c.height - P.minHeight else 1
  if block.height > c.height + P.maxHeight ∨ block.height < minHeight then
    some (Except.error ChainErr.badHeight, c)
  else
    let blockHash := block.hash
    if (alGet c.orphanPool blockHash).isSome ∨ (alGet c.dbBlocks blockHash).isSome then
      some (Except.error ChainErr.alreadyInChain, c)
    else
      match block.parentHash with
      | none => some (Except.error ChainErr.noParentHash, c)
      | some parentHash =>
          if parentHash = c.canonicalTip.hash then
            appendExtendTip P c block fuel
          else if c.orphanPool.length ≥ P.maxOrphans then
            some (Except.error ChainErr.tooManyOrphans, c)
          else
            match alGet c.dbBlocks parentHash with
            | some parentBlock => appendCanonicalFork P c block parentBlock fuel
            | none =>
                match alGet c.orphanPool parentHash with
                | some parentBlock =>
                    if block.height ≠ parentBlock.height + 1 then
                      some (Except.error ChainErr.badHeight, c)
                    else
                      match alGet c.validationsMapping parentHash with
                      | none => none
                      | some OrphanType.disconnectedTip =>
                          appendDisconnectedTipParent c block parentHash fuel
                      | some OrphanType.validChainTip =>
                          appendValidTipParent P c block parentHash fuel
                      | some OrphanType.belongsToDisconnected =>
                          appendBelongsDisconnectedParent c block parentHash fuel
                      | some OrphanType.belongsToValidChain =>
                          appendBelongsValidParent P c block parentHash fuel
                | none => appendUnknownParent P c block parentHash fuel

/-! ## Concrete test instantiation

A counting chain state: `append_condition` always succeeds and increments a
counter, so states reached by different numbers of block applications are
distinguishable (per the spec, states reached by applying the same block
sequence to the same root state compare equal). -/

/-- Concrete parameters with the repository's test constants
(`MAX_ORPHANS = 20`, `SWITCH_OFFSET = 0`, `MIN_HEIGHT = MAX_HEIGHT =
CHECKPOINT_INTERVAL = 10`) over the counting chain state. -/
def testParams : BParams Nat where
  genesis := ⟨0, none, 0⟩
  genesisState := 0
  appendCondition := fun _ s => Except.ok (s + 1)
  maxOrphans := 20
  switchOffset := 0
  minHeight := 10
  maxHeight := 10
  checkpointInterval := 10

/-- Fold a block list through `append_block`, recording each result. -/
def runAppends (P : BParams CS) (fuel : Nat) :
    Chain CS → List Block → Option (List (Except ChainErr Unit) × Chain CS)
  | c, [] => some ([], c)
  | c, b :: rest => do
      let (r, c) ← appendBlock P c b fuel
      let (rs, c) ← runAppends P fuel c rest
      some (r :: rs, c)

/-! ## C9: `query_by_height` -/

/-- C9: the claim states that `query_by_height(h)` returns the canonical
block at height `h` through the height index.  In the source the function
body is `unimplemented!()`: every call panics, for every chain state and
height, so no height is ever retrievable through `query_by_height`. -/
theorem queryByHeight_unimplemented :
    ∀ (c : Chain Nat) (h : Nat), queryByHeight c h = none := by
  intro c h
  rfl

/-! ## C2: the height window is checked first -/

/-- C2: for every block `b`, `append_block(b)` returns `BadHeight` whenever
`b.height > canonical_height + MAX_HEIGHT` or
`b.height < max(1, canonical_height − MIN_HEIGHT)`, and the window check is
performed before the `AlreadyInChain` and `NoParentHash` checks: the
conclusion holds with no assumption on whether the block is already present
or carries a parent hash, and the state is returned unchanged. -/
theorem appendBlock_badHeight_first (P : BParams CS) (c : Chain CS) (b : Block)
    (fuel : Nat)
    (h : b.height > c.height + P.maxHeight ∨ b.height < max 1 (c.height - P.minHeight)) :
    appendBlock P c b fuel = some (Except.error ChainErr.badHeight, c) := by
  have hmin : (if c.height > P.minHeight then c.height - P.minHeight else 1)
      = max 1 (c.height - P.minHeight) := by
    split <;> omega
  unfold appendBlock
  rw [hmin, if_pos h]

/-- Witness for C2: a block of height 25 against a fresh chain
(window `[1, 10]`) is rejected with `BadHeight`. -/
theorem appendBlock_badHeight_first_witness :
    appendBlock testParams (freshChain testParams) ⟨9, some 0, 25⟩ 50
      = some (Except.error ChainErr.badHeight, freshChain testParams) :=
  appendBlock_badHeight_first testParams (freshChain testParams) ⟨9, some 0, 25⟩ 50
    (by decide)

/-! ## C5: the switch rule -/

/-- C5: `attempt_switch` leaves the chain completely unchanged (in
particular canonical tip, canonical height and canonical store) whenever the
candidate valid tip's height does not strictly exceed
`canonical_height + SWITCH_OFFSET`.  The hypotheses are the function's entry
`assert!`s: the candidate is a registered valid tip and is not registered in
the disconnected maps. -/
theorem attemptSwitch_noop_below_offset (P : BParams CS) (c : Chain CS)
    (cand : Block) (fuel : Nat)
    (hmem : sMem c.validTips cand.hash = true)
    (hh : alGet c.disconnectedHeadsMapping cand.hash = none)
    (ht : alGet c.disconnectedTipsMapping cand.hash = none)
    (hle : cand.height ≤ c.height + P.switchOffset) :
    attemptSwitch P c cand fuel = some c := by
  have hgt : ¬ cand.height > c.height + P.switchOffset := by omega
  simp [attemptSwitch, hmem, hh, ht, hgt]

/-- Witness for C5: a candidate valid tip at height 0 against a chain at
height 0 with `SWITCH_OFFSET = 0` triggers no switch and no state change. -/
theorem attemptSwitch_noop_below_offset_witness :
    attemptSwitch testParams { freshChain testParams with validTips := [5] }
        ⟨5, some 0, 0⟩ 10
      = some { freshChain testParams with validTips := [5] } :=
  attemptSwitch_noop_below_offset testParams
    { freshChain testParams with validTips := [5] } ⟨5, some 0, 0⟩ 10
    (by decide) (by decide) (by decide) (by decide)

/-! ## C6: `fetch_next_state(0, h)` versus the checkpoint path -/

/-- A canonical chain of height 1 over the counting state: genesis plus one
block of height 1. -/
def chainH1 : Chain Nat :=
  ((runAppends testParams 50 (freshChain testParams) [⟨1, some 0, 1⟩]).map
    Prod.snd).getD (freshChain testParams)

/-- C6 (code bug): on a canonical chain of height 1 over the counting state,
`fetch_next_state(0, 1)` returns the genesis state unchanged — the
`height == 0` branch of `fetch_next_state` returns `B::genesis_state()`
immediately without replaying up to the target — while the checkpoint path
`search_fetch_next_state(1)` replays the canonical block at height 1 and
returns the post-block state.  The two states differ, contradicting both the
claim and the function's own documentation ("Fetches the matching state of
target height, starting from height"); the adjacent
`height < CHECKPOINT_INTERVAL` branch shows the intended behaviour (reset
the cursor to 0 and replay forward). -/
theorem fetchNextState_zero_skips_replay :
    chainH1.height = 1 ∧
    fetchNextState testParams chainH1 0 1 50 = some 0 ∧
    searchFetchNextState testParams chainH1 1 50 = some 1 := by
  refine ⟨by decide, by decide, by decide⟩

/-! ## C10: the orphan-pool backpressure gate -/

/-- The direct-extension path can only answer `Ok`, `BadHeight` or
`BadAppendCondition` — never `TooManyOrphans`. -/
theorem appendExtendTip_result (P : BParams CS) (c : Chain CS) (b : Block)
    (fuel : Nat) (r : Except ChainErr Unit) (c' : Chain CS)
    (h : appendExtendTip P c b fuel = some (r, c')) :
    r = Except.ok () ∨ r = Except.error ChainErr.badHeight ∨
      r = Except.error ChainErr.badAppendCondition := by
  simp only [appendExtendTip] at h
  split at h
  · simp only [Option.some.injEq, Prod.mk.injEq] at h
    exact Or.inr (Or.inl h.1.symm)
  · split at h
    all_goals first
      | (simp only [Option.some.injEq, Prod.mk.injEq] at h
         exact Or.inr (Or.inr h.1.symm))
      | (simp only [bind, Option.bind_eq_some, Option.some.injEq, Prod.mk.injEq] at h
         obtain ⟨c1, -, c2, -, c3, -, hr, -⟩ := h
         exact Or.inl hr.symm)

/-- C10: when the orphan pool already holds `MAX_ORPHANS` or more blocks,
`append_block` returns `TooManyOrphans` (with no state change) for every
in-window, unseen block whose parent hash differs from the canonical tip's —
including a fork block whose parent sits in the canonical store, since the
pool-full check precedes the parent lookup — while a block that directly
extends the canonical tip bypasses the pool-full check entirely and is never
answered `TooManyOrphans`. -/
theorem appendBlock_pool_full_gate (P : BParams CS) (c : Chain CS) (b : Block)
    (p fuel : Nat)
    (hwin : ¬ (b.height > c.height + P.maxHeight ∨
               b.height < max 1 (c.height - P.minHeight)))
    (hpool : alGet c.orphanPool b.hash = none)
    (hdb : alGet c.dbBlocks b.hash = none)
    (hp : b.parentHash = some p)
    (hfull : c.orphanPool.length ≥ P.maxOrphans) :
    (p ≠ c.canonicalTip.hash →
      appendBlock P c b fuel = some (Except.error ChainErr.tooManyOrphans, c)) ∧
    (p = c.canonicalTip.hash →
      ∀ r c', appendBlock P c b fuel = some (r, c') →
        r ≠ Except.error ChainErr.tooManyOrphans) := by
  have hmin : (if c.height > P.minHeight then c.height - P.minHeight else 1)
      = max 1 (c.height - P.minHeight) := by split <;> omega
  constructor
  · intro hne
    unfold appendBlock
    rw [hmin, if_neg hwin]
    simp only [hpool, hdb, Option.isSome_none, Bool.false_eq_true, or_self,
      if_false, hp]
    rw [if_neg hne, if_pos hfull]
  · intro heq r c' h
    unfold appendBlock at h
    rw [hmin, if_neg hwin] at h
    simp only [hpool, hdb, Option.isSome_none, Bool.false_eq_true, or_self,
      if_false, hp] at h
    rw [if_pos heq] at h
    rcases appendExtendTip_result P c b fuel r c' h with h1 | h1 | h1 <;>
      simp [h1]

/-- Parameters with `MAX_ORPHANS = 0`, so the pool-full gate fires on an
empty pool. -/
def zeroOrphanParams : BParams Nat := { testParams with maxOrphans := 0 }

/-- Witness for C10: with `MAX_ORPHANS = 0`, a fresh in-window block whose
parent hash (5) is not the canonical tip's hash is refused with
`TooManyOrphans` and no state change. -/
theorem appendBlock_pool_full_gate_witness :
    appendBlock zeroOrphanParams (freshChain zeroOrphanParams) ⟨1, some 5, 1⟩ 10
      = some (Except.error ChainErr.tooManyOrphans, freshChain zeroOrphanParams) :=
  (appendBlock_pool_full_gate zeroOrphanParams (freshChain zeroOrphanParams)
    ⟨1, some 5, 1⟩ 5 10 (by decide) (by decide) (by decide) (by decide)
    (by decide)).1 (by decide)

/-! ## C1: arrival order

The DAG used below is rooted at genesis (hash 0): block `dagA` (hash 1,
height 1) is one child of genesis; `dagB1 ← dagB2 ← dagB3` (hashes 12, 13,
14, heights 1, 2, 3) is a second branch off genesis.  Its tips are `dagA`
(height 1) and `dagB3` (height 3), so `dagB3` is the unique deepest tip. -/

def dagA : Block := ⟨1, some 0, 1⟩

def dagB1 : Block := ⟨12, some 0, 1⟩

def dagB2 : Block := ⟨13, some 12, 2⟩

def dagB3 : Block := ⟨14, some 13, 3⟩

/-- The run of the arrival permutation `B2, B3, A, B1`, projected to
(results, final canonical tip hash, final height). -/
def c1PermLate : Option (List (Except ChainErr Unit) × Nat × Nat) :=
  (runAppends testParams 100 (freshChain testParams)
    [dagB2, dagB3, dagA, dagB1]).map
    (fun rc => (rc.1, rc.2.canonicalTip.hash, rc.2.height))

/-- The run of the arrival permutation `B1, B2, B3, A` of the same DAG. -/
def c1PermEarly : Option (List (Except ChainErr Unit) × Nat × Nat) :=
  (runAppends testParams 100 (freshChain testParams)
    [dagB1, dagB2, dagB3, dagA]).map
    (fun rc => (rc.1, rc.2.canonicalTip.hash, rc.2.height))

/-- Counterexample for C1.  For the fixed DAG above, whose unique deepest
tip is `dagB3` (hash 14, height 3), the engine accepts every block of the
arrival permutation `B2, B3, A, B1` (four `Ok` results) yet finishes with
canonical tip `dagA` (hash 1) at height 1, not `dagB3`; the permutation
`B1, B2, B3, A` of the same DAG — also fully accepted — finishes at
`dagB3` (hash 14, height 3).  So the final state depends on the arrival
order and the final tip need not be the deepest tip.  The root cause: the
engine never stores the genesis block in the canonical store, so once the
canonical tip has moved on (here to `dagA`), the late-arriving fork block
`dagB1` whose parent is genesis matches neither the canonical-tip path nor
`db.get(parent)` nor the orphan pool and is filed as a permanently
disconnected fragment. -/
theorem appendBlock_arrival_order_dependent :
    c1PermLate = some
      ([Except.ok (), Except.ok (), Except.ok (), Except.ok ()], 1, 1) ∧
    c1PermEarly = some
      ([Except.ok (), Except.ok (), Except.ok (), Except.ok ()], 14, 3) ∧
    (1 : Nat) ≠ 14 := by
  refine ⟨by decide, by decide, by decide⟩

/-! ## Association-list and set lemmas -/

theorem alGet_insert_self {α : Type} (l : List (Nat × α)) (k : Nat) (v : α) :
    alGet (alInsert l k v) k = some v := by
  induction l with
  | nil => simp [alInsert, alGet]
  | cons p t ih =>
      obtain ⟨k', v'⟩ := p
      by_cases h : k' = k
      · subst h; simp [alInsert, alGet]
      · simp [alInsert, alGet, h, ih]

theorem alGet_insert_ne {α : Type} (l : List (Nat × α)) (k k' : Nat) (v : α)
    (h : k' ≠ k) : alGet (alInsert l k v) k' = alGet l k' := by
  have h' : ¬ k = k' := fun hh => h hh.symm
  induction l with
  | nil => simp [alInsert, alGet, h']
  | cons p t ih =>
      obtain ⟨k₀, v₀⟩ := p
      by_cases h0 : k₀ = k
      · subst h0
        simp [alInsert, alGet, h']
      · simp only [alInsert, if_neg h0, alGet]
        by_cases h1 : k₀ = k'
        · simp [h1]
        · simp [h1, ih]

theorem alGet_remove_ne {α : Type} (l : List (Nat × α)) (k k' : Nat)
    (h : k' ≠ k) : alGet (alRemove l k) k' = alGet l k' := by
  have h' : ¬ k = k' := fun hh => h hh.symm
  induction l with
  | nil => simp [alRemove]
  | cons p t ih =>
      obtain ⟨k₀, v₀⟩ := p
      by_cases h0 : k₀ = k
      · subst h0
        simp [alRemove, alGet, h']
      · simp only [alRemove, if_neg h0, alGet]
        by_cases h1 : k₀ = k'
        · simp [h1]
        · simp [h1, ih]

/-! ## C1 (amended): parents-first arrival of a linear chain -/

/-- A chain state whose orphan-side structures are all empty and whose
canonical bookkeeping is consistent — the states reached from a fresh chain
by direct tip extensions only. -/
structure CleanChain {CS : Type} (c : Chain CS) : Prop where
  pool : c.orphanPool = []
  maxO : c.maxOrphanHeight = none
  hm : c.heightsMapping = []
  vm : c.validationsMapping = []
  heads : c.disconnectedHeadsMapping = []
  headsH : c.disconnectedHeadsHeights = []
  tips : c.disconnectedTipsMapping = []
  vt : c.validTips = []
  vts : c.validTipsStates = []
  dbh : c.dbCanonicalHeight = c.height
  tipH : c.height = c.canonicalTip.height
  lastCp : c.lastCheckpointHeight.getD 0 ≤ c.height

/-- `bs` is a parent-linked chain of consecutive heights on top of `prev`. -/
def chainLinked : Block → List Block → Prop
  | _, [] => True
  | prev, b :: rest =>
      b.parentHash = some prev.hash ∧ b.height = prev.height + 1 ∧ chainLinked b rest

/-- On a clean chain, `write_block` reduces to the pure store update:
insert the block, bump the height, index it, and leave the (empty)
orphan-side structures untouched. -/
theorem writeBlock_clean (c : Chain CS) (b : Block) (hc : CleanChain c)
    (hparent : b.parentHash = some c.canonicalTip.hash) :
    writeBlock c b = some { c with
      dbBlocks := alInsert c.dbBlocks b.hash b
      canonicalTip := b
      height := c.dbCanonicalHeight + 1
      dbCanonicalHeight := c.dbCanonicalHeight + 1
      dbBlockHeights := alInsert c.dbBlockHeights b.hash (c.dbCanonicalHeight + 1)
      dbHeightIndex := alInsert c.dbHeightIndex (c.dbCanonicalHeight + 1) b.hash } := by
  unfold writeBlock
  rw [hparent]
  simp only [hc.heads, hc.tips, hc.hm, hc.pool, hc.maxO, hc.vm, hc.vt, hc.vts,
    alGet, alRemove, sRemove, Option.isSome_none, Bool.false_eq_true, if_false]
  simp

/-- The checkpoint block only touches the checkpoint bookkeeping; it
succeeds whenever the last checkpoint height does not exceed the reached
height. -/
theorem maybeCheckpoint_fields (P : BParams CS) (c : Chain CS) (h : Nat)
    (st : CS) (hle : c.lastCheckpointHeight.getD 0 ≤ h) :
    ∃ c', maybeCheckpoint P c h st = some c' ∧
      c'.dbBlocks = c.dbBlocks ∧ c'.dbHeightIndex = c.dbHeightIndex ∧
      c'.dbBlockHeights = c.dbBlockHeights ∧
      c'.dbCanonicalHeight = c.dbCanonicalHeight ∧
      c'.height = c.height ∧ c'.canonicalTip = c.canonicalTip ∧
      c'.canonicalTipState = c.canonicalTipState ∧
      c'.orphanPool = c.orphanPool ∧ c'.maxOrphanHeight = c.maxOrphanHeight ∧
      c'.heightsMapping = c.heightsMapping ∧
      c'.validationsMapping = c.validationsMapping ∧
      c'.disconnectedHeadsMapping = c.disconnectedHeadsMapping ∧
      c'.disconnectedHeadsHeights = c.disconnectedHeadsHeights ∧
      c'.disconnectedTipsMapping = c.disconnectedTipsMapping ∧
      c'.validTips = c.validTips ∧ c'.validTipsStates = c.validTipsStates ∧
      c'.lastCheckpointHeight.getD 0 ≤ h := by
  simp only [maybeCheckpoint, checkedSub, if_pos hle, bind, Option.bind]
  split
  · refine ⟨_, rfl, ?_⟩
    split <;> simp [doCheckpoint]
  · exact ⟨c, rfl, by simp [hle]⟩

/-- The direct-extension path on a clean chain: the block is written, the
chain stays clean, and the tip advances to the block. -/
theorem appendExtendTip_clean (P : BParams CS) (c : Chain CS) (b : Block)
    (fuel : Nat) (hc : CleanChain c)
    (hbp : b.parentHash = some c.canonicalTip.hash)
    (hbh : b.height = c.height + 1)
    (s' : CS) (hs' : P.appendCondition b c.canonicalTipState = Except.ok s') :
    ∃ c', appendExtendTip P c b fuel = some (Except.ok (), c') ∧
      CleanChain c' ∧ c'.canonicalTip = b ∧ c'.height = c.height + 1 ∧
      c'.dbBlocks = alInsert c.dbBlocks b.hash b := by
  unfold appendExtendTip
  rw [if_neg (by omega : ¬ b.height ≠ c.height + 1), hs',
    writeBlock_clean c b hc hbp]
  set c1 : Chain CS := { c with
      dbBlocks := alInsert c.dbBlocks b.hash b
      canonicalTip := b
      height := c.dbCanonicalHeight + 1
      dbCanonicalHeight := c.dbCanonicalHeight + 1
      dbBlockHeights := alInsert c.dbBlockHeights b.hash (c.dbCanonicalHeight + 1)
      dbHeightIndex := alInsert c.dbHeightIndex (c.dbCanonicalHeight + 1) b.hash }
    with hc1
  have hle : c1.lastCheckpointHeight.getD 0 ≤ c1.height := by
    have h1 := hc.lastCp
    have h2 := hc.dbh
    simp only [hc1]
    omega
  obtain ⟨c2, hmc, e1, e2, e3, e4, e5, e6, e7, e8, e9, e10, e11, e12, e13,
    e14, e15, e16, e17⟩ := maybeCheckpoint_fields P c1 c1.height s' hle
  simp only [bind, Option.bind, hmc]
  have hmax2 : c2.maxOrphanHeight = none := by
    rw [e9]; simp [hc1, hc.maxO]
  refine ⟨{ c2 with canonicalTipState := s' }, ?_, ?_, ?_, ?_, ?_⟩
  · simp only [processOrphans, hmax2]
  · exact {
      pool := by simp only [e8, hc1]; exact hc.pool
      maxO := hmax2
      hm := by simp only [e10, hc1]; exact hc.hm
      vm := by simp only [e11, hc1]; exact hc.vm
      heads := by simp only [e12, hc1]; exact hc.heads
      headsH := by simp only [e13, hc1]; exact hc.headsH
      tips := by simp only [e14, hc1]; exact hc.tips
      vt := by simp only [e15, hc1]; exact hc.vt
      vts := by simp only [e16, hc1]; exact hc.vts
      dbh := by simp only [e4, e5, hc1]
      tipH := by
        simp only [e5, e6, hc1]
        have := hc.dbh
        omega
      lastCp := by
        have := e17
        have h5 : c2.height = c1.height := e5
        simp only [h5] at this ⊢
        exact this }
  · simp only [e6, hc1]
  · simp only [e5, hc1]
    have := hc.dbh
    omega
  · simp only [e1, hc1]

/-- C1, amended.  The claim fails as stated (see
`appendBlock_arrival_order_dependent`): the final state of the engine does
depend on the arrival order, because a fork block whose parent is genesis
that arrives after the canonical tip has advanced is filed as a permanently
disconnected fragment.  What does hold, proved here: for the parents-first
(ascending-height) arrival order of any linear chain on top of the current
canonical tip of any clean chain state — in particular a fresh engine, in
which case the chain is the whole DAG and its last block the unique deepest
tip `T` — every block is accepted and the engine finishes with
`canonical_tip = T` and `height() = height(T)`. -/
theorem runAppends_inorder_linear (P : BParams CS) (hMax : 1 ≤ P.maxHeight)
    (hcond : ∀ b s, ∃ s', P.appendCondition b s = Except.ok s') :
    ∀ (bs : List Block) (c : Chain CS) (fuel : Nat),
      CleanChain c →
      chainLinked c.canonicalTip bs →
      (∀ b ∈ bs, alGet c.dbBlocks b.hash = none) →
      (bs.map Block.hash).Nodup →
      ∃ c', runAppends P fuel c bs = some (bs.map (fun _ => Except.ok ()), c') ∧
        c'.canonicalTip = bs.getLastD c.canonicalTip ∧
        c'.height = (bs.getLastD c.canonicalTip).height := by
  intro bs
  induction bs with
  | nil =>
      intro c fuel hc _ _ _
      exact ⟨c, rfl, rfl, hc.tipH⟩
  | cons b rest ih =>
      intro c fuel hc hlink hfresh hnodup
      obtain ⟨hbp, hbh, hlink2⟩ := hlink
      have htip : b.height = c.height + 1 := by rw [hbh, ← hc.tipH]
      have hwin : ¬ (b.height > c.height + P.maxHeight ∨
          b.height < if c.height > P.minHeight then c.height - P.minHeight else 1) := by
        split <;> omega
      obtain ⟨s', hs'⟩ := hcond b c.canonicalTipState
      have hdb0 : alGet c.dbBlocks b.hash = none := hfresh b (by simp)
      obtain ⟨c2, hext, hclean2, htip2, hh2, hdb2⟩ :=
        appendExtendTip_clean P c b fuel hc hbp htip s' hs'
      have happ : appendBlock P c b fuel = some (Except.ok (), c2) := by
        unfold appendBlock
        rw [if_neg hwin]
        simp only [hc.pool, alGet, Option.isSome_none, hdb0, Bool.false_eq_true,
          or_self, if_false, hbp, if_true]
        exact hext
      have hfresh2 : ∀ x ∈ rest, alGet c2.dbBlocks x.hash = none := by
        intro x hx
        rw [hdb2]
        have hne : x.hash ≠ b.hash := by
          intro hcontra
          have : b.hash ∈ rest.map Block.hash := by
            exact hcontra ▸ List.mem_map_of_mem Block.hash hx
          simp only [List.map_cons, List.nodup_cons] at hnodup
          exact hnodup.1 this
        rw [alGet_insert_ne _ _ _ _ hne]
        exact hfresh x (by simp [hx])
      have hlink2' : chainLinked c2.canonicalTip rest := by rw [htip2]; exact hlink2
      have hnodup2 : (rest.map Block.hash).Nodup := by
        simp only [List.map_cons, List.nodup_cons] at hnodup
        exact hnodup.2
      obtain ⟨c3, hrun, htl, hhl⟩ := ih c2 fuel hclean2 hlink2' hfresh2 hnodup2
      refine ⟨c3, ?_, ?_, ?_⟩
      · unfold runAppends
        simp only [bind, Option.bind, happ, hrun, List.map_cons]
      · rw [htl, htip2, List.getLastD_cons]
      · rw [hhl, htip2, List.getLastD_cons]

/-- Witness for the amended C1: a fresh engine accepting blocks of heights
1 and 2 in order ends at the deeper block. -/
theorem runAppends_inorder_linear_witness :
    ∃ c', runAppends testParams 10 (freshChain testParams)
        [⟨1, some 0, 1⟩, ⟨2, some 1, 2⟩]
        = some ([Except.ok (), Except.ok ()], c') ∧
      c'.canonicalTip = ([⟨1, some 0, 1⟩, (⟨2, some 1, 2⟩ : Block)].getLastD
        (freshChain testParams).canonicalTip) ∧
      c'.height = (([⟨1, some 0, 1⟩, (⟨2, some 1, 2⟩ : Block)].getLastD
        (freshChain testParams).canonicalTip)).height :=
  runAppends_inorder_linear testParams (by decide)
    (fun b s => ⟨s + 1, rfl⟩)
    [⟨1, some 0, 1⟩, ⟨2, some 1, 2⟩] (freshChain testParams) 10
    { pool := rfl, maxO := rfl, hm := rfl, vm := rfl, heads := rfl,
      headsH := rfl, tips := rfl, vt := rfl, vts := rfl, dbh := rfl,
      tipH := rfl, lastCp := by decide }
    (by refine ⟨rfl, rfl, rfl, rfl, trivial⟩) (by decide) (by decide)

/-! ## C4: atomicity on error

Every `return Err(..)` site in `append_block` and `rewind` occurs before any
mutation of engine-visible state, so an error result carries the input state
unchanged.  One lemma per append case. -/

theorem appendExtendTip_err (P : BParams CS) (c : Chain CS) (b : Block)
    (fuel : Nat) (e : ChainErr) (c' : Chain CS)
    (h : appendExtendTip P c b fuel = some (Except.error e, c')) : c' = c := by
  simp only [appendExtendTip] at h
  split at h
  · simp only [Option.some.injEq, Prod.mk.injEq] at h
    exact h.2.symm
  · split at h
    all_goals first
      | (simp only [Option.some.injEq, Prod.mk.injEq] at h
         exact h.2.symm)
      | simp [bind, Option.bind_eq_some] at h

theorem appendCanonicalForkCont_err (P : BParams CS) (c : Chain CS) (b : Block)
    (st : CS) (fuel : Nat) (e : ChainErr) (c' : Chain CS)
    (h : appendCanonicalForkCont P c b st fuel = some (Except.error e, c')) :
    c' = c := by
  simp only [appendCanonicalForkCont] at h
  split at h
  · simp only [Option.some.injEq, Prod.mk.injEq] at h
    exact h.2.symm
  · simp only [bind, Option.bind_eq_some] at h
    obtain ⟨⟨c1, t1, i1, s1⟩, -, h⟩ := h
    split at h
    · simp at h
    · simp [Option.bind_eq_some] at h

theorem appendCanonicalFork_err (P : BParams CS) (c : Chain CS)
    (b pb : Block) (fuel : Nat) (e : ChainErr) (c' : Chain CS)
    (h : appendCanonicalFork P c b pb fuel = some (Except.error e, c')) :
    c' = c := by
  simp only [appendCanonicalFork] at h
  repeat' split at h
  all_goals try (simp only [Option.some.injEq, Prod.mk.injEq] at h
                 exact h.2.symm)
  all_goals simp only [bind, Option.bind_eq_some] at h
  all_goals try (obtain ⟨a1, e1, h2⟩ := h
                 exact appendCanonicalForkCont_err P c b _ fuel e c' h2)
  all_goals (obtain ⟨a1, e1, a2, e2, h2⟩ := h
             exact appendCanonicalForkCont_err P c b _ fuel e c' h2)

theorem appendDisconnectedTipParent_err (c : Chain CS) (b : Block)
    (ph fuel : Nat) (e : ChainErr) (c' : Chain CS)
    (h : appendDisconnectedTipParent c b ph fuel = some (Except.error e, c')) :
    c' = c := by
  simp only [appendDisconnectedTipParent, bind, Option.bind_eq_some] at h
  obtain ⟨head, -, tips, -, ⟨lh, lt⟩, -, ⟨st, c1⟩, -, h⟩ := h
  split at h
  · simp [Option.bind_eq_some] at h
  · simp [Option.bind_eq_some] at h

theorem appendValidTipParent_err (P : BParams CS) (c : Chain CS) (b : Block)
    (ph fuel : Nat) (e : ChainErr) (c' : Chain CS)
    (h : appendValidTipParent P c b ph fuel = some (Except.error e, c')) :
    c' = c := by
  simp only [appendValidTipParent, bind, Option.bind_eq_some] at h
  obtain ⟨s0, -, h⟩ := h
  split at h
  · simp only [Option.some.injEq, Prod.mk.injEq] at h
    exact h.2.symm
  · simp [Option.bind_eq_some] at h

theorem appendBelongsDisconnectedParent_err (c : Chain CS) (b : Block)
    (ph fuel : Nat) (e : ChainErr) (c' : Chain CS)
    (h : appendBelongsDisconnectedParent c b ph fuel
      = some (Except.error e, c')) : c' = c := by
  simp only [appendBelongsDisconnectedParent, bind, Option.bind_eq_some] at h
  obtain ⟨head, -, tips, -, ⟨st, c1⟩, -, h⟩ := h
  split at h
  · simp [Option.bind_eq_some] at h
  · simp [Option.bind_eq_some] at h

theorem appendBelongsValidParent_err (P : BParams CS) (c : Chain CS)
    (b : Block) (ph fuel : Nat) (e : ChainErr) (c' : Chain CS)
    (h : appendBelongsValidParent P c b ph fuel = some (Except.error e, c')) :
    c' = c := by
  simp only [appendBelongsValidParent, bind, Option.bind_eq_some] at h
  obtain ⟨⟨v1, r1⟩, -, hd, -, s0, -, s1, -, h⟩ := h
  split at h
  · simp only [Option.some.injEq, Prod.mk.injEq] at h
    exact h.2.symm
  · simp [Option.bind_eq_some] at h

theorem appendUnknownParent_err (P : BParams CS) (c : Chain CS) (b : Block)
    (ph fuel : Nat) (e : ChainErr) (c' : Chain CS)
    (h : appendUnknownParent P c b ph fuel = some (Except.error e, c')) :
    c' = c := by
  simp only [appendUnknownParent, bind, Option.bind_eq_some] at h
  obtain ⟨⟨st, c1⟩, -, fm, -, h⟩ := h
  split at h
  · simp [Option.bind_eq_some] at h
  · simp [Option.bind_eq_some] at h

/-- The strip-and-replay part of `rewind` only answers `Ok` (or panics). -/
theorem rewind_err (P : BParams CS) (c : Chain CS) (bh fuel : Nat)
    (e : ChainErr) (c' : Chain CS)
    (h : rewind P c bh fuel = some (Except.error e, c')) : c' = c := by
  simp only [rewind] at h
  repeat' split at h
  all_goals try (simp only [Option.some.injEq, Prod.mk.injEq] at h
                 exact h.2.symm)
  all_goals simp [bind, Option.bind_eq_some] at h

/-- C4: `append_block` and `rewind` are atomic on error: whenever either
returns an `Err`, the returned engine state is exactly the input state — no
engine-visible field (canonical tip, height, store, orphan pool, validation
statuses, valid-tip sets and states, checkpoint bookkeeping) has changed.
The successful insertion of a fresh disconnected orphan is an `Ok` outcome
and is not constrained here. -/
theorem appendBlock_rewind_err_atomic (P : BParams CS) (c : Chain CS) :
    (∀ (b : Block) (fuel : Nat) (e : ChainErr) (c' : Chain CS),
      appendBlock P c b fuel = some (Except.error e, c') → c' = c) ∧
    (∀ (bh fuel : Nat) (e : ChainErr) (c' : Chain CS),
      rewind P c bh fuel = some (Except.error e, c') → c' = c) := by
  constructor
  · intro b fuel e c' h
    simp only [appendBlock] at h
    repeat' split at h
    all_goals try (simp only [Option.some.injEq, Prod.mk.injEq] at h
                   exact h.2.symm)
    all_goals try (exact appendExtendTip_err P c b fuel e c' h)
    all_goals try (exact appendCanonicalFork_err P c b _ fuel e c' h)
    all_goals try (exact appendDisconnectedTipParent_err c b _ fuel e c' h)
    all_goals try (exact appendValidTipParent_err P c b _ fuel e c' h)
    all_goals try (exact appendBelongsDisconnectedParent_err c b _ fuel e c' h)
    all_goals try (exact appendBelongsValidParent_err P c b _ fuel e c' h)
    all_goals try (exact appendUnknownParent_err P c b _ fuel e c' h)
    all_goals cases h
  · intro bh fuel e c' h
    exact rewind_err P c bh fuel e c' h

/-- Witness for C4: a `BadHeight` refusal on a fresh chain leaves the state
untouched. -/
theorem appendBlock_rewind_err_atomic_witness :
    appendBlock testParams (freshChain testParams) ⟨9, some 0, 25⟩ 10
        = some (Except.error ChainErr.badHeight, freshChain testParams) ∧
    freshChain testParams = freshChain testParams :=
  ⟨by decide,
   (appendBlock_rewind_err_atomic testParams (freshChain testParams)).1
     ⟨9, some 0, 25⟩ 10 ChainErr.badHeight (freshChain testParams) (by decide)⟩

/-! ## C8: appending onto a `ValidChainTip` parent -/

/-- Canonical chain 1←2←3, a fork orphan `P` (hash 31, height 2, parent
hash 1) recorded as a `ValidChainTip`, then a child `b` (hash 32, height 3,
parent 31) appended onto `P`.  All five appends succeed. -/
def c8Chain : Chain Nat :=
  ((runAppends testParams 100 (freshChain testParams)
    [⟨1, some 0, 1⟩, ⟨2, some 1, 2⟩, ⟨3, some 2, 3⟩,
     ⟨31, some 1, 2⟩, ⟨32, some 31, 3⟩]).map Prod.snd).getD
    (freshChain testParams)

/-- Counterexample for C8.  After appending block 32 onto the
`ValidChainTip` orphan 31, the parent 31 is demoted to
`BelongsToValidChain` and removed from `valid_tips`, and 32 becomes a
`ValidChainTip` with its state recorded — but 31 is *not* removed from
`valid_tips_states`: case (d) of `append_block` executes
`*tip_state = new_tip_state.duplicate()` on the parent's entry, leaving it
present and overwritten with the new block's state (here the counting state
3, equal to the new tip's own recorded state), where the claim requires the
entry to be removed. -/
theorem appendValidTipParent_keeps_parent_state :
    c8Chain.height = 3 ∧
    alGet c8Chain.validationsMapping 31 = some OrphanType.belongsToValidChain ∧
    sMem c8Chain.validTips 31 = false ∧
    alGet c8Chain.validTipsStates 31 = some 3 ∧
    alGet c8Chain.validationsMapping 32 = some OrphanType.validChainTip ∧
    sMem c8Chain.validTips 32 = true ∧
    alGet c8Chain.validTipsStates 32 = some 3 := by
  refine ⟨by decide, by decide, by decide, by decide, by decide, by decide,
    by decide⟩

/-! Set lemmas for the amended C8 proof. -/

theorem sMem_eq_mem (l : List Nat) (k : Nat) : sMem l k = true ↔ k ∈ l := by
  induction l with
  | nil => simp [sMem]
  | cons x t ih =>
      simp only [sMem, List.mem_cons]
      by_cases hx : x = k
      · simp [hx]
      · simp only [if_neg hx, ih]
        constructor
        · exact Or.inr
        · rintro (h1 | h1)
          · exact absurd h1.symm hx
          · exact h1

theorem sMem_sInsert_self (l : List Nat) (k : Nat) :
    sMem (sInsert l k) k = true := by
  unfold sInsert
  split
  · assumption
  · rw [sMem_eq_mem]
    simp

theorem sMem_append_single_ne (l : List Nat) (k k' : Nat) (h : k' ≠ k) :
    sMem (l ++ [k]) k' = sMem l k' := by
  have h' : ¬ k = k' := fun hh => h hh.symm
  induction l with
  | nil => simp [sMem, h']
  | cons x t ih =>
      simp only [List.cons_append, sMem]
      split
      · rfl
      · exact ih

theorem sMem_sInsert_ne (l : List Nat) (k k' : Nat) (h : k' ≠ k) :
    sMem (sInsert l k) k' = sMem l k' := by
  unfold sInsert
  split
  · rfl
  · exact sMem_append_single_ne l k k' h

theorem sMem_sRemove_ne (l : List Nat) (k k' : Nat) (h : k' ≠ k) :
    sMem (sRemove l k) k' = sMem l k' := by
  have h' : ¬ k = k' := fun hh => h hh.symm
  induction l with
  | nil => simp [sRemove]
  | cons x t ih =>
      by_cases hx : x = k
      · subst hx
        simp [sRemove, sMem, h']
      · simp only [sRemove, if_neg hx, sMem]
        by_cases hx' : x = k'
        · simp [hx']
        · simp [hx', ih]

theorem sMem_sRemove_nodup (l : List Nat) (k : Nat) (hnd : l.Nodup) :
    sMem (sRemove l k) k = false := by
  induction l with
  | nil => rfl
  | cons x t ih =>
      simp only [List.nodup_cons] at hnd
      by_cases hx : x = k
      · subst hx
        simp only [sRemove, if_pos rfl]
        rw [← Bool.not_eq_true, sMem_eq_mem]
        exact hnd.1
      · simp only [sRemove, if_neg hx, sMem, hx, if_false]
        exact ih hnd.2

theorem sInsert_nodup (l : List Nat) (k : Nat) (hnd : l.Nodup) :
    (sInsert l k).Nodup := by
  unfold sInsert
  split
  · exact hnd
  · rename_i hmem
    have hk : k ∉ l := by
      rw [← sMem_eq_mem]
      simpa using hmem
    rw [List.nodup_append]
    refine ⟨hnd, by simp, ?_⟩
    intro a ha hb
    simp only [List.mem_singleton] at hb
    subst hb
    exact hk ha

/-- C8, amended.  When `append_block` receives a block `b` whose parent `p`
is an orphan classified `ValidChainTip` and `append_condition` succeeds, the
parent is demoted to `BelongsToValidChain` and removed from `valid_tips`,
and `b` becomes a `ValidChainTip` with its state recorded — but the parent
is *not* removed from `valid_tips_states`: its entry is overwritten with the
new tip's state (`*tip_state = new_tip_state.duplicate()`).  Scenario
hypotheses: no disconnected fragments compete for attachment, the parent was
a plain tip (inverse height 0) whose own parent is outside the pool, and the
new tip does not trigger a chain switch. -/
theorem appendBlock_validTipParent_demotes (P : BParams CS) (c : Chain CS)
    (b pb : Block) (p gp mx fuel : Nat) (sp s' : CS) (hmP : List (Nat × Nat))
    (hwin : ¬ (b.height > c.height + P.maxHeight ∨
               b.height < if c.height > P.minHeight then c.height - P.minHeight else 1))
    (hpool : alGet c.orphanPool b.hash = none)
    (hdb : alGet c.dbBlocks b.hash = none)
    (hp : b.parentHash = some p)
    (hptip : ¬ p = c.canonicalTip.hash)
    (hnotfull : ¬ c.orphanPool.length ≥ P.maxOrphans)
    (hpdb : alGet c.dbBlocks p = none)
    (hppool : alGet c.orphanPool p = some pb)
    (hpbh : pb.hash = p)
    (hh : b.height = pb.height + 1)
    (hstatus : alGet c.validationsMapping p = some OrphanType.validChainTip)
    (hstate : alGet c.validTipsStates p = some sp)
    (hcond : P.appendCondition b sp = Except.ok s')
    (hhmB : alGet c.heightsMapping b.height = none)
    (hhmP : alGet c.heightsMapping pb.height = some hmP)
    (hinv : alGet hmP pb.hash = some 0)
    (hmaxO : c.maxOrphanHeight = some mx)
    (hbgt : b.height > mx)
    (hheadsH : c.disconnectedHeadsHeights = [])
    (hheadsMB : alGet c.disconnectedHeadsMapping b.hash = none)
    (htipsMB : alGet c.disconnectedTipsMapping b.hash = none)
    (hgp : pb.parentHash = some gp)
    (hgpPool : alGet c.orphanPool gp = none)
    (hgpne : ¬ gp = b.hash)
    (hpne : ¬ p = b.hash)
    (hvtnd : c.validTips.Nodup)
    (hsw : ¬ b.height > c.height + P.switchOffset) :
    ∃ c', appendBlock P c b (fuel + 2) = some (Except.ok (), c') ∧
      alGet c'.validationsMapping p = some OrphanType.belongsToValidChain ∧
      sMem c'.validTips p = false ∧
      alGet c'.validTipsStates p = some s' ∧
      alGet c'.validationsMapping b.hash = some OrphanType.validChainTip ∧
      sMem c'.validTips b.hash = true ∧
      alGet c'.validTipsStates b.hash = some s' := by
  have hhne : pb.height ≠ b.height := by omega
  have hrun : appendBlock P c b (fuel + 2) = some (Except.ok (), { c with
      orphanPool := alInsert c.orphanPool b.hash b
      maxOrphanHeight := some b.height
      heightsMapping :=
        alInsert
          (alInsert (alInsert c.heightsMapping b.height [(b.hash, 0)]) pb.height
            (alInsert hmP pb.hash (0 + 1)))
          pb.height (alInsert hmP pb.hash (0 + 1))
      validationsMapping :=
        alInsert
          (alInsert
            (alInsert
              (alInsert
                (alInsert (alInsert c.validationsMapping p OrphanType.belongsToValidChain)
                  b.hash OrphanType.validChainTip)
                b.hash OrphanType.validChainTip)
              pb.hash OrphanType.belongsToValidChain)
            b.hash OrphanType.validChainTip)
          pb.hash OrphanType.belongsToValidChain
      disconnectedHeadsHeights := []
      validTips := sInsert (sRemove (sInsert c.validTips b.hash) p) b.hash
      validTipsStates := alInsert (alInsert c.validTipsStates p s') b.hash s' }) := by
    unfold appendBlock
    rw [if_neg hwin]
    simp only [hpool, hdb, Option.isSome_none, Bool.false_eq_true, or_self,
      if_false, hp, if_neg hptip, if_neg hnotfull, hpdb, hppool,
      if_neg (by omega : ¬ b.height ≠ pb.height + 1), hstatus]
    unfold appendValidTipParent
    simp only [bind, Option.bind, hstate, hcond]
    unfold writeOrphan updateMaxOrphanHeight
    simp only [alGet_insert_ne _ _ _ _ hpne]
    rw [hhmB]
    simp only [hmaxO, if_pos hbgt]
    unfold attemptAttachValid
    simp only [sMem_sInsert_self, Bool.true_eq_false, not_true, if_false,
      hheadsMB, htipsMB, Option.isSome_none, Bool.false_eq_true,
      alGet_insert_self, Option.isNone_some, hheadsH]
    unfold aavScan aavWrite
    simp only [Option.bind]
    unfold traverseInverse
    simp only [if_neg (by omega : ¬ (0 : Nat) ≠ 0), alGet_insert_self]
    unfold traverseInverseLoop
    simp only [bind, Option.bind, hp, alGet_insert_ne _ _ _ _ hpne, hppool,
      alGet_insert_ne _ _ _ _ hhne, hhmP, hinv, hgp,
      alGet_insert_ne _ _ _ _ hgpne, hgpPool, alGet_insert_self]
    simp only [traverseInverseLoop, hgp, alGet_insert_ne _ _ _ _ hgpne,
      hgpPool, if_pos (show (0:Nat) < 0+1 by omega), if_true, bind,
      Option.bind]
    simp only [decide_True, if_neg (show ¬ (0:Nat) ≠ 0 by omega), if_true,
      alGet_insert_ne _ _ _ _ hpne, hppool, alGet_insert_self,
      if_neg (show ¬ (1:Nat) < 0 + 1 by omega), hgp,
      alGet_insert_ne _ _ _ _ hgpne, hgpPool, bind, Option.bind]
    unfold attemptSwitch
    simp only [sMem_sInsert_self, Bool.true_eq_false, not_true, if_false,
      hheadsMB, htipsMB, Option.isSome_none, Bool.false_eq_true,
      if_neg hsw, Option.bind]
  refine ⟨_, hrun, ?_, ?_, ?_, ?_, ?_, ?_⟩
  · simp only [hpbh, alGet_insert_self]
  · simp only [sMem_sInsert_ne _ _ _ hpne,
      sMem_sRemove_nodup _ _ (sInsert_nodup _ _ hvtnd)]
  · simp only [alGet_insert_ne _ _ _ _ (fun hq => hpne hq),
      alGet_insert_self]
  · have hbne : ¬ b.hash = p := fun hq => hpne hq.symm
    simp only [hpbh, alGet_insert_ne _ _ _ _ hbne, alGet_insert_self]
  · simp only [sMem_sInsert_self]
  · simp only [alGet_insert_self]

/-- The canonical chain 1←2←3 with the fork orphan 31 already recorded as a
`ValidChainTip` (counting state 2). -/
def c8Pre : Chain Nat :=
  ((runAppends testParams 100 (freshChain testParams)
    [⟨1, some 0, 1⟩, ⟨2, some 1, 2⟩, ⟨3, some 2, 3⟩,
     ⟨31, some 1, 2⟩]).map Prod.snd).getD (freshChain testParams)

/-- Witness for the amended C8: appending block 32 onto the valid tip 31. -/
theorem appendBlock_validTipParent_demotes_witness :
    ∃ c', appendBlock testParams c8Pre ⟨32, some 31, 3⟩ (48 + 2)
        = some (Except.ok (), c') ∧
      alGet c'.validationsMapping 31 = some OrphanType.belongsToValidChain ∧
      sMem c'.validTips 31 = false ∧
      alGet c'.validTipsStates 31 = some 3 ∧
      alGet c'.validationsMapping (Block.mk 32 (some 31) 3).hash
        = some OrphanType.validChainTip ∧
      sMem c'.validTips (Block.mk 32 (some 31) 3).hash = true ∧
      alGet c'.validTipsStates (Block.mk 32 (some 31) 3).hash = some 3 :=
  appendBlock_validTipParent_demotes testParams c8Pre ⟨32, some 31, 3⟩
    ⟨31, some 1, 2⟩ 31 1 2 48 2 3 [(31, 0)]
    (by decide) (by decide) (by decide) (by decide) (by decide) (by decide)
    (by decide) (by decide) (by decide) (by decide) (by decide) (by decide)
    (by decide) (by decide) (by decide) (by decide) (by decide) (by decide)
    (by decide) (by decide) (by decide) (by decide) (by decide) (by decide)
    (by decide) (by decide) (by decide)

/-! ## C7: store/pool disjointness

The invariant: every hash is in at most one of the canonical store and the
orphan pool, and every hash accepted through `append_block` is in exactly
one.  The proof tracks, for each helper of the engine, how it moves hashes
between the two containers. -/

/-- Well-formedness of the two block containers: association-list keys are
duplicate-free (they model hash maps), and every entry is keyed by the
stored block's own hash (the engine always inserts under `block.hash()`). -/
def WF (c : Chain CS) : Prop :=
  ((c.dbBlocks.map Prod.fst).Nodup ∧ (c.orphanPool.map Prod.fst).Nodup) ∧
  (∀ p ∈ c.dbBlocks, (Prod.snd p).hash = Prod.fst p) ∧
  (∀ p ∈ c.orphanPool, (Prod.snd p).hash = Prod.fst p)

/-- Hash `h` is in exactly one of the canonical store and the orphan pool. -/
def seenOk (c : Chain CS) (h : Nat) : Prop :=
  (alGet c.dbBlocks h).isSome ≠ (alGet c.orphanPool h).isSome

/-- Hash `h` is in both containers (the state the invariant forbids). -/
def inBoth (c : Chain CS) (h : Nat) : Prop :=
  (alGet c.dbBlocks h).isSome = true ∧ (alGet c.orphanPool h).isSome = true

/-- One engine step preserves the container discipline: well-formedness is
kept, hashes in exactly one container stay in exactly one, and no hash
enters both. -/
def Pres (c c' : Chain CS) : Prop :=
  WF c → WF c' ∧ ∀ h, (seenOk c h → seenOk c' h) ∧ (inBoth c' h → inBoth c h)

/-- The step does not touch either container. -/
def samePools (c c' : Chain CS) : Prop :=
  c'.dbBlocks = c.dbBlocks ∧ c'.orphanPool = c.orphanPool

theorem Pres_refl (c : Chain CS) : Pres c c := fun hwf => ⟨hwf, fun _ => ⟨id, id⟩⟩

theorem Pres_trans {a b c : Chain CS} (h1 : Pres a b) (h2 : Pres b c) :
    Pres a c := by
  intro hwf
  obtain ⟨hwfb, hb⟩ := h1 hwf
  obtain ⟨hwfc, hc⟩ := h2 hwfb
  exact ⟨hwfc, fun h =>
    ⟨fun hs => (hc h).1 ((hb h).1 hs), fun hs => (hb h).2 ((hc h).2 hs)⟩⟩

theorem Pres_of_samePools {c c' : Chain CS} (h : samePools c c') :
    Pres c c' := by
  intro hwf
  refine ⟨?_, fun hh => ?_⟩
  · unfold WF at hwf ⊢
    rw [h.1, h.2]; exact hwf
  · unfold seenOk inBoth
    rw [h.1, h.2]
    exact ⟨id, id⟩

/-! Additional association-list facts. -/

theorem alGet_remove_none {α : Type} (l : List (Nat × α)) (j k : Nat)
    (h : alGet l k = none) : alGet (alRemove l j) k = none := by
  induction l with
  | nil => rfl
  | cons p t ih =>
      obtain ⟨k0, v0⟩ := p
      simp only [alGet] at h
      by_cases h0 : k0 = k
      · simp [h0] at h
      · simp only [if_neg h0] at h
        simp only [alRemove]
        by_cases h1 : k0 = j
        · simp only [if_pos h1]
          exact h
        · simp only [if_neg h1, alGet, if_neg h0]
          exact ih h

theorem alGet_not_mem_none {α : Type} (l : List (Nat × α)) (k : Nat)
    (h : k ∉ l.map Prod.fst) : alGet l k = none := by
  induction l with
  | nil => rfl
  | cons p t ih =>
      obtain ⟨k0, v0⟩ := p
      simp only [List.map_cons, List.mem_cons, not_or] at h
      have hne : ¬ k0 = k := fun hh => h.1 hh.symm
      simp only [alGet, if_neg hne]
      exact ih h.2

theorem alGet_remove_self_nodup {α : Type} (l : List (Nat × α)) (k : Nat)
    (hnd : (l.map Prod.fst).Nodup) : alGet (alRemove l k) k = none := by
  induction l with
  | nil => rfl
  | cons p t ih =>
      obtain ⟨k0, v0⟩ := p
      simp only [List.map_cons, List.nodup_cons] at hnd
      by_cases h0 : k0 = k
      · subst h0
        simp only [alRemove, if_pos rfl]
        exact alGet_not_mem_none t k0 hnd.1
      · simp only [alRemove, if_neg h0, alGet, if_neg h0]
        exact ih hnd.2

theorem mem_alInsert_keys {α : Type} (l : List (Nat × α)) (k k' : Nat) (v : α)
    (h : k' ∈ (alInsert l k v).map Prod.fst) :
    k' = k ∨ k' ∈ l.map Prod.fst := by
  induction l with
  | nil => simpa [alInsert] using h
  | cons p t ih =>
      obtain ⟨k0, v0⟩ := p
      by_cases h0 : k0 = k
      · have hred : alInsert ((k0, v0) :: t) k v = (k, v) :: t := by
          simp [alInsert, h0]
        rw [hred] at h
        simp only [List.map_cons, List.mem_cons] at h
        rcases h with h1 | h1
        · exact Or.inl h1
        · exact Or.inr (List.mem_cons_of_mem _ h1)
      · simp only [alInsert, if_neg h0, List.map_cons, List.mem_cons] at h
        rcases h with h1 | h1
        · exact Or.inr (List.mem_cons.mpr (Or.inl h1))
        · rcases ih h1 with h2 | h2
          · exact Or.inl h2
          · exact Or.inr (List.mem_cons_of_mem _ h2)

theorem alInsert_keys_nodup {α : Type} (l : List (Nat × α)) (k : Nat) (v : α)
    (hnd : (l.map Prod.fst).Nodup) :
    ((alInsert l k v).map Prod.fst).Nodup := by
  induction l with
  | nil => simp [alInsert]
  | cons p t ih =>
      obtain ⟨k0, v0⟩ := p
      simp only [List.map_cons, List.nodup_cons] at hnd
      by_cases h0 : k0 = k
      · have hred : alInsert ((k0, v0) :: t) k v = (k, v) :: t := by
          simp [alInsert, h0]
        rw [hred]
        simp only [List.map_cons, List.nodup_cons]
        rw [← h0]
        exact hnd
      · simp only [alInsert, if_neg h0, List.map_cons, List.nodup_cons]
        refine ⟨?_, ih hnd.2⟩
        intro hmem
        rcases mem_alInsert_keys t k k0 v hmem with h1 | h1
        · exact h0 h1
        · exact hnd.1 h1

theorem mem_alRemove_keys {α : Type} (l : List (Nat × α)) (k x : Nat)
    (h : x ∈ (alRemove l k).map Prod.fst) : x ∈ l.map Prod.fst := by
  induction l with
  | nil => simp [alRemove] at h
  | cons p t ih =>
      obtain ⟨k0, v0⟩ := p
      by_cases h0 : k0 = k
      · simp only [alRemove, if_pos h0] at h
        exact List.mem_cons_of_mem _ h
      · simp only [alRemove, if_neg h0, List.map_cons, List.mem_cons] at h
        rcases h with h | h
        · exact List.mem_cons.mpr (Or.inl h)
        · exact List.mem_cons_of_mem _ (ih h)

theorem alRemove_keys_nodup {α : Type} (l : List (Nat × α)) (k : Nat)
    (hnd : (l.map Prod.fst).Nodup) :
    ((alRemove l k).map Prod.fst).Nodup := by
  induction l with
  | nil => simp [alRemove]
  | cons p t ih =>
      obtain ⟨k0, v0⟩ := p
      simp only [List.map_cons, List.nodup_cons] at hnd
      by_cases h0 : k0 = k
      · simp only [alRemove, if_pos h0]
        exact hnd.2
      · simp only [alRemove, if_neg h0, List.map_cons, List.nodup_cons]
        exact ⟨fun hmem => hnd.1 (mem_alRemove_keys t k k0 hmem), ih hnd.2⟩

theorem alGet_mem {α : Type} (l : List (Nat × α)) (k : Nat) (v : α)
    (h : alGet l k = some v) : (k, v) ∈ l := by
  induction l with
  | nil => cases h
  | cons p t ih =>
      obtain ⟨k0, v0⟩ := p
      simp only [alGet] at h
      by_cases h0 : k0 = k
      · simp only [if_pos h0, Option.some.injEq] at h
        subst h0; subst h
        exact List.mem_cons_self _ _
      · simp only [if_neg h0] at h
        exact List.mem_cons_of_mem _ (ih h)

theorem mem_alInsert {α : Type} (l : List (Nat × α)) (k : Nat) (v : α)
    (p : Nat × α) (h : p ∈ alInsert l k v) : p = (k, v) ∨ p ∈ l := by
  induction l with
  | nil => simpa [alInsert] using h
  | cons q t ih =>
      obtain ⟨k0, v0⟩ := q
      simp only [alInsert] at h
      by_cases h0 : k0 = k
      · simp only [if_pos h0, List.mem_cons] at h
        rcases h with h | h
        · exact Or.inl h
        · exact Or.inr (List.mem_cons_of_mem _ h)
      · simp only [if_neg h0, List.mem_cons] at h
        rcases h with h | h
        · exact Or.inr (by simp [h])
        · rcases ih h with h | h
          · exact Or.inl h
          · exact Or.inr (List.mem_cons_of_mem _ h)

theorem mem_alRemove {α : Type} (l : List (Nat × α)) (k : Nat)
    (p : Nat × α) (h : p ∈ alRemove l k) : p ∈ l := by
  induction l with
  | nil => simp [alRemove] at h
  | cons q t ih =>
      obtain ⟨k0, v0⟩ := q
      simp only [alRemove] at h
      by_cases h0 : k0 = k
      · simp only [if_pos h0] at h
        exact List.mem_cons_of_mem _ h
      · simp only [if_neg h0, List.mem_cons] at h
        rcases h with h | h
        · rw [h]; exact List.mem_cons_self _ _
        · exact List.mem_cons_of_mem _ (ih h)

/-! Generic transfer lemmas: the three ways the engine moves a hash between
the canonical store and the orphan pool, each shown to preserve the
container discipline. -/

/-- `write_block`-shaped move: the block enters the store and leaves the
pool under its own hash. -/
theorem pres_insert_db_remove_pool {c c' : Chain CS} (b : Block)
    (hdb : c'.dbBlocks = alInsert c.dbBlocks b.hash b)
    (hpool : c'.orphanPool = alRemove c.orphanPool b.hash) :
    Pres c c' ∧ (WF c → seenOk c' b.hash) := by
  constructor
  · intro hwf
    obtain ⟨⟨hnd1, hnd2⟩, hk1, hk2⟩ := hwf
    refine ⟨⟨⟨by rw [hdb]; exact alInsert_keys_nodup _ _ _ hnd1,
        by rw [hpool]; exact alRemove_keys_nodup _ _ hnd2⟩, ?_, ?_⟩, ?_⟩
    · intro p hp
      rw [hdb] at hp
      rcases mem_alInsert _ _ _ _ hp with h | h
      · rw [h]
      · exact hk1 p h
    · intro p hp
      rw [hpool] at hp
      exact hk2 p (mem_alRemove _ _ _ hp)
    · intro x
      by_cases hx : x = b.hash
      · subst hx
        constructor
        · intro _
          unfold seenOk
          rw [hdb, hpool, alGet_insert_self, alGet_remove_self_nodup _ _ hnd2]
          simp
        · intro hb2
          unfold inBoth at hb2
          rw [hpool, alGet_remove_self_nodup _ _ hnd2] at hb2
          simp at hb2
      · constructor
        · intro hs
          unfold seenOk at hs ⊢
          rw [hdb, hpool, alGet_insert_ne _ _ _ _ hx, alGet_remove_ne _ _ _ hx]
          exact hs
        · intro hb2
          unfold inBoth at hb2 ⊢
          rw [hdb, hpool, alGet_insert_ne _ _ _ _ hx, alGet_remove_ne _ _ _ hx] at hb2
          exact hb2
  · intro hwf
    obtain ⟨⟨hnd1, hnd2⟩, hk1, hk2⟩ := hwf
    unfold seenOk
    rw [hdb, hpool, alGet_insert_self, alGet_remove_self_nodup _ _ hnd2]
    simp

/-- `write_orphan`-shaped move: the block enters the pool under its own
hash; the store is untouched and must not already hold the hash. -/
theorem pres_insert_pool {c c' : Chain CS} (b : Block)
    (hnone : alGet c.dbBlocks b.hash = none)
    (hdb : c'.dbBlocks = c.dbBlocks)
    (hpool : c'.orphanPool = alInsert c.orphanPool b.hash b) :
    Pres c c' ∧ seenOk c' b.hash := by
  constructor
  · intro hwf
    obtain ⟨⟨hnd1, hnd2⟩, hk1, hk2⟩ := hwf
    refine ⟨⟨⟨by rw [hdb]; exact hnd1,
        by rw [hpool]; exact alInsert_keys_nodup _ _ _ hnd2⟩, ?_, ?_⟩, ?_⟩
    · intro p hp
      rw [hdb] at hp
      exact hk1 p hp
    · intro p hp
      rw [hpool] at hp
      rcases mem_alInsert _ _ _ _ hp with h | h
      · rw [h]
      · exact hk2 p h
    · intro x
      by_cases hx : x = b.hash
      · subst hx
        constructor
        · intro _
          unfold seenOk
          rw [hdb, hpool, hnone, alGet_insert_self]
          simp
        · intro hb2
          unfold inBoth at hb2
          rw [hdb, hnone] at hb2
          simp at hb2
      · constructor
        · intro hs
          unfold seenOk at hs ⊢
          rw [hdb, hpool, alGet_insert_ne _ _ _ _ hx]
          exact hs
        · intro hb2
          unfold inBoth at hb2 ⊢
          rw [hdb, hpool, alGet_insert_ne _ _ _ _ hx] at hb2
          exact hb2
  · unfold seenOk
    rw [hdb, hpool, hnone, alGet_insert_self]
    simp

/-- `rewind`-shaped move: a stored block leaves the store and enters the
pool under its own hash. -/
theorem pres_db_to_pool {c c' : Chain CS} (k : Nat) (b : Block)
    (hget : alGet c.dbBlocks k = some b)
    (hdb : c'.dbBlocks = alRemove c.dbBlocks k)
    (hpool : c'.orphanPool = alInsert c.orphanPool b.hash b) :
    Pres c c' := by
  intro hwf
  obtain ⟨⟨hnd1, hnd2⟩, hk1, hk2⟩ := hwf
  have hbk : b.hash = k := hk1 (k, b) (alGet_mem _ _ _ hget)
  refine ⟨⟨⟨by rw [hdb]; exact alRemove_keys_nodup _ _ hnd1,
      by rw [hpool]; exact alInsert_keys_nodup _ _ _ hnd2⟩, ?_, ?_⟩, ?_⟩
  · intro p hp
    rw [hdb] at hp
    exact hk1 p (mem_alRemove _ _ _ hp)
  · intro p hp
    rw [hpool] at hp
    rcases mem_alInsert _ _ _ _ hp with h | h
    · rw [h]
    · exact hk2 p h
  · intro x
    by_cases hx : x = k
    · subst hx
      constructor
      · intro _
        unfold seenOk
        rw [hdb, hpool, ← hbk, alGet_insert_self,
          hbk, alGet_remove_self_nodup _ _ hnd1]
        simp
      · intro hb2
        unfold inBoth at hb2
        rw [hdb, alGet_remove_self_nodup _ _ hnd1] at hb2
        simp at hb2
    · have hxb : x ≠ b.hash := by rw [hbk]; exact hx
      constructor
      · intro hs
        unfold seenOk at hs ⊢
        rw [hdb, hpool, alGet_insert_ne _ _ _ _ hxb, alGet_remove_ne _ _ _ hx]
        exact hs
      · intro hb2
        unfold inBoth at hb2 ⊢
        rw [hdb, hpool, alGet_insert_ne _ _ _ _ hxb, alGet_remove_ne _ _ _ hx] at hb2
        exact hb2

theorem samePools_refl (c : Chain CS) : samePools c c := ⟨rfl, rfl⟩

theorem samePools_trans {a b c : Chain CS} (h1 : samePools a b)
    (h2 : samePools b c) : samePools a c :=
  ⟨h2.1.trans h1.1, h2.2.trans h1.2⟩

/-! The attach/merge/traverse helpers never touch the canonical store or the
orphan pool: they only edit the orphan-side indices. -/

theorem traverseInverseLoop_pools :
    ∀ (fuel : Nat) (c : Chain CS) (cur : Block) (inv : Nat) (mv : Bool)
      (c' : Chain CS),
      traverseInverseLoop c cur inv mv fuel = some c' → samePools c c'
  | 0, _, _, _, _, _, h => by cases h
  | (fuel + 1), c, cur, inv, mv, c', h => by
      unfold traverseInverseLoop at h
      simp only [bind, Option.bind_eq_some] at h
      obtain ⟨ph, hph, h⟩ := h
      split at h
      · simp only [Option.some.injEq] at h
        rw [← h]; exact samePools_refl c
      · simp only [Option.bind_eq_some] at h
        obtain ⟨orphans, ho, inv0, hi, h⟩ := h
        split at h
        · have ih := traverseInverseLoop_pools fuel _ _ _ _ _ h
          exact samePools_trans ⟨rfl, rfl⟩ ih
        · have ih := traverseInverseLoop_pools fuel _ _ _ _ _ h
          exact samePools_trans ⟨rfl, rfl⟩ ih

theorem traverseInverse_pools (c : Chain CS) (orphan : Block)
    (sh : Nat) (mv : Bool) (fuel : Nat) (c' : Chain CS)
    (h : traverseInverse c orphan sh mv fuel = some c') : samePools c c' := by
  unfold traverseInverse at h
  split at h
  · split at h
    · cases h
    · have ih := traverseInverseLoop_pools fuel _ _ _ _ _ h
      exact samePools_trans ⟨rfl, rfl⟩ ih
  · have ih := traverseInverseLoop_pools fuel _ _ _ _ _ h
    exact samePools_trans ⟨rfl, rfl⟩ ih

theorem attachMergeTips_pools :
    ∀ (tips : List Nat) (c : Chain CS) (curHead : Nat) (c' : Chain CS)
      (bs : List Block),
      attachMergeTips c curHead tips = some (c', bs) → samePools c c'
  | [], c, curHead, c', bs, h => by
      simp only [attachMergeTips, Option.some.injEq, Prod.mk.injEq] at h
      rw [← h.1]; exact samePools_refl c
  | t :: rest, c, curHead, c', bs, h => by
      simp only [attachMergeTips, bind, Option.bind_eq_some] at h
      obtain ⟨tip, htip, ⟨lh, lt⟩, hlh, h⟩ := h
      split at h
      · simp only [Option.bind_eq_some] at h
        obtain ⟨⟨c1, bs1⟩, h1, h2⟩ := h
        simp only [Option.some.injEq, Prod.mk.injEq] at h2
        rw [← h2.1]
        have ih := attachMergeTips_pools rest _ _ _ _ h1
        exact samePools_trans ⟨rfl, rfl⟩ ih
      · simp only [Option.bind_eq_some] at h
        obtain ⟨⟨c1, bs1⟩, h1, h2⟩ := h
        simp only [Option.some.injEq, Prod.mk.injEq] at h2
        rw [← h2.1]
        have ih := attachMergeTips_pools rest _ _ _ _ h1
        exact samePools_trans ⟨rfl, rfl⟩ ih

theorem attachTraverseAll_pools :
    ∀ (bs : List Block) (c : Chain CS) (fuel : Nat) (c' : Chain CS),
      attachTraverseAll c fuel bs = some c' → samePools c c'
  | [], c, fuel, c', h => by
      simp only [attachTraverseAll, Option.some.injEq] at h
      rw [← h]; exact samePools_refl c
  | t :: rest, c, fuel, c', h => by
      simp only [attachTraverseAll, bind, Option.bind_eq_some] at h
      obtain ⟨c1, h1, h2⟩ := h
      have s1 := traverseInverse_pools _ _ _ _ _ _ h1
      have s2 := attachTraverseAll_pools rest _ _ _ h2
      exact samePools_trans ⟨rfl, rfl⟩ (samePools_trans s1 s2)

theorem attachOne_pools (c : Chain CS) (curHead headToAttach fuel : Nat)
    (c' : Chain CS) (h : attachOne c curHead headToAttach fuel = some c') :
    samePools c c' := by
  simp only [attachOne, bind, Option.bind_eq_some] at h
  obtain ⟨tips, htips, hh, hhh, h⟩ := h
  split at h
  all_goals
    simp only [Option.bind_eq_some] at h
  · obtain ⟨⟨c1, bs⟩, h1, h2⟩ := h
    have s1 := attachMergeTips_pools _ _ _ _ _ h1
    have s2 := attachTraverseAll_pools _ _ _ _ h2
    exact samePools_trans ⟨rfl, rfl⟩ (samePools_trans s1 s2)
  · obtain ⟨⟨c1, bs⟩, h1, h2⟩ := h
    have s1 := attachMergeTips_pools _ _ _ _ _ h1
    have s2 := attachTraverseAll_pools _ _ _ _ h2
    exact samePools_trans ⟨rfl, rfl⟩ (samePools_trans s1 s2)

theorem attachAll_pools :
    ∀ (heads : List Nat) (c : Chain CS) (curHead fuel : Nat) (c' : Chain CS),
      attachAll c curHead fuel heads = some c' → samePools c c'
  | [], c, curHead, fuel, c', h => by
      simp only [attachAll, Option.some.injEq] at h
      rw [← h]; exact samePools_refl c
  | hd :: rest, c, curHead, fuel, c', h => by
      simp only [attachAll, bind, Option.bind_eq_some] at h
      obtain ⟨c1, h1, h2⟩ := h
      have s1 := attachOne_pools _ _ _ _ _ h1
      have s2 := attachAll_pools rest _ _ _ _ h2
      exact samePools_trans ⟨rfl, rfl⟩ (samePools_trans s1 s2)

theorem attemptAttach_pools (c : Chain CS) (tipHash : Nat)
    (st : OrphanType) (fuel : Nat) (r : OrphanType) (c' : Chain CS)
    (h : attemptAttach c tipHash st fuel = some (r, c')) : samePools c c' := by
  simp only [attemptAttach, bind, Option.bind_eq_some] at h
  obtain ⟨oh, hoh, ta, hta, ch, hch, h⟩ := h
  simp only [Option.bind_eq_some, Option.some.injEq, Prod.mk.injEq] at h
  obtain ⟨c1, h1, -, h2⟩ := h
  rw [← h2]
  have s1 := attachAll_pools _ _ _ _ _ h1
  exact samePools_trans ⟨rfl, rfl⟩ s1

theorem mvtScan_pools :
    ∀ (keys : List Nat) (c : Chain CS) (P : BParams CS) (head : Nat)
      (matched : List Nat) (previous newPrev : List (Nat × CS))
      (c' : Chain CS) (m' : List Nat) (p' : List (Nat × CS)),
      mvtScan P head c keys matched previous newPrev = some (c', m', p') →
      samePools c c'
  | [], c, P, head, matched, previous, newPrev, c', m', p', h => by
      simp only [mvtScan, Option.some.injEq, Prod.mk.injEq] at h
      rw [← h.1]; exact samePools_refl c
  | m :: rest, c, P, head, matched, previous, newPrev, c', m', p', h => by
      simp only [mvtScan, bind, Option.bind_eq_some] at h
      obtain ⟨e, he, ph, hph, h⟩ := h
      split at h
      · have ih := mvtScan_pools rest _ _ _ _ _ _ _ _ _ h
        exact samePools_trans ⟨rfl, rfl⟩ ih
      · split at h
        · have ih := mvtScan_pools rest _ _ _ _ _ _ _ _ _ h
          exact samePools_trans ⟨rfl, rfl⟩ ih
        · simp only [Option.bind_eq_some] at h
          obtain ⟨v1, hv1, v2, hv2, h⟩ := h
          have ih := mvtScan_pools rest _ _ _ _ _ _ _ _ _ h
          exact samePools_trans ⟨rfl, rfl⟩ ih

theorem mvtMakeTips_pools :
    ∀ (l : List (Nat × CS)) (c : Chain CS) (c' : Chain CS),
      mvtMakeTips c l = some c' → samePools c c'
  | [], c, c', h => by
      simp only [mvtMakeTips, Option.some.injEq] at h
      rw [← h]; exact samePools_refl c
  | (t, st) :: rest, c, c', h => by
      simp only [mvtMakeTips, bind, Option.bind_eq_some] at h
      obtain ⟨v1, hv1, h⟩ := h
      have ih := mvtMakeTips_pools rest _ _ h
      exact samePools_trans ⟨rfl, rfl⟩ ih

theorem mvtLoop_pools :
    ∀ (fuel : Nat) (c : Chain CS) (P : BParams CS) (head : Nat)
      (previous : List (Nat × CS)) (curHeight : Nat) (c' : Chain CS),
      mvtLoop P head c previous curHeight fuel = some c' → samePools c c'
  | 0, _, _, _, _, _, _, h => by cases h
  | (fuel + 1), c, P, head, previous, curHeight, c', h => by
      unfold mvtLoop at h
      split at h
      · simp only [bind, Option.bind_eq_some] at h
        obtain ⟨⟨c1, m1, p1⟩, h1, c2, h2, h3⟩ := h
        have s1 := mvtScan_pools _ _ _ _ _ _ _ _ _ _ h1
        have s2 := mvtMakeTips_pools _ _ _ h2
        have s3 := mvtLoop_pools fuel _ _ _ _ _ _ h3
        exact samePools_trans ⟨rfl, rfl⟩
          (samePools_trans s1 (samePools_trans s2 s3))
      · have ih := mvtMakeTips_pools _ _ _ h
        exact samePools_trans ⟨rfl, rfl⟩ ih

theorem makeValidTips_pools (P : BParams CS) (c : Chain CS) (head : Nat)
    (st : CS) (fuel : Nat) (c' : Chain CS)
    (h : makeValidTips P c head st fuel = some c') : samePools c c' := by
  unfold makeValidTips at h
  split at h
  · simp only [Option.some.injEq] at h
    rw [← h]; exact samePools_refl c
  · simp only [bind, Option.bind_eq_some] at h
    obtain ⟨hb, hhb, v1, hv1, h⟩ := h
    have ih := mvtLoop_pools _ _ _ _ _ _ _ h
    exact samePools_trans ⟨rfl, rfl⟩ ih

theorem aavWrite_pools :
    ∀ (l : List (Nat × Block × Nat × CS)) (c : Chain CS) (P : BParams CS)
      (blockHash fuel : Nat) (tip : Block) (invH : Nat) (st : OrphanType)
      (c' : Chain CS) (tip' : Block) (invH' : Nat) (st' : OrphanType),
      aavWrite P blockHash fuel c l tip invH st = some (c', tip', invH', st') →
      samePools c c'
  | [], c, P, blockHash, fuel, tip, invH, st, c', tip', invH', st', h => by
      simp only [aavWrite, Option.some.injEq, Prod.mk.injEq] at h
      rw [← h.1]; exact samePools_refl c
  | (hh, nt, ih, ts) :: rest, c, P, blockHash, fuel, tip, invH, st, c', tip',
      invH', st', h => by
      simp only [aavWrite, bind, Option.bind_eq_some] at h
      obtain ⟨v1, hv1, c1, h1, h2⟩ := h
      have s1 := makeValidTips_pools _ _ _ _ _ _ h1
      have s2 := aavWrite_pools rest _ _ _ _ _ _ _ _ _ _ _ h2
      exact samePools_trans ⟨rfl, rfl⟩ (samePools_trans s1 s2)

theorem attemptAttachValid_pools (P : BParams CS) (c : Chain CS)
    (tip : Block) (st : CS) (invH : Nat) (ot : OrphanType) (fuel : Nat)
    (c' : Chain CS) (tip' : Block) (invH' : Nat) (ot' : OrphanType)
    (h : attemptAttachValid P c tip st invH ot fuel
      = some (c', tip', invH', ot')) : samePools c c' := by
  simp only [attemptAttachValid] at h
  split at h
  · cases h
  · split at h
    · cases h
    · split at h
      · cases h
      · simp only [bind, Option.bind_eq_some] at h
        obtain ⟨tw, htw, ⟨c1, t1, i1, s1⟩, h1, c2, h2, h3⟩ := h
        simp only [Option.some.injEq, Prod.mk.injEq] at h3
        have base : samePools c
            (if (alGet c.validationsMapping tip.hash).isNone = true then
              { c with validationsMapping := alInsert c.validationsMapping tip.hash ot }
            else c) := by
          split <;> exact samePools_refl _
        rw [← h3.1]
        have s1 := aavWrite_pools _ _ _ _ _ _ _ _ _ _ _ _ h1
        have s2 := traverseInverse_pools _ _ _ _ _ _ h2
        exact samePools_trans base (samePools_trans s1 s2)

theorem maybeCheckpoint_pools (P : BParams CS) (c : Chain CS) (ht : Nat)
    (st : CS) (c' : Chain CS) (h : maybeCheckpoint P c ht st = some c') :
    samePools c c' := by
  simp only [maybeCheckpoint, bind, Option.bind_eq_some] at h
  obtain ⟨d, hd, h⟩ := h
  split at h
  · simp only [doCheckpoint, Option.some.injEq] at h
    rw [← h]
    constructor <;> split <;> rfl
  · simp only [Option.some.injEq] at h
    rw [← h]; exact samePools_refl c

theorem poRemoveObsolete_pools :
    ∀ (l : List Nat) (c : Chain CS), samePools c (poRemoveObsolete c l)
  | [], c => samePools_refl c
  | b :: rest, c => by
      simp only [poRemoveObsolete]
      exact samePools_trans (samePools_refl _) (poRemoveObsolete_pools rest _)

theorem poMarkRemaining_pools :
    ∀ (l : List (Nat × Nat × CS)) (c : Chain CS) (prev : List Nat)
      (c' : Chain CS) (prev' : List Nat),
      poMarkRemaining c l prev = some (c', prev') → samePools c c'
  | [], c, prev, c', prev', h => by
      simp only [poMarkRemaining, Option.some.injEq, Prod.mk.injEq] at h
      rw [← h.1]; exact samePools_refl c
  | (o, iv, st) :: rest, c, prev, c', prev', h => by
      simp only [poMarkRemaining, bind, Option.bind_eq_some] at h
      obtain ⟨v1, hv1, h⟩ := h
      have ih := poMarkRemaining_pools rest _ _ _ _ h
      exact samePools_trans ⟨rfl, rfl⟩ ih

theorem poScanOrphans_pools :
    ∀ (entries : List (Nat × Nat)) (c : Chain CS) (P : BParams CS)
      (prev newPrev obsolete : List Nat) (buf : List (Nat × Nat × CS))
      (c' : Chain CS) (np' ob' : List Nat) (buf' : List (Nat × Nat × CS)),
      poScanOrphans P c entries prev newPrev obsolete buf
        = some (c', np', ob', buf') → samePools c c'
  | [], c, P, prev, newPrev, obsolete, buf, c', np', ob', buf', h => by
      simp only [poScanOrphans, Option.some.injEq, Prod.mk.injEq] at h
      rw [← h.1]; exact samePools_refl c
  | (o, iH) :: rest, c, P, prev, newPrev, obsolete, buf, c', np', ob', buf',
      h => by
      simp only [poScanOrphans, bind, Option.bind_eq_some] at h
      obtain ⟨orphan, ho, op, hop, h⟩ := h
      split at h
      · split at h
        · have ih := poScanOrphans_pools rest _ _ _ _ _ _ _ _ _ _ h
          exact samePools_trans ⟨rfl, rfl⟩ ih
        · have ih := poScanOrphans_pools rest _ _ _ _ _ _ _ _ _ _ h
          exact samePools_trans ⟨rfl, rfl⟩ ih
      · split at h
        · simp only [Option.bind_eq_some] at h
          obtain ⟨ps, hps, h⟩ := h
          split at h
          · simp only [Option.bind_eq_some] at h
            obtain ⟨v1, hv1, v2, hv2, h⟩ := h
            have ih := poScanOrphans_pools rest _ _ _ _ _ _ _ _ _ _ h
            exact samePools_trans ⟨rfl, rfl⟩ ih
          · have ih := poScanOrphans_pools rest _ _ _ _ _ _ _ _ _ _ h
            exact samePools_trans ⟨rfl, rfl⟩ ih
        · have ih := poScanOrphans_pools rest _ _ _ _ _ _ _ _ _ _ h
          exact samePools_trans ⟨rfl, rfl⟩ ih

/-- `update_max_orphan_height` only touches `max_orphan_height`. -/
theorem updateMaxOrphanHeight_pools (c : Chain CS) (nh : Nat) :
    samePools c (updateMaxOrphanHeight c nh) := by
  unfold updateMaxOrphanHeight
  split
  · exact ⟨rfl, rfl⟩
  · split
    · exact ⟨rfl, rfl⟩
    · exact ⟨rfl, rfl⟩

/-- `write_block` puts the block in the store under its hash and evicts the
hash from the orphan pool. -/
theorem writeBlock_pools (c : Chain CS) (b : Block) (c' : Chain CS)
    (h : writeBlock c b = some c') :
    c'.dbBlocks = alInsert c.dbBlocks b.hash b ∧
    c'.orphanPool = alRemove c.orphanPool b.hash := by
  simp only [writeBlock, bind, Option.bind_eq_some] at h
  repeat' split at h
  all_goals try cases h
  all_goals try exact ⟨rfl, rfl⟩
  all_goals
    simp only [Option.bind_eq_some, Option.some.injEq] at h
  all_goals
    obtain ⟨st, hst, h⟩ := h
  all_goals rw [← h]; exact ⟨rfl, rfl⟩

/-- `write_orphan` leaves the store untouched and puts the orphan in the
pool under its hash. -/
theorem writeOrphan_pools (c : Chain CS) (o : Block) (t : OrphanType)
    (iv : Nat) :
    (writeOrphan c o t iv).dbBlocks = c.dbBlocks ∧
    (writeOrphan c o t iv).orphanPool = alInsert c.orphanPool o.hash o := by
  simp only [writeOrphan]
  repeat' split
  all_goals
    exact ⟨(updateMaxOrphanHeight_pools _ _).1, (updateMaxOrphanHeight_pools _ _).2⟩

theorem writeBlock_pres (c : Chain CS) (b : Block) (c' : Chain CS)
    (h : writeBlock c b = some c') :
    Pres c c' ∧ (WF c → seenOk c' b.hash) := by
  have hp := writeBlock_pools c b c' h
  exact pres_insert_db_remove_pool b hp.1 hp.2

theorem writeOrphan_pres (c : Chain CS) (o : Block) (t : OrphanType) (iv : Nat)
    (hnone : alGet c.dbBlocks o.hash = none) :
    Pres c (writeOrphan c o t iv) ∧ seenOk (writeOrphan c o t iv) o.hash := by
  have hp := writeOrphan_pools c o t iv
  exact pres_insert_pool o hnone hp.1 hp.2

/-- Stripping the canonical tip in `rewind`: the tip hash is evicted from
the store whether or not it was present, and the tip block enters the
pool. -/
theorem pres_strip_tip {c c' : Chain CS} (b : Block)
    (hdb : c'.dbBlocks = alRemove c.dbBlocks b.hash)
    (hpool : c'.orphanPool = alInsert c.orphanPool b.hash b) :
    Pres c c' := by
  intro hwf
  obtain ⟨⟨hnd1, hnd2⟩, hk1, hk2⟩ := hwf
  refine ⟨⟨⟨by rw [hdb]; exact alRemove_keys_nodup _ _ hnd1,
      by rw [hpool]; exact alInsert_keys_nodup _ _ _ hnd2⟩, ?_, ?_⟩, ?_⟩
  · intro p hp
    rw [hdb] at hp
    exact hk1 p (mem_alRemove _ _ _ hp)
  · intro p hp
    rw [hpool] at hp
    rcases mem_alInsert _ _ _ _ hp with h | h
    · rw [h]
    · exact hk2 p h
  · intro x
    by_cases hx : x = b.hash
    · subst hx
      constructor
      · intro _
        unfold seenOk
        rw [hdb, hpool, alGet_insert_self, alGet_remove_self_nodup _ _ hnd1]
        simp
      · intro hb2
        unfold inBoth at hb2
        rw [hdb, alGet_remove_self_nodup _ _ hnd1] at hb2
        simp at hb2
    · constructor
      · intro hs
        unfold seenOk at hs ⊢
        rw [hdb, hpool, alGet_insert_ne _ _ _ _ hx, alGet_remove_ne _ _ _ hx]
        exact hs
      · intro hb2
        unfold inBoth at hb2 ⊢
        rw [hdb, hpool, alGet_insert_ne _ _ _ _ hx, alGet_remove_ne _ _ _ hx] at hb2
        exact hb2

/-- Each `rewind` strip step moves one stored block into the pool; the
checkpoint cleanup in between does not touch the containers. -/
theorem rewindLoop_pres :
    ∀ (fuel : Nat) (c : Chain CS) (cur : Block) (bh iv : Nat) (c' : Chain CS),
      rewindLoop c cur bh iv fuel = some c' → Pres c c'
  | 0, _, _, _, _, _, h => by cases h
  | fuel + 1, c, cur, bh, iv, c', h => by
      unfold rewindLoop at h
      simp only [bind, Option.bind_eq_some] at h
      obtain ⟨ph, hph, h⟩ := h
      split at h
      · simp only [Option.some.injEq] at h
        rw [← h]; exact Pres_refl c
      · split at h
        · rw [Option.bind_eq_some] at h
          obtain ⟨d, hd, h⟩ := h
          split at h
          · rw [Option.bind_eq_some] at h
            obtain ⟨id0, hid, h⟩ := h
            simp only [Option.some_bind] at h
            split at h
            all_goals simp only [Option.some_bind, Option.bind_eq_some] at h
            all_goals obtain ⟨parent, hpar, h⟩ := h
            all_goals
              exact Pres_trans
                (pres_db_to_pool ph parent hpar
                  (updateMaxOrphanHeight_pools _ _).1
                  (updateMaxOrphanHeight_pools _ _).2)
                (rewindLoop_pres fuel _ _ _ _ _ h)
          · simp only [Option.some_bind] at h
            split at h
            all_goals simp only [Option.some_bind, Option.bind_eq_some] at h
            all_goals obtain ⟨parent, hpar, h⟩ := h
            all_goals
              exact Pres_trans
                (pres_db_to_pool ph parent hpar
                  (updateMaxOrphanHeight_pools _ _).1
                  (updateMaxOrphanHeight_pools _ _).2)
                (rewindLoop_pres fuel _ _ _ _ _ h)
        · simp only [Option.some_bind, Option.bind_eq_some] at h
          obtain ⟨parent, hpar, h⟩ := h
          exact Pres_trans
            (pres_db_to_pool ph parent hpar
              (updateMaxOrphanHeight_pools _ _).1
              (updateMaxOrphanHeight_pools _ _).2)
            (rewindLoop_pres fuel _ _ _ _ _ h)

/-- `rewind` preserves the container discipline. -/
theorem rewind_pres (P : BParams CS) (c : Chain CS) (bh fuel : Nat)
    (r : Except ChainErr Unit) (c' : Chain CS)
    (h : rewind P c bh fuel = some (r, c')) : Pres c c' := by
  simp only [rewind] at h
  split at h
  · simp only [Option.some.injEq, Prod.mk.injEq] at h
    rw [← h.2]; exact Pres_refl c
  · simp only [bind, Option.bind_eq_some] at h
    obtain ⟨c2, h2, st, hst, h3⟩ := h
    simp only [Option.some.injEq, Prod.mk.injEq] at h3
    rw [← h3.2]
    have ih := rewindLoop_pres fuel _ _ _ _ _ h2
    have s1 : Pres c
        (updateMaxOrphanHeight
          { c with
              dbBlocks := alRemove c.dbBlocks c.canonicalTip.hash,
              dbHeightIndex := alRemove c.dbHeightIndex c.canonicalTip.height,
              orphanPool := alInsert c.orphanPool c.canonicalTip.hash c.canonicalTip,
              validationsMapping := alInsert c.validationsMapping c.canonicalTip.hash
                OrphanType.validChainTip,
              validTips := sInsert c.validTips c.canonicalTip.hash,
              validTipsStates := alInsert c.validTipsStates c.canonicalTip.hash
                c.canonicalTipState,
              heightsMapping := hmInsert c.heightsMapping c.canonicalTip.height
                c.canonicalTip.hash 0 }
          c.canonicalTip.height) := by
      refine pres_strip_tip c.canonicalTip ?_ ?_
      · exact (updateMaxOrphanHeight_pools _ _).1
      · exact (updateMaxOrphanHeight_pools _ _).2
    exact Pres_trans s1 (Pres_trans ih (Pres_of_samePools ⟨rfl, rfl⟩))

/-- The branch-write loop of `attempt_switch` moves pooled blocks into the
store one `write_block` at a time. -/
theorem switchWriteAll_pres :
    ∀ (bs : List Block) (c : Chain CS) (horizon : Nat) (c' : Chain CS),
      switchWriteAll c horizon bs = some c' → Pres c c'
  | [], c, horizon, c', h => by
      simp only [switchWriteAll, Option.some.injEq] at h
      rw [← h]; exact Pres_refl c
  | b :: rest, c, horizon, c', h => by
      rw [switchWriteAll] at h
      split at h
      · exact switchWriteAll_pres rest _ _ _ h
      · simp only [bind, Option.bind_eq_some] at h
        obtain ⟨c1, h1, h2⟩ := h
        have p1 := (writeBlock_pres _ _ _ h1).1
        have p2 := switchWriteAll_pres rest _ _ _ h2
        exact Pres_trans (Pres_trans (Pres_of_samePools ⟨rfl, rfl⟩) p1) p2

/-- `attempt_switch` preserves the container discipline: it composes a
`rewind` with a branch write. -/
theorem attemptSwitch_pres (P : BParams CS) (c : Chain CS) (tip : Block)
    (fuel : Nat) (c' : Chain CS) (h : attemptSwitch P c tip fuel = some c') :
    Pres c c' := by
  simp only [attemptSwitch] at h
  split at h
  · cases h
  · split at h
    · cases h
    · split at h
      · cases h
      · split at h
        · simp only [bind, Option.bind_eq_some] at h
          obtain ⟨ph, hph, ⟨hor, toW⟩, hw, ⟨r, c1⟩, hr, h⟩ := h
          split at h
          · cases h
          · simp only [Option.bind_eq_some] at h
            obtain ⟨st, hst, h⟩ := h
            have p1 := rewind_pres P c hor fuel _ _ hr
            have p2 := switchWriteAll_pres _ _ _ _ h
            exact Pres_trans p1 (Pres_trans (Pres_of_samePools ⟨rfl, rfl⟩) p2)
        · simp only [Option.some.injEq] at h
          rw [← h]; exact Pres_refl c

/-- The `process_orphans` main loop preserves the container discipline. -/
theorem poLoop_pres :
    ∀ (fuel : Nat) (c : Chain CS) (P : BParams CS) (maxH h0 : Nat)
      (done : Bool) (prev : List Nat) (c' : Chain CS),
      poLoop P maxH c h0 done prev fuel = some c' → Pres c c'
  | 0, _, _, _, _, _, _, _, h => by cases h
  | fuel + 1, c, P, maxH, h0, done, prev, c', h => by
      unfold poLoop at h
      split at h
      · simp only [Option.some.injEq] at h
        rw [← h]; exact Pres_refl c
      · split at h
        · exact poLoop_pres fuel _ _ _ _ _ _ _ h
        · split at h
          · -- single orphan at this height
            simp only [bind, Option.bind_eq_some] at h
            obtain ⟨orphan, ho, ph2, hph2, h⟩ := h
            split at h
            · split at h
              · split at h
                · simp only [Option.bind_eq_some] at h
                  obtain ⟨c1, h1, c2, h2, c3, h3, h⟩ := h
                  have s1 := makeValidTips_pools _ _ _ _ _ _ h1
                  have s2 := (writeBlock_pres _ _ _ h2).1
                  have s3 := maybeCheckpoint_pools _ _ _ _ _ h3
                  have s4 := poLoop_pres fuel _ _ _ _ _ _ _ h
                  exact Pres_trans (Pres_of_samePools s1)
                    (Pres_trans s2 (Pres_trans (Pres_of_samePools s3)
                      (Pres_trans (Pres_of_samePools ⟨rfl, rfl⟩) s4)))
                · exact poLoop_pres fuel _ _ _ _ _ _ _ h
              · simp only [Option.some.injEq] at h
                rw [← h]; exact Pres_refl c
            · simp only [Option.some.injEq] at h
              rw [← h]; exact Pres_refl c
          · -- empty height entry
            split at h
            · simp only [Option.some.injEq] at h
              rw [← h]; exact Pres_refl c
            · split at h
              · exact poLoop_pres fuel _ _ _ _ _ _ _ h
              · simp only [Option.some.injEq] at h
                rw [← h]; exact Pres_refl c
          · -- two or more orphans at this height
            simp only [bind, Option.bind_eq_some] at h
            obtain ⟨⟨c1, newPrev, obsolete, buf⟩, h1, h⟩ := h
            have s1 := poScanOrphans_pools _ _ _ _ _ _ _ _ _ _ _ h1
            have s2 := @poRemoveObsolete_pools CS obsolete c1
            split at h
            · split at h
              · simp only [Option.some.injEq] at h
                rw [← h]
                exact Pres_trans (Pres_of_samePools s1) (Pres_of_samePools s2)
              · split at h
                · have s4 := poLoop_pres fuel _ _ _ _ _ _ _ h
                  exact Pres_trans (Pres_of_samePools s1)
                    (Pres_trans (Pres_of_samePools s2) s4)
                · simp only [Option.some.injEq] at h
                  rw [← h]
                  exact Pres_trans (Pres_of_samePools s1) (Pres_of_samePools s2)
            · split at h
              · split at h
                · -- write the deepest buffered orphan, then mark the rest
                  simp only [Option.some_bind, Option.bind_eq_some] at h
                  obtain ⟨tw, htw, ca, hca, cb, hcb, cc, hcc, ⟨c4, prev4⟩, h4,
                    h⟩ := h
                  have t1 := maybeCheckpoint_pools _ _ _ _ _ hca
                  have t2 := makeValidTips_pools _ _ _ _ _ _ hcb
                  have t3 := (writeBlock_pres _ _ _ hcc).1
                  have t4 := poMarkRemaining_pools _ _ _ _ _ h4
                  have t5 := poLoop_pres fuel _ _ _ _ _ _ _ h
                  exact Pres_trans (Pres_of_samePools s1)
                    (Pres_trans (Pres_of_samePools s2)
                      (Pres_trans (Pres_of_samePools t1)
                        (Pres_trans (Pres_of_samePools t2)
                          (Pres_trans (Pres_of_samePools ⟨rfl, rfl⟩)
                            (Pres_trans t3
                              (Pres_trans (Pres_of_samePools t4) t5))))))
                · simp only [Option.some_bind, Option.bind_eq_some] at h
                  obtain ⟨⟨c4, prev4⟩, h4, h⟩ := h
                  have t4 := poMarkRemaining_pools _ _ _ _ _ h4
                  have t5 := poLoop_pres fuel _ _ _ _ _ _ _ h
                  exact Pres_trans (Pres_of_samePools s1)
                    (Pres_trans (Pres_of_samePools s2)
                      (Pres_trans (Pres_of_samePools t4) t5))
              · simp only [Option.some_bind, Option.bind_eq_some] at h
                obtain ⟨⟨c4, prev4⟩, h4, h⟩ := h
                have t4 := poMarkRemaining_pools _ _ _ _ _ h4
                have t5 := poLoop_pres fuel _ _ _ _ _ _ _ h
                exact Pres_trans (Pres_of_samePools s1)
                  (Pres_trans (Pres_of_samePools s2)
                    (Pres_trans (Pres_of_samePools t4) t5))

/-- `process_orphans` preserves the container discipline. -/
theorem processOrphans_pres (P : BParams CS) (c : Chain CS)
    (startHeight fuel : Nat) (c' : Chain CS)
    (h : processOrphans P c startHeight fuel = some c') : Pres c c' := by
  unfold processOrphans at h
  split at h
  · simp only [Option.some.injEq] at h
    rw [← h]; exact Pres_refl c
  · exact poLoop_pres fuel _ _ _ _ _ _ _ h

/-- Transport of the exactly-one property along a discipline-preserving
step. -/
theorem Pres_seen {a b : Chain CS} (p : Pres a b) (hwf : WF a) (x : Nat)
    (hs : seenOk a x) : seenOk b x := ((p hwf).2 x).1 hs

/-- Shared shape of the error returns of `append_block`: the chain is handed
back unchanged. -/
theorem append_err_case (c c' : Chain CS) (x : Nat) (e : ChainErr)
    (r : Except ChainErr Unit) (hr : Except.error e = r) (hc : c = c') :
    Pres c c' ∧ (WF c → r = Except.ok () → seenOk c' x) := by
  subst hc
  refine ⟨Pres_refl c, ?_⟩
  intro _ hok
  rw [← hr] at hok
  cases hok

/-- Case (a) of `append_block` preserves the container discipline and, on
success, leaves the new block in exactly one container. -/
theorem appendExtendTip_pres (P : BParams CS) (c : Chain CS) (b : Block)
    (fuel : Nat) (r : Except ChainErr Unit) (c' : Chain CS)
    (h : appendExtendTip P c b fuel = some (r, c')) :
    Pres c c' ∧ (WF c → r = Except.ok () → seenOk c' b.hash) := by
  simp only [appendExtendTip] at h
  split at h
  · simp only [Option.some.injEq, Prod.mk.injEq] at h
    exact append_err_case _ _ _ _ _ h.1 h.2
  · split at h
    · simp only [Option.some.injEq, Prod.mk.injEq] at h
      exact append_err_case _ _ _ _ _ h.1 h.2
    · simp only [bind, Option.bind_eq_some] at h
      obtain ⟨c1, h1, c2, h2, c3, h3, h⟩ := h
      simp only [Option.some.injEq, Prod.mk.injEq] at h
      obtain ⟨hr, hc⟩ := h
      have p1 := writeBlock_pres _ _ _ h1
      have p4 := processOrphans_pres _ _ _ _ _ h3
      have pRest : Pres c1 c' := by
        rw [← hc]
        exact Pres_trans (Pres_of_samePools (maybeCheckpoint_pools _ _ _ _ _ h2))
          (Pres_trans (Pres_of_samePools ⟨rfl, rfl⟩) p4)
      refine ⟨Pres_trans p1.1 pRest, ?_⟩
      intro hwf _
      exact Pres_seen pRest ((p1.1 hwf).1) b.hash (p1.2 hwf)

/-- The tail of case (b): the fork block is written to the pool as a
`ValidChainTip`, after which only pool-neutral helpers and
`attempt_switch` run. -/
theorem appendCanonicalForkCont_pres (P : BParams CS) (c : Chain CS)
    (b : Block) (ps : CS) (fuel : Nat) (r : Except ChainErr Unit)
    (c' : Chain CS) (hnone : alGet c.dbBlocks b.hash = none)
    (h : appendCanonicalForkCont P c b ps fuel = some (r, c')) :
    Pres c c' ∧ (WF c → r = Except.ok () → seenOk c' b.hash) := by
  simp only [appendCanonicalForkCont] at h
  split at h
  · simp only [Option.some.injEq, Prod.mk.injEq] at h
    exact append_err_case _ _ _ _ _ h.1 h.2
  · rename_i st heq
    simp only [bind, Option.bind_eq_some] at h
    obtain ⟨⟨c2, tip, inv, status⟩, h2, h⟩ := h
    have p1 := writeOrphan_pres
      { c with validTipsStates := alInsert c.validTipsStates b.hash st }
      b OrphanType.validChainTip 0 hnone
    have q0 : Pres c
        { c with validTipsStates := alInsert c.validTipsStates b.hash st } :=
      Pres_of_samePools ⟨rfl, rfl⟩
    have s2 := attemptAttachValid_pools _ _ _ _ _ _ _ _ _ _ _ h2
    split at h
    · simp only [Option.some.injEq, Prod.mk.injEq] at h
      obtain ⟨hr, hc⟩ := h
      have pRest : Pres (writeOrphan
          { c with validTipsStates := alInsert c.validTipsStates b.hash st }
          b OrphanType.validChainTip 0) c' := by
        rw [← hc]
        exact Pres_of_samePools s2
      refine ⟨Pres_trans q0 (Pres_trans p1.1 pRest), ?_⟩
      intro hwf _
      exact Pres_seen pRest ((p1.1 hwf).1) b.hash p1.2
    · simp only [Option.bind_eq_some] at h
      obtain ⟨c3, h3, h⟩ := h
      simp only [Option.some.injEq, Prod.mk.injEq] at h
      obtain ⟨hr, hc⟩ := h
      have p4 := attemptSwitch_pres _ _ _ _ _ h3
      have pRest : Pres (writeOrphan
          { c with validTipsStates := alInsert c.validTipsStates b.hash st }
          b OrphanType.validChainTip 0) c' := by
        rw [← hc]
        exact Pres_trans (Pres_of_samePools s2) p4
      refine ⟨Pres_trans q0 (Pres_trans p1.1 pRest), ?_⟩
      intro hwf _
      exact Pres_seen pRest ((p1.1 hwf).1) b.hash p1.2

/-- Case (b) of `append_block` preserves the container discipline: the
checkpoint dispatch only reads state before handing over to the common
tail. -/
theorem appendCanonicalFork_pres (P : BParams CS) (c : Chain CS)
    (b pb : Block) (fuel : Nat) (r : Except ChainErr Unit) (c' : Chain CS)
    (hnone : alGet c.dbBlocks b.hash = none)
    (h : appendCanonicalFork P c b pb fuel = some (r, c')) :
    Pres c c' ∧ (WF c → r = Except.ok () → seenOk c' b.hash) := by
  simp only [appendCanonicalFork] at h
  split at h
  · simp only [Option.some.injEq, Prod.mk.injEq] at h
    exact append_err_case _ _ _ _ _ h.1 h.2
  · split at h
    · split at h
      · simp only [Option.some.injEq, Prod.mk.injEq] at h
        exact append_err_case _ _ _ _ _ h.1 h.2
      · split at h
        · simp only [bind, Option.bind_eq_some] at h
          obtain ⟨id0, hid, st, hst, h⟩ := h
          exact appendCanonicalForkCont_pres _ _ _ _ _ _ _ hnone h
        · split at h
          · simp only [bind, Option.bind_eq_some] at h
            obtain ⟨st, hst, h⟩ := h
            exact appendCanonicalForkCont_pres _ _ _ _ _ _ _ hnone h
          · simp only [bind, Option.bind_eq_some] at h
            obtain ⟨st, hst, h⟩ := h
            exact appendCanonicalForkCont_pres _ _ _ _ _ _ _ hnone h
    · simp only [bind, Option.bind_eq_some] at h
      obtain ⟨st, hst, h⟩ := h
      exact appendCanonicalForkCont_pres _ _ _ _ _ _ _ hnone h

/-- Case (c) of `append_block` preserves the container discipline and, on
success, leaves the new block in exactly one container. -/
theorem appendDisconnectedTipParent_pres (c : Chain CS) (b : Block)
    (ph fuel : Nat) (r : Except ChainErr Unit) (c' : Chain CS)
    (hnone : alGet c.dbBlocks b.hash = none)
    (h : appendDisconnectedTipParent c b ph fuel = some (r, c')) :
    Pres c c' ∧ (WF c → r = Except.ok () → seenOk c' b.hash) := by
  simp only [appendDisconnectedTipParent, bind, Option.bind_eq_some] at h
  obtain ⟨head, hhead, tips, htips, ⟨lh, lt⟩, hlh, ⟨status, c2⟩, h2, h⟩ := h
  split at h2
  · -- the new tip is the deepest of its fragment
    have p1 := writeOrphan_pres
      { c with
          validationsMapping := alInsert c.validationsMapping ph
            OrphanType.belongsToDisconnected,
          disconnectedHeadsMapping := alInsert c.disconnectedHeadsMapping head
            (sInsert (sRemove tips ph) b.hash),
          disconnectedTipsMapping := alRemove c.disconnectedTipsMapping ph,
          disconnectedHeadsHeights := alInsert c.disconnectedHeadsHeights head
            (b.height, b.hash) }
      b OrphanType.disconnectedTip 0 hnone
    have q0 : Pres c
        { c with
            validationsMapping := alInsert c.validationsMapping ph
              OrphanType.belongsToDisconnected,
            disconnectedHeadsMapping := alInsert c.disconnectedHeadsMapping head
              (sInsert (sRemove tips ph) b.hash),
            disconnectedTipsMapping := alRemove c.disconnectedTipsMapping ph,
            disconnectedHeadsHeights := alInsert c.disconnectedHeadsHeights head
              (b.height, b.hash) } :=
      Pres_of_samePools ⟨rfl, rfl⟩
    have s2 := attemptAttach_pools _ _ _ _ _ _ h2
    split at h
    · simp only [Option.bind_eq_some] at h
      obtain ⟨c3, h3, h⟩ := h
      simp only [Option.some.injEq, Prod.mk.injEq] at h
      obtain ⟨hr, hc⟩ := h
      have pLast : Pres c2 c' := by
        rw [← hc]
        exact Pres_of_samePools (traverseInverse_pools _ _ _ _ _ _ h3)
      have pTail := Pres_trans (Pres_of_samePools s2) pLast
      refine ⟨Pres_trans q0 (Pres_trans p1.1 pTail), ?_⟩
      intro hwf _
      exact Pres_seen pTail ((p1.1 hwf).1) b.hash p1.2
    · simp only [Option.bind_eq_some] at h
      obtain ⟨tips2, htips2, h⟩ := h
      simp only [Option.some.injEq, Prod.mk.injEq] at h
      obtain ⟨hr, hc⟩ := h
      have pLast : Pres c2 c' := by
        rw [← hc]
        exact Pres_of_samePools ⟨rfl, rfl⟩
      have pTail := Pres_trans (Pres_of_samePools s2) pLast
      refine ⟨Pres_trans q0 (Pres_trans p1.1 pTail), ?_⟩
      intro hwf _
      exact Pres_seen pTail ((p1.1 hwf).1) b.hash p1.2
  · have p1 := writeOrphan_pres
      { c with
          validationsMapping := alInsert c.validationsMapping ph
            OrphanType.belongsToDisconnected,
          disconnectedHeadsMapping := alInsert c.disconnectedHeadsMapping head
            (sInsert (sRemove tips ph) b.hash),
          disconnectedTipsMapping := alRemove c.disconnectedTipsMapping ph }
      b OrphanType.disconnectedTip 0 hnone
    have q0 : Pres c
        { c with
            validationsMapping := alInsert c.validationsMapping ph
              OrphanType.belongsToDisconnected,
            disconnectedHeadsMapping := alInsert c.disconnectedHeadsMapping head
              (sInsert (sRemove tips ph) b.hash),
            disconnectedTipsMapping := alRemove c.disconnectedTipsMapping ph } :=
      Pres_of_samePools ⟨rfl, rfl⟩
    have s2 := attemptAttach_pools _ _ _ _ _ _ h2
    split at h
    · simp only [Option.bind_eq_some] at h
      obtain ⟨c3, h3, h⟩ := h
      simp only [Option.some.injEq, Prod.mk.injEq] at h
      obtain ⟨hr, hc⟩ := h
      have pLast : Pres c2 c' := by
        rw [← hc]
        exact Pres_of_samePools (traverseInverse_pools _ _ _ _ _ _ h3)
      have pTail := Pres_trans (Pres_of_samePools s2) pLast
      refine ⟨Pres_trans q0 (Pres_trans p1.1 pTail), ?_⟩
      intro hwf _
      exact Pres_seen pTail ((p1.1 hwf).1) b.hash p1.2
    · simp only [Option.bind_eq_some] at h
      obtain ⟨tips2, htips2, h⟩ := h
      simp only [Option.some.injEq, Prod.mk.injEq] at h
      obtain ⟨hr, hc⟩ := h
      have pLast : Pres c2 c' := by
        rw [← hc]
        exact Pres_of_samePools ⟨rfl, rfl⟩
      have pTail := Pres_trans (Pres_of_samePools s2) pLast
      refine ⟨Pres_trans q0 (Pres_trans p1.1 pTail), ?_⟩
      intro hwf _
      exact Pres_seen pTail ((p1.1 hwf).1) b.hash p1.2

/-- Case (d) of `append_block` preserves the container discipline and, on
success, leaves the new block in exactly one container. -/
theorem appendValidTipParent_pres (P : BParams CS) (c : Chain CS) (b : Block)
    (ph fuel : Nat) (r : Except ChainErr Unit) (c' : Chain CS)
    (hnone : alGet c.dbBlocks b.hash = none)
    (h : appendValidTipParent P c b ph fuel = some (r, c')) :
    Pres c c' ∧ (WF c → r = Except.ok () → seenOk c' b.hash) := by
  simp only [appendValidTipParent, bind, Option.bind_eq_some] at h
  obtain ⟨st0, hst0, h⟩ := h
  split at h
  · simp only [Option.some.injEq, Prod.mk.injEq] at h
    exact append_err_case _ _ _ _ _ h.1 h.2
  · rename_i st heq
    simp only [bind, Option.bind_eq_some] at h
    obtain ⟨⟨c2, tip, inv, status⟩, h2, c3, h3, c6, h6, h⟩ := h
    simp only [Option.some.injEq, Prod.mk.injEq] at h
    obtain ⟨hr, hc⟩ := h
    have p1 := writeOrphan_pres
      { c with
          validTipsStates := alInsert c.validTipsStates ph st,
          validationsMapping := alInsert c.validationsMapping ph
            OrphanType.belongsToValidChain }
      b OrphanType.validChainTip 0 hnone
    have q0 : Pres c
        { c with
            validTipsStates := alInsert c.validTipsStates ph st,
            validationsMapping := alInsert c.validationsMapping ph
              OrphanType.belongsToValidChain } :=
      Pres_of_samePools ⟨rfl, rfl⟩
    have s2 := attemptAttachValid_pools _ _ _ _ _ _ _ _ _ _ _ h2
    have s3 := traverseInverse_pools _ _ _ _ _ _ h3
    have pLast : Pres c3 c' := by
      rw [← hc]
      split at h6
      · have p5 := attemptSwitch_pres _ _ _ _ _ h6
        exact Pres_trans (Pres_of_samePools ⟨rfl, rfl⟩) p5
      · have p5 := attemptSwitch_pres _ _ _ _ _ h6
        exact Pres_trans (Pres_of_samePools ⟨rfl, rfl⟩) p5
    have pTail := Pres_trans (Pres_of_samePools s2)
      (Pres_trans (Pres_of_samePools s3) pLast)
    refine ⟨Pres_trans q0 (Pres_trans p1.1 pTail), ?_⟩
    intro hwf _
    exact Pres_seen pTail ((p1.1 hwf).1) b.hash p1.2

/-- Case (e), disconnected flavour, preserves the container discipline and,
on success, leaves the new block in exactly one container. -/
theorem appendBelongsDisconnectedParent_pres (c : Chain CS) (b : Block)
    (ph fuel : Nat) (r : Except ChainErr Unit) (c' : Chain CS)
    (hnone : alGet c.dbBlocks b.hash = none)
    (h : appendBelongsDisconnectedParent c b ph fuel = some (r, c')) :
    Pres c c' ∧ (WF c → r = Except.ok () → seenOk c' b.hash) := by
  simp only [appendBelongsDisconnectedParent, bind, Option.bind_eq_some] at h
  obtain ⟨head, hhead, tips, htips, ⟨status, c2⟩, h2, h⟩ := h
  have p1 := writeOrphan_pres c b OrphanType.disconnectedTip 0 hnone
  have s2 := attemptAttach_pools _ _ _ _ _ _ h2
  split at h
  · simp only [Option.bind_eq_some] at h
    obtain ⟨c3, h3, h⟩ := h
    simp only [Option.some.injEq, Prod.mk.injEq] at h
    obtain ⟨hr, hc⟩ := h
    have pLast : Pres c2 c' := by
      rw [← hc]
      have s3 := traverseInverse_pools _ _ _ _ _ _ h3
      exact Pres_trans (Pres_of_samePools ⟨rfl, rfl⟩) (Pres_of_samePools s3)
    have pTail := Pres_trans (Pres_of_samePools s2) pLast
    refine ⟨Pres_trans p1.1 pTail, ?_⟩
    intro hwf _
    exact Pres_seen pTail ((p1.1 hwf).1) b.hash p1.2
  · simp only [Option.bind_eq_some] at h
    obtain ⟨tips2, htips2, h⟩ := h
    simp only [Option.some.injEq, Prod.mk.injEq] at h
    obtain ⟨hr, hc⟩ := h
    have pLast : Pres c2 c' := by
      rw [← hc]
      exact Pres_of_samePools ⟨rfl, rfl⟩
    have pTail := Pres_trans (Pres_of_samePools s2) pLast
    refine ⟨Pres_trans p1.1 pTail, ?_⟩
    intro hwf _
    exact Pres_seen pTail ((p1.1 hwf).1) b.hash p1.2

/-- Case (e), valid flavour, preserves the container discipline and, on
success, leaves the new block in exactly one container. -/
theorem appendBelongsValidParent_pres (P : BParams CS) (c : Chain CS)
    (b : Block) (ph fuel : Nat) (r : Except ChainErr Unit) (c' : Chain CS)
    (hnone : alGet c.dbBlocks b.hash = none)
    (h : appendBelongsValidParent P c b ph fuel = some (r, c')) :
    Pres c c' ∧ (WF c → r = Except.ok () → seenOk c' b.hash) := by
  simp only [appendBelongsValidParent, bind, Option.bind_eq_some] at h
  obtain ⟨⟨visited, rootHash⟩, hw, head, hh, hm1, hhm1, st0, hst0, h⟩ := h
  split at h
  · simp only [Option.some.injEq, Prod.mk.injEq] at h
    exact append_err_case _ _ _ _ _ h.1 h.2
  · rename_i st heq
    simp only [bind, Option.bind_eq_some] at h
    obtain ⟨⟨c2, tip, inv, status⟩, h2, c3, h3, c4, h4, h⟩ := h
    simp only [Option.some.injEq, Prod.mk.injEq] at h
    obtain ⟨hr, hc⟩ := h
    have q0 : Pres c
        { c with
            validTips := sInsert c.validTips b.hash,
            validTipsStates := alInsert c.validTipsStates b.hash st } :=
      Pres_of_samePools ⟨rfl, rfl⟩
    have s2 := attemptAttachValid_pools _ _ _ _ _ _ _ _ _ _ _ h2
    have hn2 : alGet c2.dbBlocks b.hash = none := by
      rw [s2.1]; exact hnone
    have p1 := writeOrphan_pres c2 b status inv hn2
    have s3 := traverseInverse_pools _ _ _ _ _ _ h3
    have p5 := attemptSwitch_pres _ _ _ _ _ h4
    have pLast : Pres c3 c' := by
      rw [← hc]; exact p5
    have pTail := Pres_trans (Pres_of_samePools s3) pLast
    refine ⟨Pres_trans q0 (Pres_trans (Pres_of_samePools s2)
      (Pres_trans p1.1 pTail)), ?_⟩
    intro hwf _
    have hwf2 : WF c2 :=
      ((Pres_trans q0 (Pres_of_samePools s2)) hwf).1
    exact Pres_seen pTail ((p1.1 hwf2).1) b.hash p1.2

/-- Case (f) of `append_block` preserves the container discipline and, on
success, leaves the new block in exactly one container (the orphan pool). -/
theorem appendUnknownParent_pres (P : BParams CS) (c : Chain CS) (b : Block)
    (ph fuel : Nat) (r : Except ChainErr Unit) (c' : Chain CS)
    (hnone : alGet c.dbBlocks b.hash = none)
    (h : appendUnknownParent P c b ph fuel = some (r, c')) :
    Pres c c' ∧ (WF c → r = Except.ok () → seenOk c' b.hash) := by
  simp only [appendUnknownParent, bind, Option.bind_eq_some] at h
  obtain ⟨⟨status, c2⟩, h2, fm, hfm, h⟩ := h
  have p1 : Pres c
      { c with
          disconnectedHeadsMapping := alInsert c.disconnectedHeadsMapping
            b.hash [b.hash],
          disconnectedTipsMapping := alInsert c.disconnectedTipsMapping
            b.hash b.hash,
          disconnectedHeadsHeights := alInsert c.disconnectedHeadsHeights
            b.hash (b.height, b.hash),
          heightsMapping := hmInsert c.heightsMapping b.height b.hash 0,
          orphanPool := alInsert c.orphanPool b.hash b } ∧
      seenOk
        { c with
            disconnectedHeadsMapping := alInsert c.disconnectedHeadsMapping
              b.hash [b.hash],
            disconnectedTipsMapping := alInsert c.disconnectedTipsMapping
              b.hash b.hash,
            disconnectedHeadsHeights := alInsert c.disconnectedHeadsHeights
              b.hash (b.height, b.hash),
            heightsMapping := hmInsert c.heightsMapping b.height b.hash 0,
            orphanPool := alInsert c.orphanPool b.hash b } b.hash :=
    pres_insert_pool b hnone rfl rfl
  have s2 := attemptAttach_pools _ _ _ _ _ _ h2
  have hn2 : alGet c2.dbBlocks b.hash = none := by
    rw [s2.1]; exact hnone
  split at h
  · -- a valid tip adopts the fragment
    simp only [Option.bind_eq_some] at h
    obtain ⟨ts, hts, ⟨c3, t3, i3, s3st⟩, h3, h⟩ := h
    simp only [Option.some.injEq, Prod.mk.injEq] at h
    obtain ⟨hr, hc⟩ := h
    have p2 := writeOrphan_pres c2 b status 0 hn2
    have s3 := attemptAttachValid_pools _ _ _ _ _ _ _ _ _ _ _ h3
    have pLast : Pres (writeOrphan c2 b status 0) c' := by
      rw [← hc]; exact Pres_of_samePools s3
    refine ⟨Pres_trans p1.1 (Pres_trans (Pres_of_samePools s2)
      (Pres_trans p2.1 pLast)), ?_⟩
    intro hwf _
    have hwf2 : WF c2 :=
      ((Pres_trans p1.1 (Pres_of_samePools s2)) hwf).1
    exact Pres_seen pLast ((p2.1 hwf2).1) b.hash p2.2
  · simp only [Option.some.injEq, Prod.mk.injEq] at h
    obtain ⟨hr, hc⟩ := h
    have p2 := writeOrphan_pres c2 b status 0 hn2
    have pLast : Pres (writeOrphan c2 b status 0) c' := by
      rw [← hc]; exact Pres_refl _
    refine ⟨Pres_trans p1.1 (Pres_trans (Pres_of_samePools s2)
      (Pres_trans p2.1 pLast)), ?_⟩
    intro hwf _
    have hwf2 : WF c2 :=
      ((Pres_trans p1.1 (Pres_of_samePools s2)) hwf).1
    exact Pres_seen pLast ((p2.1 hwf2).1) b.hash p2.2

/-- `append_block` preserves the container discipline and, on `Ok`, leaves
the appended block's hash in exactly one container. -/
theorem appendBlock_pres (P : BParams CS) (c : Chain CS) (b : Block)
    (fuel : Nat) (r : Except ChainErr Unit) (c' : Chain CS)
    (h : appendBlock P c b fuel = some (r, c')) :
    Pres c c' ∧ (WF c → r = Except.ok () → seenOk c' b.hash) := by
  simp only [appendBlock] at h
  split at h
  all_goals split at h
  all_goals try simp only [Option.some.injEq, Prod.mk.injEq] at h
  all_goals try exact append_err_case _ _ _ _ _ h.1 h.2
  all_goals split at h
  all_goals try simp only [Option.some.injEq, Prod.mk.injEq] at h
  all_goals try exact append_err_case _ _ _ _ _ h.1 h.2
  all_goals (
    rename_i hgate
    rw [not_or] at hgate
    have hnone : alGet c.dbBlocks b.hash = none :=
      Option.not_isSome_iff_eq_none.mp hgate.2
    split at h
    · simp only [Option.some.injEq, Prod.mk.injEq] at h
      exact append_err_case _ _ _ _ _ h.1 h.2
    · split at h
      · exact appendExtendTip_pres _ _ _ _ _ _ h
      · split at h
        · simp only [Option.some.injEq, Prod.mk.injEq] at h
          exact append_err_case _ _ _ _ _ h.1 h.2
        · split at h
          · exact appendCanonicalFork_pres _ _ _ _ _ _ _ hnone h
          · split at h
            · split at h
              · simp only [Option.some.injEq, Prod.mk.injEq] at h
                exact append_err_case _ _ _ _ _ h.1 h.2
              · split at h
                · cases h
                · exact appendDisconnectedTipParent_pres _ _ _ _ _ _
                    hnone h
                · exact appendValidTipParent_pres _ _ _ _ _ _ _ hnone h
                · exact appendBelongsDisconnectedParent_pres _ _ _ _ _ _
                    hnone h
                · exact appendBelongsValidParent_pres _ _ _ _ _ _ _
                    hnone h
            · exact appendUnknownParent_pres _ _ _ _ _ _ _ hnone h)

/-- An engine call, for quantifying over call sequences. -/
inductive ChainOp where
  | append (b : Block)
  | rewindTo (target : Nat)

/-- Run a sequence of `append_block` / `rewind` calls from a chain state,
accumulating the hashes of the blocks `append_block` accepted (`Ok`). -/
def runOps (P : BParams CS) (fuel : Nat) :
    Chain CS → List ChainOp → List Nat → Option (Chain CS × List Nat)
  | c, [], seen => some (c, seen)
  | c, ChainOp.append b :: rest, seen => do
      let (r, c1) ← appendBlock P c b fuel
      match r with
      | Except.ok _ => runOps P fuel c1 rest (b.hash :: seen)
      | Except.error _ => runOps P fuel c1 rest seen
  | c, ChainOp.rewindTo t :: rest, seen => do
      let (_r, c1) ← rewind P c t fuel
      runOps P fuel c1 rest seen

/-- The container discipline is preserved along any call sequence: keys stay
duplicate-free and pinned to block hashes, accepted hashes stay in exactly
one container, and no hash enters both. -/
theorem runOps_pres (P : BParams CS) (fuel : Nat) :
    ∀ (ops : List ChainOp) (c : Chain CS) (seen : List Nat)
      (c' : Chain CS) (seen' : List Nat),
      runOps P fuel c ops seen = some (c', seen') →
      WF c → (∀ x ∈ seen, seenOk c x) →
      WF c' ∧ (∀ x ∈ seen', seenOk c' x) ∧ (∀ x, inBoth c' x → inBoth c x)
  | [], c, seen, c', seen', h, hwf, hseen => by
      simp only [runOps, Option.some.injEq, Prod.mk.injEq] at h
      obtain ⟨hc, hs⟩ := h
      subst hc; subst hs
      exact ⟨hwf, hseen, fun _ => id⟩
  | ChainOp.append b :: rest, c, seen, c', seen', h, hwf, hseen => by
      simp only [runOps, bind, Option.bind_eq_some] at h
      obtain ⟨⟨r, c1⟩, h1, h⟩ := h
      have p := appendBlock_pres _ _ _ _ _ _ h1
      have hwf1 : WF c1 := (p.1 hwf).1
      split at h
      · -- accepted: the block's hash joins the seen set
        rename_i val heq
        have hseen1 : ∀ x ∈ b.hash :: seen, seenOk c1 x := by
          intro x hx
          rcases List.mem_cons.mp hx with hx | hx
          · subst hx; exact p.2 hwf heq
          · exact Pres_seen p.1 hwf x (hseen x hx)
        have ih := runOps_pres P fuel rest c1 (b.hash :: seen) c' seen'
          h hwf1 hseen1
        exact ⟨ih.1, ih.2.1,
          fun x hb => ((p.1 hwf).2 x).2 (ih.2.2 x hb)⟩
      · have hseen1 : ∀ x ∈ seen, seenOk c1 x :=
          fun x hx => Pres_seen p.1 hwf x (hseen x hx)
        have ih := runOps_pres P fuel rest c1 seen c' seen' h hwf1 hseen1
        exact ⟨ih.1, ih.2.1,
          fun x hb => ((p.1 hwf).2 x).2 (ih.2.2 x hb)⟩
  | ChainOp.rewindTo t :: rest, c, seen, c', seen', h, hwf, hseen => by
      simp only [runOps, bind, Option.bind_eq_some] at h
      obtain ⟨⟨r, c1⟩, h1, h⟩ := h
      have p := rewind_pres _ _ _ _ _ _ h1
      have hwf1 : WF c1 := (p hwf).1
      have hseen1 : ∀ x ∈ seen, seenOk c1 x :=
        fun x hx => Pres_seen p hwf x (hseen x hx)
      have ih := runOps_pres P fuel rest c1 seen c' seen' h hwf1 hseen1
      exact ⟨ih.1, ih.2.1, fun x hb => ((p hwf).2 x).2 (ih.2.2 x hb)⟩

/-- The empty chain satisfies the container well-formedness. -/
theorem WF_freshChain (P : BParams CS) : WF (freshChain P) := by
  refine ⟨⟨?_, ?_⟩, ?_, ?_⟩ <;> simp [freshChain]

/-- C7: after every sequence of `append_block` and `rewind` operations from
a fresh chain, every hash the engine accepted is in exactly one of the
canonical store and the orphan pool (`query` XOR pool membership), and no
hash whatsoever is in both. -/
theorem appendBlock_rewind_disjointness (P : BParams CS) (fuel : Nat)
    (ops : List ChainOp) (c' : Chain CS) (seen' : List Nat)
    (h : runOps P fuel (freshChain P) ops [] = some (c', seen')) :
    (∀ x ∈ seen',
      (query c' x).isSome ≠ (alGet c'.orphanPool x).isSome) ∧
    ∀ x, ¬ ((query c' x).isSome = true ∧
      (alGet c'.orphanPool x).isSome = true) := by
  have run := runOps_pres P fuel ops (freshChain P) [] c' seen' h
    (WF_freshChain P) (by intro x hx; cases hx)
  refine ⟨fun x hx => run.2.1 x hx, fun x hb => ?_⟩
  have hfresh := run.2.2 x ⟨hb.1, hb.2⟩
  have : (alGet (freshChain P).dbBlocks x).isSome = true := hfresh.1
  simp [freshChain, alGet] at this

/-- Concrete final state of a one-append run from the fresh chain (the
accepted block ⟨1, some 0, 1⟩ lands in the canonical store). -/
def c7Final : Chain Nat where
  dbBlocks := [(1, ⟨1, some 0, 1⟩)]
  dbHeightIndex := [(1, 1)]
  dbBlockHeights := [(1, 1)]
  dbCanonicalHeight := 1
  height := 1
  canonicalTip := ⟨1, some 0, 1⟩
  canonicalTipState := 1
  orphanPool := []
  maxOrphanHeight := none
  heightsMapping := []
  diskHeightsCheckpoints := []
  lastCheckpointHeight := none
  earliestCheckpointHeight := none
  validationsMapping := []
  disconnectedHeadsMapping := []
  disconnectedHeadsHeights := []
  disconnectedTipsMapping := []
  validTips := []
  validTipsStates := []
  archivalMode := true
  checkpointStore := []
  nextCheckpointId := 0

/-- C7 witness: a concrete accepted append from the fresh chain, with the
disjointness conclusion instantiated at the resulting state. -/
theorem appendBlock_rewind_disjointness_witness :
    runOps testParams 20 (freshChain testParams)
      [ChainOp.append ⟨1, some 0, 1⟩] [] = some (c7Final, [1]) ∧
    ((∀ x ∈ [1],
        (query c7Final x).isSome ≠ (alGet c7Final.orphanPool x).isSome) ∧
      ∀ x, ¬ ((query c7Final x).isSome = true ∧
        (alGet c7Final.orphanPool x).isSome = true)) :=
  ⟨by decide, appendBlock_rewind_disjointness testParams 20
      [ChainOp.append ⟨1, some 0, 1⟩] c7Final [1] (by decide)⟩

/-! ## C3: `rewind` semantics

Helper facts about association lists built by `map` over a block list, and
about `chainLinked` chains, used to characterise `rewind` on a canonical
linear chain. -/

theorem alGet_append_last {α : Type} (l : List (Nat × α)) (k : Nat) (v : α)
    (h : k ∉ l.map Prod.fst) : alGet (l ++ [(k, v)]) k = some v := by
  induction l with
  | nil => simp [alGet]
  | cons p t ih =>
      obtain ⟨k0, v0⟩ := p
      simp only [List.map_cons, List.mem_cons, not_or] at h
      have hne : ¬ k0 = k := fun hh => h.1 hh.symm
      simp only [List.cons_append, alGet, if_neg hne]
      exact ih h.2

theorem alRemove_append_last {α : Type} (l : List (Nat × α)) (k : Nat) (v : α)
    (h : k ∉ l.map Prod.fst) : alRemove (l ++ [(k, v)]) k = l := by
  induction l with
  | nil => simp [alRemove]
  | cons p t ih =>
      obtain ⟨k0, v0⟩ := p
      simp only [List.map_cons, List.mem_cons, not_or] at h
      have hne : ¬ k0 = k := fun hh => h.1 hh.symm
      simp only [List.cons_append, alRemove, if_neg hne]
      exact congrArg ((k0, v0) :: ·) (ih h.2)

/-- Every block in a linked chain is strictly higher than the root. -/
theorem chainLinked_gt :
    ∀ (l : List Block) (g : Block), chainLinked g l →
      ∀ x ∈ l, g.height < x.height
  | [], g, _, x, hx => by cases hx
  | b :: t, g, h, x, hx => by
      obtain ⟨hp, hh, hrest⟩ := h
      rcases List.mem_cons.mp hx with hx | hx
      · subst hx; omega
      · have := chainLinked_gt t b hrest x hx
        omega

/-- A linked chain restricted to a prefix is still linked. -/
theorem chainLinked_prefix :
    ∀ (l l' : List Block) (g : Block), chainLinked g (l ++ l') →
      chainLinked g l
  | [], _, _, _ => trivial
  | b :: t, l', g, h => by
      obtain ⟨hp, hh, hrest⟩ := h
      exact ⟨hp, hh, chainLinked_prefix t l' b hrest⟩

/-- The last block of a linked chain links to the block before it (the root
when the rest is empty), one height above. -/
theorem chainLinked_last :
    ∀ (l : List Block) (g b : Block), chainLinked g (l ++ [b]) →
      b.parentHash = some ((l.getLast?).getD g).hash ∧
      b.height = ((l.getLast?).getD g).height + 1
  | [], g, b, h => by
      obtain ⟨hp, hh, -⟩ := h
      exact ⟨hp, hh⟩
  | a :: t, g, b, h => by
      obtain ⟨hp, hh, hrest⟩ := h
      have ih := chainLinked_last t a b hrest
      have he : (((a :: t).getLast?).getD g) = ((t.getLast?).getD a) := by
        cases t with
        | nil => simp
        | cons c t' =>
            have hs : (c :: t').getLast?.isSome := by
              rw [List.getLast?_isSome]
              simp
            obtain ⟨x, hx⟩ := Option.isSome_iff_exists.mp hs
            rw [List.getLast?_cons_cons, hx]
            simp
      rw [he]
      exact ih

/-- Everything before the last block of a linked chain sits strictly below
it. -/
theorem chainLinked_lt_last :
    ∀ (l : List Block) (g b : Block), chainLinked g (l ++ [b]) →
      ∀ x ∈ l, x.height < b.height
  | [], _, _, _, x, hx => by cases hx
  | a :: t, g, b, h, x, hx => by
      obtain ⟨hp, hh, hrest⟩ := h
      rcases List.mem_cons.mp hx with hx | hx
      · subst hx
        have := chainLinked_gt (t ++ [b]) x hrest b (by simp)
        omega
      · exact chainLinked_lt_last t a b hrest x hx

/-- `update_max_orphan_height` is the identity when the new height does not
exceed the recorded maximum. -/
theorem updateMaxOrphanHeight_le (c : Chain CS) (nh M : Nat)
    (h : c.maxOrphanHeight = some M) (hle : nh ≤ M) :
    updateMaxOrphanHeight c nh = c := by
  unfold updateMaxOrphanHeight
  rw [h]
  have hng : ¬ nh > M := by omega
  simp [hng]

/-- The strip loop of `rewind` on a canonical linear chain: walking from
`cur` down to the block before the loop target strips exactly the blocks
above the target out of the store and the height index, files each of them
in the orphan pool as `BelongsToValidChain` with its inverse height in
`heights_mapping`, and touches nothing else. -/
theorem rewindLoop_linear (g : Block) (pre : List Block) :
    ∀ (suf : List Block) (c : Chain CS) (cur : Block) (inv fuel M : Nat),
      suf.length + 1 ≤ fuel →
      c.dbBlocks = (pre ++ suf).map (fun b => (b.hash, b)) →
      c.dbHeightIndex = (pre ++ suf).map (fun b => (b.height, b.hash)) →
      chainLinked g (pre ++ suf ++ [cur]) →
      ((g :: (pre ++ suf ++ [cur])).map Block.hash).Nodup →
      c.lastCheckpointHeight = none →
      c.maxOrphanHeight = some M →
      cur.height ≤ M + 1 →
      (∀ b ∈ suf, alGet c.heightsMapping b.height = none) →
      ∃ c', rewindLoop c cur ((pre.getLast?).getD g).hash inv fuel = some c' ∧
        c'.dbBlocks = pre.map (fun b => (b.hash, b)) ∧
        c'.dbHeightIndex = pre.map (fun b => (b.height, b.hash)) ∧
        (∀ b ∈ suf, alGet c'.orphanPool b.hash = some b ∧
          alGet c'.validationsMapping b.hash =
            some OrphanType.belongsToValidChain ∧
          ∃ e, alGet c'.heightsMapping b.height = some e ∧
            alGet e b.hash = some (inv + (cur.height - 1 - b.height))) ∧
        (∀ x, x ∉ suf.map Block.hash →
          alGet c'.orphanPool x = alGet c.orphanPool x ∧
          alGet c'.validationsMapping x = alGet c.validationsMapping x) ∧
        (∀ ht, (∀ b ∈ suf, ht ≠ b.height) →
          alGet c'.heightsMapping ht = alGet c.heightsMapping ht) ∧
        c'.validTips = c.validTips ∧
        c'.validTipsStates = c.validTipsStates ∧
        c'.canonicalTip = c.canonicalTip ∧
        c'.canonicalTipState = c.canonicalTipState ∧
        c'.height = c.height ∧
        c'.dbCanonicalHeight = c.dbCanonicalHeight ∧
        c'.dbBlockHeights = c.dbBlockHeights ∧
        c'.maxOrphanHeight = some M ∧
        c'.lastCheckpointHeight = none ∧
        c'.earliestCheckpointHeight = c.earliestCheckpointHeight := by
  intro suf
  induction suf using List.reverseRecOn with
  | nil =>
      intro c cur inv fuel M hfuel hdb hhi hlink hnd hcp hmx hM hhm
      obtain ⟨hp, hh⟩ := chainLinked_last pre g cur (by simpa using hlink)
      match fuel, hfuel with
      | fm + 1, _ =>
        refine ⟨c, ?_, by simpa using hdb, by simpa using hhi,
          ?_, ?_, ?_, rfl, rfl, rfl, rfl, rfl, rfl, rfl, hmx, hcp, rfl⟩
        · unfold rewindLoop
          rw [hp]
          simp only [bind, Option.some_bind]
          simp
        · intro b hb; cases hb
        · intro x _; exact ⟨rfl, rfl⟩
        · intro ht _; rfl
  | append_singleton s p ih =>
      intro c cur inv fuel M hfuel hdb hhi hlink hnd hcp hmx hM hhm
      have hlinkps : chainLinked g ((pre ++ s) ++ [p]) :=
        chainLinked_prefix _ [cur] g (by simpa [List.append_assoc] using hlink)
      obtain ⟨hpp, hph⟩ := chainLinked_last (pre ++ s) g p hlinkps
      have hglp : ((pre ++ (s ++ [p])).getLast?).getD g = p := by simp
      obtain ⟨hcur, hch⟩ := chainLinked_last (pre ++ (s ++ [p])) g cur
        (by simpa [List.append_assoc] using hlink)
      rw [hglp] at hcur hch
      have hlt : ∀ x ∈ pre ++ s, x.height < p.height :=
        chainLinked_lt_last (pre ++ s) g p hlinkps
      have hndX : (((g :: (pre ++ s)).map Block.hash ++ [p.hash] ++
          [cur.hash]).Nodup) := by
        have : (g :: (pre ++ (s ++ [p]) ++ [cur])).map Block.hash =
            (g :: (pre ++ s)).map Block.hash ++ [p.hash] ++ [cur.hash] := by
          simp
        rw [← this]; exact hnd
      have hfresh_p : p.hash ∉ (g :: (pre ++ s)).map Block.hash := by
        intro hmem
        rcases List.nodup_append.mp ((List.append_assoc _ _ _) ▸ hndX)
          with ⟨h1, h2, hdisj⟩
        exact hdisj hmem (by simp)
      have hfresh_ps : p.hash ∉ (pre ++ s).map Block.hash := by
        intro hmem
        apply hfresh_p
        simp only [List.map_cons, List.mem_cons]
        exact Or.inr hmem
      have htgtmem : ((pre.getLast?).getD g) ∈ g :: pre := by
        cases hgl : pre.getLast? with
        | none => simp
        | some x =>
            have hmem : x ∈ pre.getLast? := Option.mem_def.mpr hgl
            obtain ⟨hne0, hx⟩ := List.mem_getLast?_eq_getLast hmem
            subst hx
            simp only [Option.getD_some, List.mem_cons]
            exact Or.inr (List.getLast_mem hne0)
      have hne : ¬ p.hash = ((pre.getLast?).getD g).hash := by
        intro hcontra
        apply hfresh_p
        have hmem2 : ((pre.getLast?).getD g).hash ∈
            (g :: (pre ++ s)).map Block.hash := by
          rcases List.mem_cons.mp htgtmem with hx | hx
          · rw [hx]; simp
          · simp only [List.map_cons, List.mem_cons, List.map_append,
              List.mem_append]
            right; left
            exact List.mem_map_of_mem _ hx
        rw [hcontra]; exact hmem2
      have hlookup : alGet c.dbBlocks p.hash = some p := by
        rw [hdb]
        have hsh : (pre ++ (s ++ [p])).map (fun b => (b.hash, b)) =
            ((pre ++ s).map (fun b => (b.hash, b))) ++ [(p.hash, p)] := by
          simp
        rw [hsh]
        refine alGet_append_last _ _ _ ?_
        simpa using hfresh_ps
      have hfresh_ph : p.height ∉ (pre ++ s).map Block.height := by
        intro hmem
        obtain ⟨x, hx, hxh⟩ := List.mem_map.mp hmem
        have := hlt x hx
        omega
      match fuel, hfuel with
      | fm + 1, hfuel =>
        -- the state after this strip step
        have hdb2 : alRemove c.dbBlocks p.hash =
            (pre ++ s).map (fun b => (b.hash, b)) := by
          rw [hdb]
          have hsh : (pre ++ (s ++ [p])).map (fun b => (b.hash, b)) =
              ((pre ++ s).map (fun b => (b.hash, b))) ++ [(p.hash, p)] := by
            simp
          rw [hsh]
          refine alRemove_append_last _ _ _ ?_
          simpa using hfresh_ps
        have hhi2 : alRemove c.dbHeightIndex p.height =
            (pre ++ s).map (fun b => (b.height, b.hash)) := by
          rw [hhi]
          have hsh : (pre ++ (s ++ [p])).map (fun b => (b.height, b.hash)) =
              ((pre ++ s).map (fun b => (b.height, b.hash))) ++
                [(p.height, p.hash)] := by
            simp
          rw [hsh]
          refine alRemove_append_last _ _ _ ?_
          simpa using hfresh_ph
        have hhmp : alGet c.heightsMapping p.height = none :=
          hhm p (by simp)
        have hhm2 : hmInsert c.heightsMapping p.height p.hash inv =
            alInsert c.heightsMapping p.height [(p.hash, inv)] := by
          unfold hmInsert
          rw [hhmp]
        obtain ⟨c', hrun, e1, e2, epos, epool, ehm, e3, e4, e5, e6, e7, e8,
          e9, e10, e11, e12⟩ :=
          ih { c with
              dbBlocks := alRemove c.dbBlocks p.hash,
              dbHeightIndex := alRemove c.dbHeightIndex p.height,
              orphanPool := alInsert c.orphanPool p.hash p,
              validationsMapping := alInsert c.validationsMapping p.hash
                OrphanType.belongsToValidChain,
              heightsMapping := hmInsert c.heightsMapping p.height p.hash inv,
              lastCheckpointHeight := none }
            p (inv + 1) fm M
            (by simp at hfuel ⊢; omega)
            (by simpa using hdb2)
            (by simpa using hhi2)
            (by simpa [List.append_assoc] using hlinkps)
            (by
              have : (g :: (pre ++ s ++ [p])).map Block.hash =
                  (g :: (pre ++ s)).map Block.hash ++ [p.hash] := by simp
              rw [this]
              rcases List.nodup_append.mp ((List.append_assoc _ _ _) ▸ hndX)
                with ⟨h1, h2, hdisj⟩
              rw [List.nodup_append]
              refine ⟨h1, by simp, ?_⟩
              intro a ha hb
              simp only [List.mem_singleton] at hb
              subst hb
              exact hfresh_p ha)
            rfl hmx (by omega)
            (by
              intro b hb
              have hbh : b.height < p.height := hlt b (by simp [hb])
              rw [hhm2]
              rw [alGet_insert_ne _ _ _ _ (by omega)]
              exact hhm b (by simp [hb]))
        have hstep : rewindLoop c cur ((pre.getLast?).getD g).hash inv
            (fm + 1) = some c' := by
          unfold rewindLoop
          rw [hcur]
          simp only [bind, Option.some_bind]
          rw [if_neg hne]
          simp only [hcp]
          rw [hlookup]
          simp only [Option.some_bind]
          rw [updateMaxOrphanHeight_le _ p.height M]
          · exact hrun
          · exact hmx
          · omega
        refine ⟨c', hstep, e1, e2, ?_, ?_, ?_, e3, e4, e5, e6, e7,
          e8, e9, e10, e11, e12⟩
        · -- facts for every stripped block
          intro b hb
          rcases List.mem_append.mp hb with hb | hb
          · obtain ⟨f1, f2, e, f3, f4⟩ := epos b hb
            have hbh : b.height < p.height := hlt b (by simp [hb])
            refine ⟨f1, f2, e, f3, ?_⟩
            rw [f4]
            have : inv + 1 + (p.height - 1 - b.height) =
                inv + (cur.height - 1 - b.height) := by omega
            rw [this]
          · simp only [List.mem_singleton] at hb
            subst hb
            have hbs : b.hash ∉ s.map Block.hash := by
              intro hmem
              exact hfresh_p (by simp [hmem])
            have hbh : ∀ x ∈ s, b.height ≠ x.height := by
              intro x hx
              have := hlt x (by simp [hx])
              omega
            obtain ⟨g1, g2⟩ := epool b.hash hbs
            have g3 := ehm b.height hbh
            refine ⟨?_, ?_, [(b.hash, inv)], ?_, ?_⟩
            · rw [g1]
              exact alGet_insert_self _ _ _
            · rw [g2]
              exact alGet_insert_self _ _ _
            · rw [g3, hhm2]
              exact alGet_insert_self _ _ _
            · have heq2 : inv + (cur.height - 1 - b.height) = inv := by omega
              rw [heq2]
              simp [alGet]
        · -- untouched pool and validation entries
          intro x hx
          have hxs : x ∉ s.map Block.hash := by
            intro hmem
            exact hx (by simp [hmem])
          have hxp : ¬ p.hash = x := by
            intro hcontra
            exact hx (by simp [← hcontra])
          obtain ⟨g1, g2⟩ := epool x hxs
          constructor
          · rw [g1]
            exact alGet_insert_ne _ _ _ _ (fun hh => hxp hh.symm)
          · rw [g2]
            exact alGet_insert_ne _ _ _ _ (fun hh => hxp hh.symm)
        · -- untouched height entries
          intro ht hth
          have hts : ∀ b ∈ s, ht ≠ b.height := by
            intro b hb
            exact hth b (by simp [hb])
          have htp : ¬ p.height = ht := by
            intro hcontra
            exact hth p (by simp) hcontra.symm
          rw [ehm ht hts, hhm2]
          exact alGet_insert_ne _ _ _ _ (fun hh => htp hh.symm)

/-- The heights of a block list are consecutive starting at `h`. -/
def heightsFrom : Nat → List Block → Prop
  | _, [] => True
  | h, b :: t => b.height = h ∧ heightsFrom (h + 1) t

theorem chainLinked_heightsFrom :
    ∀ (l : List Block) (g : Block), chainLinked g l →
      heightsFrom (g.height + 1) l
  | [], _, _ => trivial
  | b :: t, g, h => by
      obtain ⟨hp, hh, hrest⟩ := h
      exact ⟨hh, hh ▸ chainLinked_heightsFrom t b hrest⟩

theorem heightsFrom_ge :
    ∀ (l : List Block) (h : Nat), heightsFrom h l → ∀ b ∈ l, h ≤ b.height
  | [], _, _, b, hb => by cases hb
  | x :: t, h, hf, b, hb => by
      obtain ⟨hx, hrest⟩ := hf
      rcases List.mem_cons.mp hb with hb | hb
      · subst hb; omega
      · have := heightsFrom_ge t (h + 1) hrest b hb
        omega

/-- Looking a member up by key in a `map`-built association list with
duplicate-free keys. -/
theorem alGet_map_key {α : Type} (key : Block → Nat) (val : Block → α) :
    ∀ (l : List Block) (x : Block), x ∈ l → (l.map key).Nodup →
      alGet (l.map (fun b => (key b, val b))) (key x) = some (val x)
  | [], x, hx, _ => by cases hx
  | y :: t, x, hx, hnd => by
      simp only [List.map_cons, List.nodup_cons] at hnd
      rcases List.mem_cons.mp hx with hx | hx
      · subst hx
        simp [alGet]
      · have hne : ¬ key y = key x := by
          intro hcontra
          exact hnd.1 (hcontra ▸ List.mem_map_of_mem key hx)
        simp only [List.map_cons, alGet, if_neg hne]
        exact alGet_map_key key val t x hx hnd.2

/-- The replay loop of `fetch_next_state` succeeds on a stretch of indexed,
stored blocks with consecutive heights when `append_condition` always
succeeds. -/
theorem fetchReplay_ok (P : BParams CS) (c : Chain CS)
    (hcond : ∀ b s, ∃ s', P.appendCondition b s = Except.ok s') :
    ∀ (l : List Block) (b : Block) (st : CS) (cur fuel : Nat),
      (b :: l).length ≤ fuel →
      heightsFrom cur (b :: l) →
      (∀ x ∈ b :: l, alGet c.dbHeightIndex x.height = some x.hash ∧
        alGet c.dbBlocks x.hash = some x) →
      ∃ st', fetchReplay P c st cur (cur + l.length) fuel = some st'
  | [], b, st, cur, fuel, hfuel, hf, hmaps => by
      match fuel, hfuel with
      | fm + 1, _ =>
        obtain ⟨h1, h2⟩ := hmaps b (by simp)
        obtain ⟨st', hst'⟩ := hcond b st
        rw [hf.1] at h1
        refine ⟨st', ?_⟩
        unfold fetchReplay
        simp only [List.length_nil, Nat.add_zero]
        rw [h1]
        simp only [bind, Option.some_bind]
        rw [h2]
        simp only [Option.some_bind]
        rw [hst']
        simp
  | x :: t, b, st, cur, fuel, hfuel, hf, hmaps => by
      match fuel, hfuel with
      | fm + 1, hfuel =>
        obtain ⟨h1, h2⟩ := hmaps b (by simp)
        obtain ⟨st', hst'⟩ := hcond b st
        have hlen : cur ≠ cur + (x :: t).length := by simp
        obtain ⟨stf, hstf⟩ := fetchReplay_ok P c hcond t x st' (cur + 1) fm
          (by simp at hfuel ⊢; omega)
          (by exact hf.2)
          (fun y hy => hmaps y (List.mem_cons_of_mem b hy))
        rw [hf.1] at h1
        refine ⟨stf, ?_⟩
        unfold fetchReplay
        rw [h1]
        simp only [bind, Option.some_bind]
        rw [h2]
        simp only [Option.some_bind]
        rw [hst']
        simp only [if_neg hlen]
        have heq : cur + 1 + t.length = cur + (x :: t).length := by
          simp only [List.length_cons]; omega
        rw [← heq]
        exact hstf

/-- With no checkpoints, `search_fetch_next_state` replays from genesis and
succeeds whenever the canonical prefix up to the target height is indexed
and stored and the target stays below `CHECKPOINT_INTERVAL`. -/
theorem searchFetchNextState_ok (P : BParams CS) (c : Chain CS)
    (target fuel : Nat) (l : List Block)
    (hcond : ∀ b s, ∃ s', P.appendCondition b s = Except.ok s')
    (hcp : c.lastCheckpointHeight = none)
    (hh : c.height = target)
    (hint : target < P.checkpointInterval ∨ target = 0)
    (hlen : l.length = target)
    (hf : heightsFrom 1 l)
    (hmaps : ∀ x ∈ l, alGet c.dbHeightIndex x.height = some x.hash ∧
      alGet c.dbBlocks x.hash = some x)
    (hfuel : l.length + 1 ≤ fuel) :
    ∃ st', searchFetchNextState P c target fuel = some st' := by
  unfold searchFetchNextState
  rw [hcp]
  simp only [bind, Option.some_bind]
  unfold fetchNextState
  rw [if_neg (by rw [hh]; simp)]
  rw [if_neg (by simp)]
  by_cases h0 : target = 0
  · rw [if_pos h0]
    exact ⟨P.genesisState, rfl⟩
  · rw [if_neg h0]
    have hintlt : target < P.checkpointInterval := by
      rcases hint with h | h
      · exact h
      · exact absurd h h0
    rw [if_pos hintlt]
    simp only [bind, Option.some_bind]
    rw [if_neg (fun hc => h0 hc.symm)]
    cases l with
    | nil => simp at hlen; exact absurd hlen.symm h0
    | cons b t =>
        obtain ⟨st', hst'⟩ := fetchReplay_ok P c hcond t b P.genesisState 1
          fuel (by simp at hfuel ⊢; omega) hf
          (fun y hy => hmaps y hy)
        refine ⟨st', ?_⟩
        have : (1 : Nat) + t.length = target := by
          simp at hlen; omega
        rw [← this]
        exact hst'

theorem heightsFrom_prefix :
    ∀ (l l' : List Block) (h : Nat), heightsFrom h (l ++ l') →
      heightsFrom h l
  | [], _, _, _ => trivial
  | _b :: t, l', h, hf => ⟨hf.1, heightsFrom_prefix t l' (h + 1) hf.2⟩

theorem heightsFrom_nodup :
    ∀ (l : List Block) (h : Nat), heightsFrom h l →
      (l.map Block.height).Nodup
  | [], _, _ => List.nodup_nil
  | _b :: t, h, hf => by
      simp only [List.map_cons, List.nodup_cons]
      refine ⟨?_, heightsFrom_nodup t (h + 1) hf.2⟩
      intro hmem
      obtain ⟨x, hx, hxh⟩ := List.mem_map.mp hmem
      have := heightsFrom_ge t (h + 1) hf.2 x hx
      have := hf.1
      omega

theorem heightsFrom_getLast :
    ∀ (l : List Block) (h : Nat) (x : Block), heightsFrom h l →
      l.getLast? = some x → x.height = h + l.length - 1
  | [], _, _, _, hg => by cases hg
  | b :: t, h, x, hf, hg => by
      cases t with
      | nil =>
          simp only [List.getLast?_singleton, Option.some.injEq] at hg
          subst hg
          simp [hf.1]
      | cons c t' =>
          rw [List.getLast?_cons_cons] at hg
          have := heightsFrom_getLast (c :: t') (h + 1) x hf.2 hg
          simp only [List.length_cons] at this ⊢
          omega

/-- The canonical-chain state over which `rewind` is characterised: the
blocks `cs` are the canonical chain above genesis (which `Chain::new` never
writes to the store), with the current tip state `st` and no checkpoints. -/
def canonState (P : BParams CS) (cs : List Block) (st : CS) : Chain CS :=
  { freshChain P with
      dbBlocks := cs.map (fun b => (b.hash, b)),
      dbHeightIndex := cs.map (fun b => (b.height, b.hash)),
      dbBlockHeights := cs.map (fun b => (b.hash, b.height)),
      dbCanonicalHeight := cs.length,
      height := cs.length,
      canonicalTip := (cs.getLast?).getD P.genesis,
      canonicalTipState := st }

/-- C3, amended.  `rewind(h)` returns `NoSuchBlock` and leaves the state
unchanged when `h` is neither the genesis hash nor in the canonical store
(first conjunct).  The claimed success-and-reclassification behaviour is
proved here only in a restricted regime: a checkpoint-free engine whose
orphan side is empty and whose canonical chain above genesis has length at
most `CHECKPOINT_INTERVAL` (so the post-rewind state replay runs from
genesis).  There, when the target is a strict ancestor of the canonical
tip (the block at position `k`, genesis for `k = 0`), `rewind` succeeds:
the target becomes the canonical tip, the stripped blocks leave the block
store and the height index and enter the orphan pool with their inverse
heights recorded, the old tip becomes a `ValidChainTip` with its state in
`valid_tips_states`, the interior stripped blocks become
`BelongsToValidChain`, and `max_orphan_height` becomes the old tip height
(second conjunct).  Outside this regime the claim's unrestricted
"otherwise it succeeds" is false in two distinct ways, both panics in the
source: rewinding to the canonical tip itself, and rewinding below two
retained checkpoints (the checkpoint deletion inside the strip loop leaves
`last_checkpoint_height` stale, so the post-loop `search_fetch_next_state`
calls `fetch_next_state` with `height > target_height` and fails its
assert): see `rewind_panics`. -/
theorem rewind_semantics (P : BParams CS) (cs : List Block) (st : CS)
    (k fuel : Nat)
    (hcond : ∀ b s, ∃ s', P.appendCondition b s = Except.ok s')
    (hgen : P.genesis.height = 0)
    (hlink : chainLinked P.genesis cs)
    (hnd : ((P.genesis :: cs).map Block.hash).Nodup)
    (hint : cs.length ≤ P.checkpointInterval)
    (hk : k < cs.length)
    (hfuel : cs.length + 2 ≤ fuel) :
    (∀ (c : Chain CS) (bh f2 : Nat), bh ≠ P.genesis.hash →
      alGet c.dbBlocks bh = none →
      rewind P c bh f2 = some (Except.error ChainErr.noSuchBlock, c)) ∧
    (∃ c', rewind P (canonState P cs st)
        (((cs.take k).getLast?).getD P.genesis).hash fuel =
        some (Except.ok (), c') ∧
      c'.canonicalTip = ((cs.take k).getLast?).getD P.genesis ∧
      c'.height = (((cs.take k).getLast?).getD P.genesis).height ∧
      c'.dbBlocks = (cs.take k).map (fun b => (b.hash, b)) ∧
      c'.dbHeightIndex = (cs.take k).map (fun b => (b.height, b.hash)) ∧
      (∀ b ∈ cs.drop k,
        alGet c'.dbBlocks b.hash = none ∧
        alGet c'.dbHeightIndex b.height = none ∧
        alGet c'.orphanPool b.hash = some b ∧
        ∃ e, alGet c'.heightsMapping b.height = some e ∧
          alGet e b.hash =
            some (((cs.getLast?).getD P.genesis).height - b.height)) ∧
      (∀ b ∈ (cs.drop k).dropLast,
        alGet c'.validationsMapping b.hash =
          some OrphanType.belongsToValidChain) ∧
      alGet c'.validationsMapping ((cs.getLast?).getD P.genesis).hash =
        some OrphanType.validChainTip ∧
      sMem c'.validTips ((cs.getLast?).getD P.genesis).hash = true ∧
      alGet c'.validTipsStates ((cs.getLast?).getD P.genesis).hash =
        some st ∧
      c'.maxOrphanHeight =
        some (((cs.getLast?).getD P.genesis).height)) := by
  constructor
  · -- absent non-genesis target: NoSuchBlock, state unchanged
    intro c bh f2 hne hnone
    unfold rewind
    simp only [if_neg hne, hnone]
  · -- strict-ancestor target
    have hcsne : cs ≠ [] := by
      intro h
      rw [h] at hk
      simp at hk
    obtain ⟨tl, htl⟩ := Option.isSome_iff_exists.mp
      (show cs.getLast?.isSome by rw [List.getLast?_isSome]; exact hcsne)
    have hhf : heightsFrom 1 cs := by
      have h0 := chainLinked_heightsFrom cs P.genesis hlink
      rw [hgen] at h0
      exact h0
    have hndcs : (cs.map Block.hash).Nodup := by
      simp only [List.map_cons, List.nodup_cons] at hnd
      exact hnd.2
    have hgns : P.genesis.hash ∉ cs.map Block.hash := by
      simp only [List.map_cons, List.nodup_cons] at hnd
      exact hnd.1
    have htk : cs.take k ++ cs.drop k = cs := List.take_append_drop k cs
    have hdltl : cs.dropLast ++ [tl] = cs :=
      List.dropLast_append_getLast? tl (Option.mem_def.mpr htl)
    obtain ⟨d0, dt, hd⟩ : ∃ d0 dt, cs.drop k = d0 :: dt := by
      cases hdk : cs.drop k with
      | nil =>
          exfalso
          have hlen0 := congrArg List.length hdk
          simp at hlen0
          omega
      | cons a b => exact ⟨a, b, rfl⟩
    have hps : cs.take k ++ (cs.drop k).dropLast = cs.dropLast := by
      conv_rhs => rw [← htk, hd]
      rw [hd, List.dropLast_append_cons]
    have hall : cs.take k ++ (cs.drop k).dropLast ++ [tl] = cs := by
      rw [hps, hdltl]
    have hsuftl : (cs.drop k).dropLast ++ [tl] = cs.drop k := by
      have h1 : cs.take k ++ ((cs.drop k).dropLast ++ [tl]) =
          cs.take k ++ cs.drop k := by
        rw [← List.append_assoc, hps, hdltl, htk]
      exact List.append_cancel_left h1
    have hlinkdl : chainLinked P.genesis (cs.dropLast ++ [tl]) := by
      rw [hdltl]; exact hlink
    have hltdl : ∀ x ∈ cs.dropLast, x.height < tl.height :=
      chainLinked_lt_last cs.dropLast P.genesis tl hlinkdl
    have hnddl : (cs.dropLast.map Block.hash ++ [tl.hash]).Nodup := by
      have : (cs.dropLast ++ [tl]).map Block.hash =
          cs.dropLast.map Block.hash ++ [tl.hash] := by simp
      rw [← this, hdltl]
      exact hndcs
    have htlfresh : tl.hash ∉ cs.dropLast.map Block.hash := by
      rcases List.nodup_append.mp hnddl with ⟨-, -, hdisj⟩
      intro hmem
      exact hdisj hmem (by simp)
    have htlhfresh : tl.height ∉ cs.dropLast.map Block.height := by
      intro hmem
      obtain ⟨x, hx, hxh⟩ := List.mem_map.mp hmem
      have := hltdl x hx
      omega
    -- the state right after the tip strip
    obtain ⟨c', hrun, e1, e2, epos, epool, ehm, e3, e4, e5, e6, e7, e8,
      e9, e10, e11, e12⟩ :=
      rewindLoop_linear P.genesis (cs.take k) ((cs.drop k).dropLast)
        { canonState P cs st with
            dbBlocks := alRemove (cs.map (fun b => (b.hash, b))) tl.hash,
            dbHeightIndex :=
              alRemove (cs.map (fun b => (b.height, b.hash))) tl.height,
            orphanPool := alInsert [] tl.hash tl,
            validationsMapping :=
              alInsert [] tl.hash OrphanType.validChainTip,
            validTips := sInsert [] tl.hash,
            validTipsStates := alInsert [] tl.hash st,
            heightsMapping := hmInsert [] tl.height tl.hash 0,
            maxOrphanHeight := some tl.height,
            canonicalTip := tl }
        tl 1 fuel tl.height
        (by
          have h1 : ((cs.drop k).dropLast).length ≤ cs.length := by
            have := List.length_dropLast (cs.drop k)
            have := List.length_drop k cs
            omega
          omega)
        (by
          show alRemove (cs.map (fun b => (b.hash, b))) tl.hash = _
          conv_lhs => rw [← hdltl]
          simp only [List.map_append, List.map_cons, List.map_nil]
          rw [alRemove_append_last _ _ _ (by simpa using htlfresh)]
          rw [← List.map_append, hps])
        (by
          show alRemove (cs.map (fun b => (b.height, b.hash))) tl.height = _
          conv_lhs => rw [← hdltl]
          simp only [List.map_append, List.map_cons, List.map_nil]
          rw [alRemove_append_last _ _ _ (by simpa using htlhfresh)]
          rw [← List.map_append, hps])
        (by rw [show cs.take k ++ (cs.drop k).dropLast ++ [tl] = cs from hall]
            exact hlink)
        (by rw [show cs.take k ++ (cs.drop k).dropLast ++ [tl] = cs from hall]
            exact hnd)
        rfl rfl (by omega)
        (by
          intro b hb
          have hbdl : b ∈ cs.dropLast := by
            rw [← hps]
            exact List.mem_append_right _ hb
          have hblt := hltdl b hbdl
          simp only [hmInsert, alGet, alInsert]
          rw [if_neg (by omega)])
    -- facts about the target block
    have hfk : heightsFrom 1 (cs.take k) :=
      heightsFrom_prefix (cs.take k) (cs.drop k) 1 (by rw [htk]; exact hhf)
    have hlenk : (cs.take k).length = k := by rw [List.length_take]; omega
    have hth : (((cs.take k).getLast?).getD P.genesis).height = k := by
      by_cases hk0 : k = 0
      · subst hk0
        simp [hgen]
      · obtain ⟨tb, htb⟩ := Option.isSome_iff_exists.mp
          (show ((cs.take k).getLast?).isSome by
            rw [List.getLast?_isSome]
            intro hnil
            rw [hnil] at hlenk
            simp at hlenk
            omega)
        rw [htb, Option.getD_some]
        have hh := heightsFrom_getLast (cs.take k) 1 tb hfk htb
        omega
    have hNT : (if (((cs.take k).getLast?).getD P.genesis).hash = P.genesis.hash
          then some P.genesis
          else alGet (cs.map (fun b => (b.hash, b)))
            (((cs.take k).getLast?).getD P.genesis).hash) =
        some (((cs.take k).getLast?).getD P.genesis) := by
      by_cases hk0 : k = 0
      · subst hk0
        simp
      · obtain ⟨tb, htb⟩ := Option.isSome_iff_exists.mp
          (show ((cs.take k).getLast?).isSome by
            rw [List.getLast?_isSome]
            intro hnil
            rw [hnil] at hlenk
            simp at hlenk
            omega)
        rw [htb, Option.getD_some]
        have htbm : tb ∈ cs := by
          have h1 : tb ∈ cs.take k := by
            obtain ⟨hne', heq'⟩ := List.mem_getLast?_eq_getLast
              (Option.mem_def.mpr htb)
            rw [heq']
            exact List.getLast_mem hne'
          exact List.take_subset k cs h1
        have hneq : ¬ tb.hash = P.genesis.hash := by
          intro he
          exact hgns (he ▸ List.mem_map_of_mem Block.hash htbm)
        rw [if_neg hneq]
        exact alGet_map_key Block.hash (fun b => b) cs tb htbm hndcs
    have htknd : ((cs.take k).map Block.hash).Nodup := by
      rw [List.map_take]
      exact (List.take_sublist k (cs.map Block.hash)).nodup hndcs
    have hkeys : ∀ (l : List Block),
        (l.map (fun b => (b.hash, b))).map Prod.fst = l.map Block.hash := by
      intro l
      simp
    have hkeysh : ∀ (l : List Block),
        (l.map (fun b => (b.height, b.hash))).map Prod.fst =
          l.map Block.height := by
      intro l
      simp
    have hdisjtk : ∀ b ∈ cs.drop k, b.hash ∉ (cs.take k).map Block.hash := by
      intro b hb hmem
      have h1 : ((cs.take k).map Block.hash ++
          (cs.drop k).map Block.hash).Nodup := by
        rw [← List.map_append, htk]
        exact hndcs
      rcases List.nodup_append.mp h1 with ⟨-, -, hdisj⟩
      exact hdisj hmem (List.mem_map_of_mem Block.hash hb)
    have hdisjtkh : ∀ b ∈ cs.drop k,
        b.height ∉ (cs.take k).map Block.height := by
      intro b hb hmem
      have h1 : ((cs.take k).map Block.height ++
          (cs.drop k).map Block.height).Nodup := by
        rw [← List.map_append, htk]
        exact heightsFrom_nodup cs 1 hhf
      rcases List.nodup_append.mp h1 with ⟨-, -, hdisj⟩
      exact hdisj hmem (List.mem_map_of_mem Block.height hb)
    have hsufdl : ∀ b ∈ (cs.drop k).dropLast, b ∈ cs.dropLast := by
      intro b hb
      rw [← hps]
      exact List.mem_append_right _ hb
    have hmemdk : ∀ b ∈ cs.drop k, b ∈ (cs.drop k).dropLast ∨ b = tl := by
      intro b hb
      rw [← hsuftl] at hb
      rcases List.mem_append.mp hb with h | h
      · exact Or.inl h
      · exact Or.inr (by simpa using h)
    have htlnotsuf : tl.hash ∉ ((cs.drop k).dropLast).map Block.hash := by
      intro hmem
      refine htlfresh ?_
      rw [← hps, List.map_append]
      exact List.mem_append_right _ hmem
    -- the state after the replay of the retained prefix succeeds
    obtain ⟨st', hsearch⟩ := searchFetchNextState_ok P
      { c' with
          height := (((cs.take k).getLast?).getD P.genesis).height,
          dbCanonicalHeight := (((cs.take k).getLast?).getD P.genesis).height }
      (((cs.take k).getLast?).getD P.genesis).height fuel (cs.take k) hcond
      (by exact e11)
      rfl
      (Or.inl (by rw [hth]; omega))
      (by rw [hlenk, hth])
      hfk
      (by
        intro x hx
        refine ⟨?_, ?_⟩
        · show alGet c'.dbHeightIndex x.height = some x.hash
          rw [e2]
          exact alGet_map_key Block.height Block.hash (cs.take k) x hx
            (heightsFrom_nodup (cs.take k) 1 hfk)
        · show alGet c'.dbBlocks x.hash = some x
          rw [e1]
          exact alGet_map_key Block.hash (fun b => b) (cs.take k) x hx htknd)
      (by rw [hlenk]; omega)
    rw [htl]
    simp only [Option.getD_some]
    refine ⟨{ c' with
        height := (((cs.take k).getLast?).getD P.genesis).height,
        dbCanonicalHeight := (((cs.take k).getLast?).getD P.genesis).height,
        canonicalTipState := st',
        canonicalTip := ((cs.take k).getLast?).getD P.genesis },
      ?_, rfl, rfl, ?_, ?_, ?_, ?_, ?_, ?_, ?_, ?_⟩
    · -- the rewind call itself
      unfold rewind
      simp only [canonState, freshChain, htl, Option.getD_some, hNT, bind]
      refine Option.bind_eq_some.mpr ⟨c', ?_, ?_⟩
      · exact hrun
      · refine Option.bind_eq_some.mpr ⟨st', ?_, ?_⟩
        · exact hsearch
        · rfl
    · show c'.dbBlocks = (cs.take k).map (fun b => (b.hash, b))
      exact e1
    · show c'.dbHeightIndex = (cs.take k).map (fun b => (b.height, b.hash))
      exact e2
    · -- every stripped block leaves the store and enters the pool
      intro b hb
      rcases hmemdk b hb with hbs | rfl
      · have hbdl : b ∈ cs.dropLast := hsufdl b hbs
        have hblt : b.height < tl.height := hltdl b hbdl
        obtain ⟨hpool2, hvm2, e, he, hev⟩ := epos b hbs
        refine ⟨?_, ?_, ?_, e, ?_, ?_⟩
        · show alGet c'.dbBlocks b.hash = none
          rw [e1]
          refine alGet_not_mem_none _ _ ?_
          rw [hkeys]
          exact fun hmem => hdisjtk b hb hmem
        · show alGet c'.dbHeightIndex b.height = none
          rw [e2]
          refine alGet_not_mem_none _ _ ?_
          rw [hkeysh]
          exact fun hmem => hdisjtkh b hb hmem
        · show alGet c'.orphanPool b.hash = some b
          exact hpool2
        · show alGet c'.heightsMapping b.height = some e
          exact he
        · show alGet e b.hash = some (tl.height - b.height)
          have heq2 : 1 + (tl.height - 1 - b.height) = tl.height - b.height := by
            omega
          rw [← heq2]
          exact hev
      · refine ⟨?_, ?_, ?_, ?_⟩
        · show alGet c'.dbBlocks b.hash = none
          rw [e1]
          refine alGet_not_mem_none _ _ ?_
          rw [hkeys]
          exact fun hmem => hdisjtk b hb hmem
        · show alGet c'.dbHeightIndex b.height = none
          rw [e2]
          refine alGet_not_mem_none _ _ ?_
          rw [hkeysh]
          exact fun hmem => hdisjtkh b hb hmem
        · show alGet c'.orphanPool b.hash = some b
          rw [(epool b.hash htlnotsuf).1]
          simp [alInsert, alGet]
        · have hhm := ehm b.height (by
            intro x hx'
            have := hltdl x (hsufdl x hx')
            omega)
          refine ⟨[(b.hash, 0)], ?_, ?_⟩
          · show alGet c'.heightsMapping b.height = some [(b.hash, 0)]
            rw [hhm]
            simp [hmInsert, alGet, alInsert]
          · simp [alGet]
    · -- interior stripped blocks are BelongsToValidChain
      intro b hb
      show alGet c'.validationsMapping b.hash =
        some OrphanType.belongsToValidChain
      exact (epos b hb).2.1
    · show alGet c'.validationsMapping tl.hash = some OrphanType.validChainTip
      rw [(epool tl.hash htlnotsuf).2]
      simp [alInsert, alGet]
    · show sMem c'.validTips tl.hash = true
      rw [e3]
      simp [sInsert, sMem]
    · show alGet c'.validTipsStates tl.hash = some st
      rw [e4]
      simp [alInsert, alGet]
    · show c'.maxOrphanHeight = some tl.height
      exact e10

theorem rewind_semantics_witness :
    (1 < ([⟨1, some 0, 1⟩, ⟨2, some 1, 2⟩] : List Block).length) ∧
    ∃ c', rewind testParams
        (canonState testParams [⟨1, some 0, 1⟩, ⟨2, some 1, 2⟩] 2) 1 10 =
      some (Except.ok (), c') := by
  refine ⟨by decide, ?_⟩
  obtain ⟨c', hc', -⟩ := (rewind_semantics testParams
    [⟨1, some 0, 1⟩, ⟨2, some 1, 2⟩] 2 1 10
    (fun b s => ⟨s + 1, rfl⟩)
    rfl
    ⟨rfl, rfl, rfl, rfl, trivial⟩
    (by decide)
    (by decide)
    (by decide)
    (by decide)).2
  exact ⟨c', hc'⟩

/-- Block parameters with a small checkpoint interval, to exercise the
checkpoint-deletion path of the strip loop. -/
def cpParams : BParams Nat where
  genesis := ⟨0, none, 0⟩
  genesisState := 0
  appendCondition := fun _ s => Except.ok (s + 1)
  maxOrphans := 20
  switchOffset := 0
  minHeight := 10
  maxHeight := 10
  checkpointInterval := 2

/-- A five-block canonical chain over `cpParams` with two retained
checkpoints, at heights 2 and 4 (`CHECKPOINT_INTERVAL = 2`). -/
def c3CpChain : Chain Nat where
  dbBlocks := [(1, ⟨1, some 0, 1⟩), (2, ⟨2, some 1, 2⟩), (3, ⟨3, some 2, 3⟩),
    (4, ⟨4, some 3, 4⟩), (5, ⟨5, some 4, 5⟩)]
  dbHeightIndex := [(1, 1), (2, 2), (3, 3), (4, 4), (5, 5)]
  dbBlockHeights := [(1, 1), (2, 2), (3, 3), (4, 4), (5, 5)]
  dbCanonicalHeight := 5
  height := 5
  canonicalTip := ⟨5, some 4, 5⟩
  canonicalTipState := 5
  orphanPool := []
  maxOrphanHeight := none
  heightsMapping := []
  diskHeightsCheckpoints := [(2, 0), (4, 1)]
  lastCheckpointHeight := some 4
  earliestCheckpointHeight := some 2
  validationsMapping := []
  disconnectedHeadsMapping := []
  disconnectedHeadsHeights := []
  disconnectedTipsMapping := []
  validTips := []
  validTipsStates := []
  archivalMode := false
  checkpointStore := [(0, 2), (1, 4)]
  nextCheckpointId := 2

/-- Two refutations of the claim's unrestricted "otherwise it succeeds",
both panics in the source.  First, rewinding to the canonical tip itself:
the strip loop only stops when a parent hash equals the target, so it
walks past genesis and unwraps a missing parent lookup, even though the
target hash is present in the canonical store.  Second, rewinding to a
strict ancestor below two retained checkpoints: the strip loop deletes
the last checkpoint without updating `last_checkpoint_height`, so the
stale marker makes `search_fetch_next_state` pick a checkpoint height
above the new tip and `fetch_next_state` fails its
`height <= target_height` assert. -/
theorem rewind_panics :
    ((query (canonState testParams [⟨1, some 0, 1⟩, ⟨2, some 1, 2⟩] 2) 2).isSome
        = true ∧
      rewind testParams
        (canonState testParams [⟨1, some 0, 1⟩, ⟨2, some 1, 2⟩] 2) 2 100 =
        none) ∧
    ((query c3CpChain 1).isSome = true ∧
      c3CpChain.canonicalTip.hash ≠ 1 ∧
      rewind cpParams c3CpChain 1 100 = none) := by
  decide

end Purple
